import Mathlib

/-!
RunGen: shape utilities, scalar codec, memory tracker, command line and run of `main`;
PyFunc: the access counters.

A shallow embedding of `tools/RunGen.cpp` and of the access counters of
`python_bindings/src/PyFunc.cpp`.  C++ strings are lists of characters, `std::vector` is
`List`, `std::map` and `std::set` are lists kept in the order of the keys, and a call of
`fail()` (which prints and exits with code 1) is the `Except.error` outcome carrying the
printed message.  What `main` gets from outside (the image library, the module under test)
is a parameter, the record `Environment`.
-/

namespace RunGen

/-- Equality of the outcomes of a computation that may call `fail()` is decidable. -/
instance instDecidableEqExcept {ε α : Type} [DecidableEq ε] [DecidableEq α] :
    DecidableEq (Except ε α)
  | .ok a, .ok b => if h : a = b then isTrue (by rw [h]) else isFalse (fun h2 => by cases h2; exact h rfl)
  | .error a, .error b =>
    if h : a = b then isTrue (by rw [h]) else isFalse (fun h2 => by cases h2; exact h rfl)
  | .ok _, .error _ => isFalse (fun h => by cases h)
  | .error _, .ok _ => isFalse (fun h => by cases h)

/-! ## Machine integers -/

/-- Two's-complement reduction of an integer to a signed integer of `w` bits. -/
def wrap (w : Nat) (x : Int) : Int := Int.bmod x (2 ^ w)

/-- Product of two signed `w`-bit integers as the machine computes it. -/
def mulw (w : Nat) (a b : Int) : Int := wrap w (a * b)

/-- Predicate: `x` is representable as a signed integer of `w` bits. -/
def fitsSigned (w : Nat) (x : Int) : Prop :=
  -((2 : Int) ^ (w - 1)) ≤ x ∧ x < (2 : Int) ^ (w - 1)

instance (w : Nat) (x : Int) : Decidable (fitsSigned w x) := by
  unfold fitsSigned; exact inferInstance

/-! ## Shapes -/

/-- Modelled from the spec: a Dimension `{min, extent, stride}`, one axis of a buffer.  It is
the type `halide_dimension_t`, declared in `HalideRuntime.h`, which is not among the sources;
`RunGen.cpp` initialises it as `{0, 0, 0}` and reads and writes these three fields only.
The fields are signed machine integers; their width is not fixed here but is the parameter
`w` of the functions that multiply or parse them (the Halide runtime declares them
`int32_t`). -/
structure halide_dimension_t where
  min : Int
  extent : Int
  stride : Int
  deriving DecidableEq, Repr

/-- The source's `Shape`: a vector of `halide_dimension_t`. -/
abbrev Shape := List halide_dimension_t

/-- Element access `shape[i]`. -/
def Shape.at (s : Shape) (i : Nat) : halide_dimension_t := s.getD i ⟨0, 0, 0⟩

/-- Assignment `shape[i].extent = v`. -/
def Shape.setExtent (s : Shape) (i : Nat) (v : Int) : Shape :=
  s.set i { s.at i with extent := v }

/-- Assignment `shape[i].stride = v`. -/
def Shape.setStride (s : Shape) (i : Nat) (v : Int) : Shape :=
  s.set i { s.at i with stride := v }

/-- Body of the first loop of `fix_bounds_query_shape`: fill in a zero extent of axis `i`. -/
def fill_extent (constrained_shape : Shape) (new_shape : Shape) (i : Nat) : Shape :=
  if (new_shape.at i).extent = 0 then
    if i = 2 then
      if (constrained_shape.at 0).stride ≥ 1 ∧ (constrained_shape.at 2).stride = 1 then
        new_shape.setExtent i (constrained_shape.at 0).stride
      else
        new_shape.setExtent i 4
    else
      new_shape.setExtent i 1
  else new_shape

/-- The extent that the first loop of `fix_bounds_query_shape` leaves on axis `i`, whose
extent was `e`. -/
def filled_extent (constrained_shape : Shape) (i : Nat) (e : Int) : Int :=
  if e = 0 then
    if i = 2 then
      if (constrained_shape.at 0).stride ≥ 1 ∧ (constrained_shape.at 2).stride = 1 then
        (constrained_shape.at 0).stride
      else 4
    else 1
  else e

/-- The "special-case chunky" block of `fix_bounds_query_shape`. -/
def fix_chunky (w : Nat) (constrained_shape : Shape) (new_shape : Shape) : Shape :=
  if new_shape.length ≥ 3 then
    if (constrained_shape.at 2).stride = 1 then
      let new_shape :=
        if (constrained_shape.at 0).stride ≥ 1 then
          new_shape.setExtent 2 (constrained_shape.at 0).stride
        else
          new_shape.setStride 0 (new_shape.at 2).extent
      new_shape.setStride 1 (mulw w (new_shape.at 0).extent (new_shape.at 0).stride)
    else new_shape
  else new_shape

/-- The loop computing the flag `zero_strides`. -/
def has_zero_strides (new_shape : Shape) : Bool :=
  (List.range new_shape.length).foldl
    (fun zero_strides i => if (new_shape.at i).stride = 0 then true else zero_strides) false

/-- Body of the planar loop: `new_shape[i].stride = new_shape[i-1].stride * new_shape[i-1].extent`. -/
def planar_step (w : Nat) (new_shape : Shape) (i : Nat) : Shape :=
  new_shape.setStride i (mulw w (new_shape.at (i - 1)).stride (new_shape.at (i - 1)).extent)

/-- The planar fallback of `fix_bounds_query_shape`. -/
def fix_planar (w : Nat) (new_shape : Shape) : Shape :=
  if has_zero_strides new_shape then
    let new_shape := new_shape.setStride 0 1
    (List.range' 1 (new_shape.length - 1)).foldl (planar_step w) new_shape
  else new_shape

/-- The function `fix_bounds_query_shape` of `RunGen.cpp`. -/
def fix_bounds_query_shape (w : Nat) (constrained_shape : Shape) : Shape :=
  let new_shape := constrained_shape
  let new_shape := (List.range new_shape.length).foldl (fill_extent constrained_shape) new_shape
  let new_shape := fix_chunky w constrained_shape new_shape
  fix_planar w new_shape

/-- The shape that `fix_bounds_query_shape` has built when it computes the flag
`zero_strides`: the constrained shape after the first loop and the chunky block. -/
def shape_after_chunky (w : Nat) (constrained_shape : Shape) : Shape :=
  fix_chunky w constrained_shape
    ((List.range constrained_shape.length).foldl (fill_extent constrained_shape)
      constrained_shape)

/-! ## Strings -/

/-- The call `source.find(delim, pos)` of `std::string`, searching the suffix `rest` of the
source that starts at index `idx`: the lowest index at which `delim` occurs, if any. -/
def find_in (delim : List Char) : List Char → Nat → Option Nat
  | [], idx => if delim.isPrefixOf [] then some idx else none
  | c :: rest, idx => if delim.isPrefixOf (c :: rest) then some idx else find_in delim rest (idx + 1)

/-- The call `source.find(delim, pos)`; `none` is `std::string::npos`. -/
def string_find (source delim : List Char) (pos : Nat) : Option Nat :=
  if pos ≤ source.length then find_in delim (source.drop pos) pos else none

/-- The call `source.substr(pos, n)`. -/
def substr (source : List Char) (pos n : Nat) : List Char := (source.drop pos).take n

/-- The `while` loop of `split_string`; it returns the final `start` and `elements`.
Every iteration costs one unit of `fuel`; `none` means that the fuel ran out. -/
def split_string_loop (source delim : List Char) :
    Nat → Nat → List (List Char) → Option (Nat × List (List Char))
  | 0, _, _ => none
  | fuel + 1, start, elements =>
    match string_find source delim start with
    | some found =>
      split_string_loop source delim fuel (found + delim.length)
        (elements ++ [substr source start (found - start)])
    | none => some (start, elements)

/-- The end of `split_string`: `if (start <= source.size())` the rest of the source from
`start` on, `source.substr(start, npos)`, is appended to the elements. -/
def split_string_finish (source : List Char) (state : Nat × List (List Char)) :
    List (List Char) :=
  if state.1 ≤ source.length then state.2 ++ [source.drop state.1] else state.2

/-- The function `split_string` of `RunGen.cpp`.  With a non-empty delimiter the loop runs
at most `source.size() + 1` times, which is the fuel given; `none` stands for a loop that
does not end within it (the empty delimiter, found again and again at the same place). -/
def split_string (source delim : List Char) : Option (List (List Char)) :=
  (split_string_loop source delim (source.length + 1) 0 []).map (split_string_finish source)

/-! ## Scalar codec -/

/-- Modelled from the spec: the type code "signed-int" of a TypeTag.  The enumeration
`halide_type_code_t` is declared in `HalideRuntime.h`, which is not among the sources; the
four codes have the numbers that header gives them. -/
def halide_type_int : Nat := 0

/-- Modelled from the spec: the type code "unsigned-int" of a TypeTag (see `halide_type_int`). -/
def halide_type_uint : Nat := 1

/-- Modelled from the spec: the type code "float" of a TypeTag (see `halide_type_int`). -/
def halide_type_float : Nat := 2

/-- Modelled from the spec: the type code "opaque-handle" of a TypeTag (see
`halide_type_int`). -/
def halide_type_handle : Nat := 3

/-- Modelled from the spec: a TypeTag `{code, bit-width, lane-count}`.  It is the type
`halide_type_t`, declared in `HalideRuntime.h`, which is not among the sources; there `code`
and `bits` are `uint8_t` and `lanes` is `uint16_t` (see `halide_type_t.wf`). -/
structure halide_type_t where
  code : Nat
  bits : Nat
  lanes : Nat
  deriving DecidableEq, Repr

/-- Predicate: the fields of a type tag are in the range of their C types. -/
def halide_type_t.wf (t : halide_type_t) : Prop := t.code < 256 ∧ t.bits < 256 ∧ t.lanes < 65536

instance (t : halide_type_t) : Decidable t.wf := by
  unfold halide_type_t.wf; exact inferInstance

/-- The function `halide_type_code`: `(((int) code) << 8) | bits`. -/
def halide_type_code (code bits : Nat) : Nat := (code <<< 8) ||| bits

/-- The stream output of a `halide_type_t`. -/
def show_type (type : halide_type_t) : List Char :=
  (if type.code = halide_type_uint ∧ type.bits = 1 then "bool".toList
   else
    (if type.code = halide_type_int then "int".toList
     else if type.code = halide_type_uint then "uint".toList
     else if type.code = halide_type_float then "float".toList
     else if type.code = halide_type_handle then "handle".toList
     else "#unknown".toList) ++ Nat.toDigits 10 type.bits)
  ++ (if type.lanes > 1 then "x".toList ++ Nat.toDigits 10 type.lanes else [])

/-- The C++ types at which `dynamic_type_dispatch` instantiates its functor. -/
inductive CType where
  | float | double
  | int8_t | int16_t | int32_t | int64_t
  | bool | uint8_t | uint16_t | uint32_t | uint64_t
  | void_ptr
  deriving DecidableEq, Repr

/-- The `switch` statement of `dynamic_type_dispatch` on the value `key`: one `case` for each
`HANDLE_CASE` line; the default case is `fail() << "Unsupported type: " << type << "\n"`. -/
def dispatch_switch {α : Type} (Functor : CType → α) (type : halide_type_t) (key : Nat) :
    Except (List Char) α :=
  if key = halide_type_code halide_type_float 32 then .ok (Functor .float)
  else if key = halide_type_code halide_type_float 64 then .ok (Functor .double)
  else if key = halide_type_code halide_type_int 8 then .ok (Functor .int8_t)
  else if key = halide_type_code halide_type_int 16 then .ok (Functor .int16_t)
  else if key = halide_type_code halide_type_int 32 then .ok (Functor .int32_t)
  else if key = halide_type_code halide_type_int 64 then .ok (Functor .int64_t)
  else if key = halide_type_code halide_type_uint 1 then .ok (Functor .bool)
  else if key = halide_type_code halide_type_uint 8 then .ok (Functor .uint8_t)
  else if key = halide_type_code halide_type_uint 16 then .ok (Functor .uint16_t)
  else if key = halide_type_code halide_type_uint 32 then .ok (Functor .uint32_t)
  else if key = halide_type_code halide_type_uint 64 then .ok (Functor .uint64_t)
  else if key = halide_type_code halide_type_handle 64 then .ok (Functor .void_ptr)
  else .error ("Unsupported type: ".toList ++ show_type type ++ [Char.ofNat 10])

/-- The function `dynamic_type_dispatch`: the functor is instantiated at the C++ type chosen
by `switch (halide_type_code((halide_type_code_t) type.code, type.bits))`. -/
def dynamic_type_dispatch {α : Type} (Functor : CType → α) (type : halide_type_t) :
    Except (List Char) α :=
  dispatch_switch Functor type (halide_type_code type.code type.bits)

/-! ### Formatted extraction from a `std::istringstream`

`iss >> x` is library code.  It is modelled after the C++ standard
(`[istream.formatted.arithmetic]`, `[facet.num.get.virtuals]`, `[istream.extractors]`) for a
freshly constructed stream: flags `skipws | dec`, classic locale (no digit grouping). -/

/-- The outcome of one formatted extraction: the stream's `fail()` state afterwards, the
value written to the destination (`none`: the destination was not written), and the
characters left in the stream. -/
structure Extraction (α : Type) where
  fail : Bool
  stored : Option α
  rest : List Char
  deriving DecidableEq, Repr

/-- The classic locale's `isspace`: space, and the control characters 9 to 13. -/
def isspace (c : Char) : Bool := c.toNat = 32 || (9 ≤ c.toNat && c.toNat ≤ 13)

/-- The stream sentry with `skipws`: leading whitespace is discarded. -/
def skipws : List Char → List Char
  | [] => []
  | c :: cs => if isspace c then skipws cs else c :: cs

/-- The value of a decimal digit character. -/
def digit_value (c : Char) : Option Nat :=
  if 48 ≤ c.toNat ∧ c.toNat ≤ 57 then some (c.toNat - 48) else none

/-- Stage 2 of `num_get` for a decimal field, after the sign: the longest run of digits is
taken from the stream.  Returns the number of digits, the number they denote and the
characters left. -/
def read_digits : List Char → Nat → Nat → Nat × Nat × List Char
  | [], n, acc => (n, acc, [])
  | c :: cs, n, acc =>
    match digit_value c with
    | some d => read_digits cs (n + 1) (acc * 10 + d)
    | none => (n, acc, c :: cs)

/-- An integer type of C: signedness and width. -/
structure IntType where
  signed : Bool
  bits : Nat
  deriving DecidableEq, Repr

/-- Smallest value of an integer type. -/
def IntType.min (T : IntType) : Int := if T.signed then -((2 : Int) ^ (T.bits - 1)) else 0

/-- Largest value of an integer type. -/
def IntType.max (T : IntType) : Int :=
  if T.signed then (2 : Int) ^ (T.bits - 1) - 1 else (2 : Int) ^ T.bits - 1

/-- Extraction `iss >> x` for `x` of an integer type other than a character type (`short`,
`int`, `long` and their unsigned variants).  If the stream holds only whitespace the sentry
fails and nothing is stored.  Otherwise an optional sign and the longest run of digits are
consumed; with no digit, `0` is stored and the stream fails; a value outside the type's
range is clamped to the nearest limit and the stream fails; a negative numeral read into an
unsigned type whose magnitude is in range is negated modulo `2 ^ bits`. -/
def extract_int (T : IntType) (str : List Char) : Extraction Int :=
  match skipws str with
  | [] => ⟨true, none, []⟩
  | c :: cs =>
    let negative : Bool := c = Char.ofNat 45
    let body := if c = Char.ofNat 45 ∨ c = Char.ofNat 43 then cs else c :: cs
    match read_digits body 0 0 with
    | (n, mag, rest) =>
      if n = 0 then ⟨true, some 0, rest⟩
      else if T.signed then
        let v : Int := if negative then -(mag : Int) else (mag : Int)
        if v < T.min then ⟨true, some T.min, rest⟩
        else if v > T.max then ⟨true, some T.max, rest⟩
        else ⟨false, some v, rest⟩
      else
        if (mag : Int) > T.max then ⟨true, some T.max, rest⟩
        else ⟨false, some (if negative then ((2 : Int) ^ T.bits - mag) % (2 : Int) ^ T.bits else mag), rest⟩

/-- The value of a character read into a `signed char` or an `unsigned char`. -/
def char_value (signed : Bool) (c : Char) : Int :=
  let byte : Int := (c.toNat % 256 : Nat)
  if signed ∧ byte ≥ 128 then byte - 256 else byte

/-- Extraction `iss >> x` for `x` of type `signed char` or `unsigned char` (which `int8_t`
and `uint8_t` are): after the whitespace, one character is taken from the stream and
stored as it is. -/
def extract_char (signed : Bool) (str : List Char) : Extraction Int :=
  match skipws str with
  | [] => ⟨true, none, []⟩
  | c :: cs => ⟨false, some (char_value signed c), cs⟩

/-- The primary template `ScalarParser<T>::operator()`, given the extraction `iss >> *(T*)v`:
`!iss.fail() && iss.get() == EOF`.  After an extraction that has not failed, `iss.get()`
is `EOF` exactly when no character is left.  Returns the result and the value stored,
if any. -/
def ScalarParser_generic {α : Type} (r : Extraction α) : Bool × Option α :=
  (!r.fail && r.rest.isEmpty, r.stored)

/-- The content of a `halide_scalar_value_t`, seen at the type it was written with.
Floating-point numbers are not interpreted: `real` carries the bit pattern; `handle 0` is
the null pointer. -/
inductive Value where
  | int (v : Int)
  | bool (b : Bool)
  | handle (p : Nat)
  | real (bits : Nat)
  deriving DecidableEq, Repr

/-- The specialisation `ScalarParser<bool>::operator()`. -/
def ScalarParser_bool (str : List Char) (v : Value) : Bool × Value :=
  if str = "true".toList then (true, .bool true)
  else if str = "false".toList then (true, .bool false)
  else (false, v)

/-- The specialisation `ScalarParser<void*>::operator()`. -/
def ScalarParser_handle (str : List Char) (v : Value) : Bool × Value :=
  if str = "nullptr".toList then (true, .handle 0)
  else (false, v)

/-- The integer type behind a `CType`, for the integer types that are not character types. -/
def CType.intType : CType → Option IntType
  | .int16_t => some ⟨true, 16⟩
  | .int32_t => some ⟨true, 32⟩
  | .int64_t => some ⟨true, 64⟩
  | .uint16_t => some ⟨false, 16⟩
  | .uint32_t => some ⟨false, 32⟩
  | .uint64_t => some ⟨false, 64⟩
  | _ => none

/-- The extraction `iss >> *(T*)v` at each integer instance of the primary template. -/
def extract_at (fextract : Bool → List Char → Extraction Nat) (T : CType) (str : List Char) :
    Extraction Value :=
  let lift (r : Extraction Int) : Extraction Value := ⟨r.fail, r.stored.map Value.int, r.rest⟩
  match T with
  | .int8_t => lift (extract_char true str)
  | .uint8_t => lift (extract_char false str)
  | .int16_t => lift (extract_int ⟨true, 16⟩ str)
  | .int32_t => lift (extract_int ⟨true, 32⟩ str)
  | .int64_t => lift (extract_int ⟨true, 64⟩ str)
  | .uint16_t => lift (extract_int ⟨false, 16⟩ str)
  | .uint32_t => lift (extract_int ⟨false, 32⟩ str)
  | .uint64_t => lift (extract_int ⟨false, 64⟩ str)
  | .double =>
    let r := fextract true str
    ⟨r.fail, r.stored.map Value.real, r.rest⟩
  | _ =>
    let r := fextract false str
    ⟨r.fail, r.stored.map Value.real, r.rest⟩

/-- The functor `ScalarParser<T>` at each type of the dispatch: the two specialisations
and the primary template.  Extraction of floating-point numbers is not modelled; it is
the parameter `fextract` (its flag tells `double` from `float`). -/
def ScalarParser (fextract : Bool → List Char → Extraction Nat) (T : CType)
    (str : List Char) (v : Value) : Bool × Value :=
  match T with
  | .bool => ScalarParser_bool str v
  | .void_ptr => ScalarParser_handle str v
  | T =>
    let r := ScalarParser_generic (extract_at fextract T str)
    (r.1, r.2.getD v)

/-- The dynamic-dispatch wrapper `parse_scalar(type, str, scalar)`. -/
def parse_scalar (fextract : Bool → List Char → Extraction Nat) (type : halide_type_t)
    (str : List Char) (scalar : Value) : Except (List Char) (Bool × Value) :=
  dynamic_type_dispatch (fun T => ScalarParser fextract T str scalar) type

/-- The template `parse_scalar(str, &scalar)` for a `scalar` of a signed integer type of
`w` bits that is not a character type. -/
def parse_scalar_int (w : Nat) (str : List Char) (scalar : Int) : Bool × Int :=
  let r := ScalarParser_generic (extract_int ⟨true, w⟩ str)
  (r.1, r.2.getD scalar)

/-- The `(code, bits)` pair of the `HANDLE_CASE` line that instantiates the functor at `T`. -/
def CType.tag : CType → Nat × Nat
  | .float => (halide_type_float, 32)
  | .double => (halide_type_float, 64)
  | .int8_t => (halide_type_int, 8)
  | .int16_t => (halide_type_int, 16)
  | .int32_t => (halide_type_int, 32)
  | .int64_t => (halide_type_int, 64)
  | .bool => (halide_type_uint, 1)
  | .uint8_t => (halide_type_uint, 8)
  | .uint16_t => (halide_type_uint, 16)
  | .uint32_t => (halide_type_uint, 32)
  | .uint64_t => (halide_type_uint, 64)
  | .void_ptr => (halide_type_handle, 64)

/-- Predicate: `T` is one of the eight integer types of 8 to 64 bits. -/
def CType.is_integer : CType → Bool
  | .int8_t | .int16_t | .int32_t | .int64_t => true
  | .uint8_t | .uint16_t | .uint32_t | .uint64_t => true
  | _ => false

/-- The `(code, bits)` pairs of the twelve `HANDLE_CASE` lines, in their order. -/
def handled_tags : List (Nat × Nat) :=
  [(halide_type_float, 32), (halide_type_float, 64),
   (halide_type_int, 8), (halide_type_int, 16), (halide_type_int, 32), (halide_type_int, 64),
   (halide_type_uint, 1), (halide_type_uint, 8), (halide_type_uint, 16),
   (halide_type_uint, 32), (halide_type_uint, 64),
   (halide_type_handle, 64)]

/-- Predicate: the tag of an integer type of 8, 16, 32 or 64 bits, signed or unsigned. -/
def is_integer_tag (t : halide_type_t) : Prop :=
  (t.code = halide_type_int ∨ t.code = halide_type_uint) ∧
  (t.bits = 8 ∨ t.bits = 16 ∨ t.bits = 32 ∨ t.bits = 64)

instance (t : halide_type_t) : Decidable (is_integer_tag t) := by
  unfold is_integer_tag; exact inferInstance

/-- The decimal numeral of an integer, as `std::to_string` and `operator<<` print it:
a minus sign for a negative number, then the digits without leading zeros. -/
def decimal (v : Int) : List Char :=
  if v < 0 then Char.ofNat 45 :: Nat.toDigits 10 v.natAbs else Nat.toDigits 10 v.toNat

/-! ### Extent lists -/

/-- The loop of `parse_extents` over the entries. -/
def parse_extents_loop (w : Nat) (extent_list : List Char) :
    List (List Char) → Shape → Except (List Char) Shape
  | [], result => .ok result
  | s :: extents, result =>
    let d : halide_dimension_t := ⟨0, 0, 0⟩
    let r := parse_scalar_int w s d.extent
    if !r.1 then
      .error ("Invalid value for extents: ".toList ++ s ++ " (".toList ++ extent_list ++ ")".toList)
    else
      parse_extents_loop w extent_list extents (result ++ [{ d with extent := r.2 }])

/-- The function `parse_extents` of `RunGen.cpp`; `w` is the width of the fields of
`halide_dimension_t`.  A `split_string` that does not return makes `parse_extents` not
return either (`none`). -/
def parse_extents (w : Nat) (extent_list : List Char) : Option (Except (List Char) Shape) :=
  if extent_list.isEmpty ∨ extent_list.head? ≠ some (Char.ofNat 91)
      ∨ extent_list.getLast? ≠ some (Char.ofNat 93) then
    some (.error ("Invalid format for extents: ".toList ++ extent_list))
  else
    match split_string (substr extent_list 1 (extent_list.length - 2)) ",".toList with
    | none => none
    | some extents => some (parse_extents_loop w extent_list extents [])

/-! ## Output shapes and buffers -/

/-- The function `choose_output_extents` of `RunGen.cpp`.  `Shape s(dimensions)` is a vector
of `dimensions` zeroed elements; the count is a natural number here, a negative `int` being
no size of a vector. -/
def choose_output_extents (dimensions : Nat) (defaults : Shape) : Shape :=
  let s : Shape := List.replicate dimensions ⟨0, 0, 0⟩
  (List.range dimensions).foldl
    (fun s i =>
      if i < defaults.length then s.set i (defaults.at i)
      else s.setExtent i (if i < 2 then 1000 else 4))
    s

/-- The stream output of a `halide_dimension_t`. -/
def show_dimension (d : halide_dimension_t) : List Char :=
  "[".toList ++ decimal d.min ++ ",".toList ++ decimal d.extent ++ ",".toList
    ++ decimal d.stride ++ "]".toList

/-- The stream output of a `Shape`: the dimensions, separated by commas, in brackets. -/
def show_shape (shape : Shape) : List Char :=
  "[".toList ++ List.intercalate ",".toList (shape.map show_dimension) ++ "]".toList

/-- What the program writes to the error stream without ending: the content of a `warn()`
object, printed after `Warning: `, or of an `info()` object, which is printed in verbose
mode only and is not recorded otherwise. -/
inductive Diagnostic where
  | warn (msg : List Char)
  | info (msg : List Char)
  deriving DecidableEq, Repr

/-- Predicate: the diagnostic is a warning. -/
def Diagnostic.is_warn : Diagnostic → Bool
  | .warn _ => true
  | .info _ => false

/-- The `info() << ...` statement: recorded in verbose mode only. -/
def info (verbose : Bool) (msg : List Char) : List Diagnostic :=
  if verbose then [Diagnostic.info msg] else []

/-- Modelled from the spec: a BufferDescriptor `{TypeTag, Shape, data pointer}`.  It is the
class `Buffer<>` of `HalideBuffer.h`, which is not among the sources; the data it points to
is not modelled. -/
structure Buffer where
  type : halide_type_t
  dim : Shape
  deriving DecidableEq, Repr

/-- The method `b.dimensions()`. -/
def Buffer.dimensions (b : Buffer) : Nat := b.dim.length

/-- Modelled from the spec: "drop trailing axes".  The method `b.sliced(d, pos)` of
`HalideBuffer.h` (not among the sources) gives the buffer without its axis `d`, the other
axes keeping their order. -/
def Buffer.sliced (b : Buffer) (d : Nat) (_pos : Int) : Buffer :=
  { b with dim := b.dim.eraseIdx d }

/-- Modelled from the spec: "append axes of extent 1".  The method `b.embedded(d, pos)` of
`HalideBuffer.h` (not among the sources) gives the buffer with a new axis at index `d`,
of min `pos` and extent 1; its stride is the one `Buffer::add_dimension` computes, 1 for
the first axis and else the extent times the stride of the last axis. -/
def Buffer.embedded (w : Nat) (b : Buffer) (d : Nat) (pos : Int) : Buffer :=
  let stride : Int :=
    if b.dim.length = 0 then 1
    else mulw w (b.dim.at (b.dim.length - 1)).extent (b.dim.at (b.dim.length - 1)).stride
  { b with dim := b.dim.take d ++ [⟨pos, 1, stride⟩] ++ b.dim.drop d }

/-- The function `get_shape` of `RunGen.cpp`. -/
def get_shape (b : Buffer) : Shape :=
  (List.range b.dimensions).foldl (fun s i => s ++ [b.dim.at i]) []

/-- The function `dims_in_range_are_trivial` of `RunGen.cpp`: no dimension `d` with
`first <= d <= last` has an extent greater than 1. -/
def dims_in_range_are_trivial (b : Buffer) (first last : Nat) : Bool :=
  (List.range' first (last + 1 - first)).all (fun d => !decide ((b.dim.at d).extent > 1))

/-- The loop `while (b.dimensions() > dims_needed) b = b.sliced(dims_needed, 0)`; every
iteration costs one unit of fuel, and `none` means that the fuel ran out. -/
def slice_loop (dims_needed : Nat) : Nat → Buffer → Option Buffer
  | 0, b => if b.dimensions > dims_needed then none else some b
  | fuel + 1, b =>
    if b.dimensions > dims_needed then slice_loop dims_needed fuel (b.sliced dims_needed 0)
    else some b

/-- The loop `while (b.dimensions() < dims_needed) b = b.embedded(b.dimensions(), 0)`; every
iteration costs one unit of fuel, and `none` means that the fuel ran out. -/
def embed_loop (w : Nat) (dims_needed : Nat) : Nat → Buffer → Option Buffer
  | 0, b => if b.dimensions < dims_needed then none else some b
  | fuel + 1, b =>
    if b.dimensions < dims_needed then
      embed_loop w dims_needed fuel (b.embedded w b.dimensions 0)
    else some b

/-- The function `adjust_buffer_dims` of `RunGen.cpp`: the diagnostics it writes, in order,
and the buffer it returns.  `dims_needed` is a natural number (the claims are about counts
that are not negative).  The loops get the fuel `dims_actual`, respectively `dims_needed`,
one unit for each axis that can be dropped or added. -/
def adjust_buffer_dims (verbose : Bool) (w : Nat) (title name : List Char) (dims_needed : Nat)
    (b : Buffer) : Option (List Diagnostic × Buffer) :=
  let dims_actual := b.dimensions
  if dims_actual > dims_needed then
    let warnings :=
      if !dims_in_range_are_trivial b dims_needed (dims_actual - 1) then
        [Diagnostic.warn ("Image for ".toList ++ title ++ " ".toList ++ [Char.ofNat 34] ++ name
          ++ [Char.ofNat 34] ++ " has ".toList ++ decimal dims_actual
          ++ " dimensions, but only the first ".toList ++ decimal dims_needed
          ++ " were used; data loss may have occurred.".toList)]
      else []
    let old_shape := get_shape b
    match slice_loop dims_needed dims_actual b with
    | none => none
    | some b =>
      some (warnings ++ info verbose ("Shape for ".toList ++ name ++ " changed: ".toList
        ++ show_shape old_shape ++ " -> ".toList ++ show_shape (get_shape b)), b)
  else if dims_actual < dims_needed then
    let warnings :=
      [Diagnostic.warn ("Image for ".toList ++ title ++ " ".toList ++ [Char.ofNat 34] ++ name
        ++ [Char.ofNat 34] ++ " has ".toList ++ decimal dims_actual
        ++ " dimensions, but this argument requires at least ".toList ++ decimal dims_needed
        ++ " dimensions: adding dummy dimensions of extent 1.".toList)]
    let old_shape := get_shape b
    match embed_loop w dims_needed dims_needed b with
    | none => none
    | some b =>
      some (warnings ++ info verbose ("Shape for ".toList ++ name ++ " changed: ".toList
        ++ show_shape old_shape ++ " -> ".toList ++ show_shape (get_shape b)), b)
  else some ([], b)

/-! ## Ordered containers -/

/-- The member `m.find(k)` of a `std::map`, modelled as a list of key-value pairs: the value
stored under the key `k`, or `none` for `m.end()`. -/
def map_find {κ ν : Type} [DecidableEq κ] (k : κ) : List (κ × ν) → Option ν
  | [] => none
  | (k', v) :: rest => if k' = k then some v else map_find k rest

/-- The assignment `m[k] = v` of a `std::map` ordered by `lt`: the value under `k` is
replaced, or a new entry is put at its place in the order. -/
def map_assign {κ ν : Type} (lt : κ → κ → Bool) (k : κ) (v : ν) : List (κ × ν) → List (κ × ν)
  | [] => [(k, v)]
  | (k', v') :: rest =>
    if lt k k' then (k, v) :: (k', v') :: rest
    else if lt k' k then (k', v') :: map_assign lt k v rest
    else (k, v) :: rest

/-- The member `m.erase(it)` of a `std::map`, for the iterator `it` found at the key `k`. -/
def map_erase {κ ν : Type} [DecidableEq κ] (k : κ) (m : List (κ × ν)) : List (κ × ν) :=
  m.filter (fun e => decide (e.1 ≠ k))

/-- The member `s.insert(k)` of a `std::set` ordered by `lt`. -/
def set_insert {κ : Type} (lt : κ → κ → Bool) (k : κ) : List κ → List κ
  | [] => [k]
  | k' :: rest =>
    if lt k k' then k :: k' :: rest
    else if lt k' k then k' :: set_insert lt k rest
    else k' :: rest

/-- The order `<` of `std::string`: lexicographic, by character code. -/
def string_lt : List Char → List Char → Bool
  | [], [] => false
  | [], _ :: _ => true
  | _ :: _, [] => false
  | a :: as, b :: bs => decide (a.toNat < b.toNat) || (decide (a.toNat = b.toNat) && string_lt as bs)

/-- The order `<` of pointers, which are addresses. -/
def ptr_lt (a b : Nat) : Bool := decide (a < b)

/-! ## Memory tracker -/

/-- Sum of two `uint64_t`. -/
def add64 (a x : Nat) : Nat := (a + x) % 2 ^ 64

/-- Difference of two `uint64_t`. -/
def sub64 (a x : Nat) : Nat := (a + (2 ^ 64 - x % 2 ^ 64)) % 2 ^ 64

/-- The data members of the class `HalideMemoryTracker` (the mutex apart): two `uint64_t`
counters and the `std::map<void *, size_t>` of the outstanding allocations.  Pointers are
addresses. -/
structure HalideMemoryTracker where
  memory_allocated : Nat
  memory_highwater : Nat
  memory_size_map : List (Nat × Nat)
  deriving DecidableEq, Repr

/-- A newly constructed tracker, as in `HalideMemoryTracker tracker;` of `main`.  The class
declares no constructor and gives its members no initialiser, so the default initialisation
makes the map empty and leaves the two counters with indeterminate values, which are the
parameters here. -/
def HalideMemoryTracker.construct (indeterminate_allocated indeterminate_highwater : Nat) :
    HalideMemoryTracker :=
  { memory_allocated := indeterminate_allocated % 2 ^ 64
    memory_highwater := indeterminate_highwater % 2 ^ 64
    memory_size_map := [] }

/-- The function `rungen_halide_error`, which `main` installs as the handler that
`halide_error` calls: `fail() << "halide_error: " << message`. -/
def rungen_halide_error (message : List Char) : List Char :=
  "halide_error: ".toList ++ message

/-- The method `tracker_malloc_impl`; `ptr` is the pointer that `halide_default_malloc`
returns.  A fatal error carries the printed message and the members as they are when the
process exits. -/
def HalideMemoryTracker.tracker_malloc_impl (t : HalideMemoryTracker) (x : Nat) (ptr : Nat) :
    Except (List Char × HalideMemoryTracker) HalideMemoryTracker :=
  let t := { t with memory_allocated := add64 t.memory_allocated x }
  let t :=
    if t.memory_highwater < t.memory_allocated then
      { t with memory_highwater := t.memory_allocated }
    else t
  if (map_find ptr t.memory_size_map).isSome then
    .error (rungen_halide_error "Tracking error in tracker_malloc".toList, t)
  else
    .ok { t with memory_size_map := map_assign ptr_lt ptr x t.memory_size_map }

/-- The method `tracker_free_impl`.  A fatal error carries the printed message and the
members as they are when the process exits. -/
def HalideMemoryTracker.tracker_free_impl (t : HalideMemoryTracker) (ptr : Nat) :
    Except (List Char × HalideMemoryTracker) HalideMemoryTracker :=
  match map_find ptr t.memory_size_map with
  | none => .error (rungen_halide_error "Tracking error in tracker_free".toList, t)
  | some x =>
    let t := { t with memory_allocated := sub64 t.memory_allocated x }
    .ok { t with memory_size_map := map_erase ptr t.memory_size_map }

/-- The method `allocated()`. -/
def HalideMemoryTracker.allocated (t : HalideMemoryTracker) : Nat := t.memory_allocated

/-- The method `highwater()`. -/
def HalideMemoryTracker.highwater (t : HalideMemoryTracker) : Nat := t.memory_highwater

/-- The method `highwater_reset()`. -/
def HalideMemoryTracker.highwater_reset (t : HalideMemoryTracker) : HalideMemoryTracker :=
  { t with memory_highwater := t.memory_allocated }

/-- A sequence of calls of `tracker_malloc`: each pair is the pointer returned and the size
asked for.  The first fatal error ends the run. -/
def tracker_mallocs (t : HalideMemoryTracker) :
    List (Nat × Nat) → Except (List Char × HalideMemoryTracker) HalideMemoryTracker
  | [] => .ok t
  | (ptr, x) :: rest =>
    match t.tracker_malloc_impl x ptr with
    | .error e => .error e
    | .ok t => tracker_mallocs t rest

/-- A sequence of calls of `tracker_free`.  The first fatal error ends the run. -/
def tracker_frees (t : HalideMemoryTracker) :
    List Nat → Except (List Char × HalideMemoryTracker) HalideMemoryTracker
  | [] => .ok t
  | ptr :: rest =>
    match t.tracker_free_impl ptr with
    | .error e => .error e
    | .ok t => tracker_frees t rest

/-! ## Command line of `main` -/

/-- Modelled from the spec: the kind of an ArgumentMetadata, "input-scalar, input-buffer,
output-buffer".  It is the enumeration `halide_argument_kind_t` of `HalideRuntime.h`, which
is not among the sources. -/
inductive halide_argument_kind_t where
  | halide_argument_kind_input_scalar
  | halide_argument_kind_input_buffer
  | halide_argument_kind_output_buffer
  deriving DecidableEq, Repr

/-- Modelled from the spec: an ArgumentMetadata `{name, kind, TypeTag, dimensions}`.  It is
the type `halide_filter_argument_t` of `HalideRuntime.h`, which is not among the sources. -/
structure halide_filter_argument_t where
  name : List Char
  kind : halide_argument_kind_t
  dimensions : Nat
  type : halide_type_t
  deriving DecidableEq, Repr

/-- Modelled from the spec: the read-only metadata descriptor of the module, its name and
its list of ArgumentMetadata (`num_arguments` is the length of the list).  It is the type
`halide_filter_metadata_t` of `HalideRuntime.h`, which is not among the sources. -/
structure halide_filter_metadata_t where
  name : List Char
  arguments : List halide_filter_argument_t
  deriving DecidableEq, Repr

/-- The local structure `ArgData` of `main`, with the members that the command line sets. -/
structure ArgData where
  index : Nat
  metadata : halide_filter_argument_t
  raw_string : List Char
  deriving DecidableEq, Repr

/-- The first loop of `main`, from the argument of index `i` on: one `ArgData` for each
declared argument, entered in `args` under its name; a handle-typed argument gets the raw
value `nullptr` and its name is entered in `found`. -/
def init_args : Nat → List halide_filter_argument_t →
    List (List Char × ArgData) × List (List Char) → List (List Char × ArgData) × List (List Char)
  | _, [], state => state
  | i, a :: rest, (args, found) =>
    let name := a.name
    let arg : ArgData := { index := i, metadata := a, raw_string := [] }
    if a.type.code = halide_type_handle then
      init_args (i + 1) rest
        (map_assign string_lt name { arg with raw_string := "nullptr".toList } args,
         set_insert string_lt name found)
    else
      init_args (i + 1) rest (map_assign string_lt name arg args, found)

/-- The variables of `main` that the command line sets, with the two global flags `verbose`
and `halide_print_to_stdout`. -/
structure MainState where
  args : List (List Char × ArgData)
  found : List (List Char)
  default_output_shape : Shape
  unknown_args : List (List Char)
  benchmark : Bool
  track_memory : Bool
  describe : Bool
  benchmark_samples : Int
  benchmark_iterations : Int
  verbose : Bool
  halide_print_to_stdout : Bool
  deriving DecidableEq, Repr

/-- The state of `main` before the loop over `argv`. -/
def MainState.init (md : halide_filter_metadata_t) : MainState :=
  let state := init_args 0 md.arguments ([], [])
  { args := state.1
    found := state.2
    default_output_shape := []
    unknown_args := []
    benchmark := false
    track_memory := false
    describe := false
    benchmark_samples := 3
    benchmark_iterations := 10
    verbose := false
    halide_print_to_stdout := true }

/-- The template `parse_scalar(str, &scalar)` for a `scalar` of type `bool`. -/
def parse_scalar_bool (str : List Char) (scalar : Bool) : Bool × Bool :=
  let r := ScalarParser_bool str (.bool scalar)
  (r.1, match r.2 with
        | .bool b => b
        | _ => scalar)

/-- The handling of a boolean flag: an empty value stands for `true`. -/
def parse_bool_flag (flag_name flag_value : List Char) (scalar : Bool) :
    Except (List Char) Bool :=
  let flag_value := if flag_value.isEmpty then "true".toList else flag_value
  let r := parse_scalar_bool flag_value scalar
  if !r.1 then .error ("Invalid value for flag: ".toList ++ flag_name) else .ok r.2

/-- The handling of a flag whose value is an `int` (32 bits). -/
def parse_int_flag (flag_name flag_value : List Char) (scalar : Int) : Except (List Char) Int :=
  let r := parse_scalar_int 32 flag_value scalar
  if !r.1 then .error ("Invalid value for flag: ".toList ++ flag_name) else .ok r.2

/-- The branch of the loop over `argv` for an argument that begins with `-`.  What `usage`
writes to the standard output before `Unknown flag` is not modelled. -/
def process_flag (w : Nat) (st : MainState) (arg : List Char) :
    Option (Except (List Char) MainState) :=
  let p := arg.drop 1
  let p := if p.head? = some (Char.ofNat 45) then p.drop 1 else p
  match split_string p "=".toList with
  | none => none
  | some v =>
    let flag_name := v.getD 0 []
    let flag_value := if v.length > 1 then v.getD 1 [] else []
    if v.length > 2 then some (.error ("Invalid argument: ".toList ++ arg))
    else if flag_name = "verbose".toList then
      some ((parse_bool_flag flag_name flag_value st.verbose).map
        (fun b => { st with verbose := b }))
    else if flag_name = "print".toList then
      some ((parse_bool_flag flag_name flag_value st.halide_print_to_stdout).map
        (fun b => { st with halide_print_to_stdout := b }))
    else if flag_name = "describe".toList then
      some ((parse_bool_flag flag_name flag_value st.describe).map
        (fun b => { st with describe := b }))
    else if flag_name = "benchmark".toList then
      some ((parse_bool_flag flag_name flag_value st.benchmark).map
        (fun b => { st with benchmark := b }))
    else if flag_name = "track_memory".toList then
      some ((parse_bool_flag flag_name flag_value st.track_memory).map
        (fun b => { st with track_memory := b }))
    else if flag_name = "benchmark_samples".toList then
      some ((parse_int_flag flag_name flag_value st.benchmark_samples).map
        (fun n => { st with benchmark_samples := n }))
    else if flag_name = "benchmark_iterations".toList then
      some ((parse_int_flag flag_name flag_value st.benchmark_iterations).map
        (fun n => { st with benchmark_iterations := n }))
    else if flag_name = "output_extents".toList then
      (parse_extents w flag_value).map
        (fun r => r.map (fun shape => { st with default_output_shape := shape }))
    else some (.error ("Unknown flag: ".toList ++ flag_name))

/-- The branch of the loop over `argv` for an argument of the form `name=value`.  The
boolean of the result tells that the loop is left by `break`. -/
def process_named (st : MainState) (arg : List Char) :
    Option (Except (List Char) (Bool × MainState)) :=
  match split_string arg "=".toList with
  | none => none
  | some v =>
    if v.length ≠ 2 ∨ (v.getD 0 []).isEmpty ∨ (v.getD 1 []).isEmpty then
      some (.error ("Invalid argument: ".toList ++ arg))
    else
      let arg_name := v.getD 0 []
      let arg_value := v.getD 1 []
      match map_find arg_name st.args with
      | none => some (.ok (true, { st with unknown_args := st.unknown_args ++ [arg_name] }))
      | some arg =>
        if arg_value.isEmpty then
          some (.error ("Argument value is empty for: ".toList ++ arg_name))
        else if !arg.raw_string.isEmpty then
          some (.error ("Argument value specified multiple times for: ".toList ++ arg_name))
        else
          some (.ok (false,
            { st with
              args := map_assign string_lt arg_name { arg with raw_string := arg_value } st.args
              found := set_insert string_lt arg_name st.found }))

/-- The loop of `main` over `argv[1] .. argv[argc - 1]`. -/
def process_argv (w : Nat) : List (List Char) → MainState → Option (Except (List Char) MainState)
  | [], st => some (.ok st)
  | arg :: rest, st =>
    if arg.head? = some (Char.ofNat 45) then
      match process_flag w st arg with
      | none => none
      | some (.error e) => some (.error e)
      | some (.ok st) => process_argv w rest st
    else
      match process_named st arg with
      | none => none
      | some (.error e) => some (.error e)
      | some (.ok (true, st)) => some (.ok st)
      | some (.ok (false, st)) => process_argv w rest st

/-- The lines `Unknown argument name: ...` of the report. -/
def unknown_report (unknown_args : List (List Char)) : List Char :=
  unknown_args.foldl
    (fun o s => o ++ "Unknown argument name: ".toList ++ s ++ [Char.ofNat 10]) []

/-- The lines `Argument value missing for: ...` of the report, added to `o`. -/
def missing_report (ok_to_omit_outputs : Bool) (args : List (List Char × ArgData))
    (o : List Char) : List Char :=
  args.foldl
    (fun o arg_pair =>
      let arg := arg_pair.2
      if arg.raw_string.isEmpty then
        if ok_to_omit_outputs ∧
            arg.metadata.kind = halide_argument_kind_t.halide_argument_kind_output_buffer then o
        else o ++ "Argument value missing for: ".toList ++ arg.metadata.name ++ [Char.ofNat 10]
      else o)
    o

/-- The check "that all required arguments are specified": the text of the report, with
which the program fails when it is not empty. -/
def check_arguments (st : MainState) (ok_to_omit_outputs : Bool) : Except (List Char) Unit :=
  if st.found.length ≠ st.args.length ∨ ¬ st.unknown_args.isEmpty then
    let o := missing_report ok_to_omit_outputs st.args (unknown_report st.unknown_args)
    if !o.isEmpty then .error o else .ok ()
  else .ok ()

/-- How the first part of `main` ends when it does not fail: with the usage text and exit
code 0, with the description and exit code 0, or with the arguments resolved and the
warnings written so far. -/
inductive Resolution where
  | usage
  | described
  | resolved (st : MainState) (diagnostics : List Diagnostic)
  deriving DecidableEq, Repr

/-- The function `main` up to the check of the arguments; `argv` includes `argv[0]`. -/
def main_resolve (w : Nat) (md : halide_filter_metadata_t) (argv : List (List Char)) :
    Option (Except (List Char) Resolution) :=
  if argv.length ≤ 1 then some (.ok .usage)
  else
    match process_argv w (argv.drop 1) (MainState.init md) with
    | none => none
    | some (.error e) => some (.error e)
    | some (.ok st) =>
      if st.describe then some (.ok .described)
      else
        let ok_to_omit_outputs := st.benchmark || st.track_memory
        let diagnostics :=
          if st.benchmark && st.track_memory then
            [Diagnostic.warn ("Using --track_memory with --benchmark will produce inaccurate "
              ++ "benchmark results.").toList]
          else []
        match check_arguments st ok_to_omit_outputs with
        | .error e => some (.error e)
        | .ok _ => some (.ok (.resolved st diagnostics))

/-- A module that declares one argument, the 32-bit integer scalar input `bias`. -/
def metadata_bias : halide_filter_metadata_t :=
  { name := "filter".toList
    arguments :=
      [⟨"bias".toList, .halide_argument_kind_input_scalar, 0, ⟨halide_type_int, 32, 1⟩⟩] }

/-- A module that declares one argument, the handle-typed scalar input `h`. -/
def metadata_handle : halide_filter_metadata_t :=
  { name := "filter".toList
    arguments :=
      [⟨"h".toList, .halide_argument_kind_input_scalar, 0, ⟨halide_type_handle, 64, 1⟩⟩] }

/-! ## Save formats -/

/-- Modelled from the spec: a FormatInfo `{TypeTag, dimensions}`, a format that the image
library can save or load.  It is `Halide::Tools::FormatInfo`, declared in
`halide_image_io.h`, which is not among the sources; `best_save_format` reads `f.type` and
the `int` field `f.dimensions` only. -/
structure FormatInfo where
  type : halide_type_t
  dimensions : Int
  deriving DecidableEq, Repr

/-- The `score` that the loop body of `best_save_format` computes for the format `f`:
`std::abs(f.dimensions - dimensions) * 128 + std::abs(f.type.bits - type.bits)
+ ((f.type.code != type.code) ? 1 : 0)`.  The arithmetic is that of the integers; it agrees
with the `int` arithmetic of the source whenever the score fits an `int`. -/
def format_score (type : halide_type_t) (dimensions : Int) (f : FormatInfo) : Int :=
  let score : Int := 0
  let score := score + ((f.dimensions - dimensions).natAbs : Int) * 128
  let score := score + (((f.type.bits : Int) - (type.bits : Int)).natAbs : Int)
  let score := score + (if f.type.code ≠ type.code then 1 else 0)
  score

/-- Body of the loop of `best_save_format` on the state `(best_score, best)`. -/
def best_save_step (type : halide_type_t) (dimensions : Int) (state : Int × FormatInfo)
    (f : FormatInfo) : Int × FormatInfo :=
  let score := format_score type dimensions f
  if score < state.1 then (score, f) else state

/-- The function `best_save_format` of `RunGen.cpp`.  The `std::set<FormatInfo>` is given as
the list of its members in the order of iteration; `best_score` starts at `0x7fffffff` and
`best` as the value-initialised `FormatInfo{}`. -/
def best_save_format (b : Buffer) (info : List FormatInfo) : FormatInfo :=
  (info.foldl (best_save_step b.type (b.dimensions : Int)) (0x7fffffff, ⟨⟨0, 0, 0⟩, 0⟩)).2

/-! ### The ledger invariant -/

/-- The sum of the sizes recorded in `memory_size_map`. -/
def HalideMemoryTracker.recorded (t : HalideMemoryTracker) : Nat :=
  (t.memory_size_map.map Prod.snd).sum

/-- The ledger invariant: `memory_allocated` is the sum of the recorded sizes and
`memory_highwater >= memory_allocated`. -/
def HalideMemoryTracker.ledger_ok (t : HalideMemoryTracker) : Prop :=
  t.memory_allocated = t.recorded ∧ t.memory_highwater ≥ t.memory_allocated

instance (t : HalideMemoryTracker) : Decidable t.ledger_ok := by
  unfold HalideMemoryTracker.ledger_ok; infer_instance

/-- A tracker state as the class can hold it: the two counters are `uint64_t` and the
`std::map` holds every key once. -/
def HalideMemoryTracker.wf (t : HalideMemoryTracker) : Prop :=
  t.memory_allocated < 2 ^ 64 ∧ t.memory_highwater < 2 ^ 64 ∧
  (t.memory_size_map.map Prod.fst).Nodup

instance (t : HalideMemoryTracker) : Decidable t.wf := by
  unfold HalideMemoryTracker.wf; infer_instance

/-! ## Access counters of the Python bindings (`PyFunc.cpp`) -/

/-- The function `sanitize_name` of `PyFunc.cpp` ("Remove trailing $<int>"): the name up to
its first `'$'`, or the whole name when it has none. -/
def PyFunc.sanitize_name (name : List Char) : List Char :=
  match string_find name [Char.ofNat 36] 0 with
  | some found => substr name 0 found
  | none => name

/-- The struct `counters_t` of `PyFunc.cpp`.  The two counters are `int`; the model counts in
the integers, which agrees with the source below `2^31` events. -/
structure PyFunc.counters_t where
  stores : Int
  loads : Int
  deriving DecidableEq, Repr

/-- The global `func2counters`, a `std::unordered_map<std::string, counters_t>`: a partial
function from keys to counters, `none` where `find` gives `end()`. -/
abbrev PyFunc.Counters := List Char → Option PyFunc.counters_t

/-- The map without any key: the global as constructed, and after `reset_counters`. -/
def PyFunc.reset_counters : PyFunc.Counters := fun _ => none

/-- The assignment `func2counters[key] = value`. -/
def PyFunc.assign (func2counters : PyFunc.Counters) (key : List Char)
    (value : PyFunc.counters_t) : PyFunc.Counters :=
  fun k => if k = key then some value else func2counters k

/-- The access `func2counters[key]`, which value-initialises a missing entry. -/
def PyFunc.subscript (func2counters : PyFunc.Counters) (key : List Char) : PyFunc.counters_t :=
  (func2counters key).getD ⟨0, 0⟩

/-- The function `init_counter` of `PyFunc.cpp`. -/
def PyFunc.init_counter (func2counters : PyFunc.Counters) (name : List Char) :
    PyFunc.Counters :=
  PyFunc.assign func2counters (PyFunc.sanitize_name name) ⟨0, 0⟩

/-- The function `count_accesses_internal` of `PyFunc.cpp`. -/
def PyFunc.count_accesses_internal (func2counters : PyFunc.Counters) (etype : Int)
    (name : List Char) : PyFunc.Counters :=
  if etype = 0 then
    let c := PyFunc.subscript func2counters (PyFunc.sanitize_name name)
    PyFunc.assign func2counters (PyFunc.sanitize_name name) { c with loads := c.loads + 1 }
  else if etype = 1 then
    let c := PyFunc.subscript func2counters (PyFunc.sanitize_name name)
    PyFunc.assign func2counters (PyFunc.sanitize_name name) { c with stores := c.stores + 1 }
  else func2counters

/-- Modelled from the spec: a trace event, of which the counters read the name of the func
and the event code (0 is a load, 1 a store).  It is the struct `halide_trace_event_t` of
`HalideRuntime.h`, which is not among the sources; `count_accesses_safe` reads `e->func`
and `e->event` only. -/
structure PyFunc.halide_trace_event_t where
  func : List Char
  event : Int
  deriving DecidableEq, Repr

/-- The globals that `count_accesses_safe` works on: the map and its `static int id`. -/
structure PyFunc.State where
  func2counters : PyFunc.Counters
  id : Int

/-- The function `count_accesses_safe` of `PyFunc.cpp`; the second component is the value
returned, `id++`. -/
def PyFunc.count_accesses_safe (st : PyFunc.State) (e : PyFunc.halide_trace_event_t) :
    PyFunc.State × Int :=
  let func2counters :=
    if (st.func2counters e.func).isNone then PyFunc.init_counter st.func2counters e.func
    else st.func2counters
  let func2counters := PyFunc.count_accesses_internal func2counters e.event e.func
  ({ func2counters := func2counters, id := st.id + 1 }, st.id)

/-- The function `get_loads` of `PyFunc.cpp`. -/
def PyFunc.get_loads (func2counters : PyFunc.Counters) (name : List Char) : Int :=
  if (func2counters name).isNone then -1
  else (PyFunc.subscript func2counters name).loads

/-- The function `get_stores` of `PyFunc.cpp`. -/
def PyFunc.get_stores (func2counters : PyFunc.Counters) (name : List Char) : Int :=
  if (func2counters name).isNone then -1
  else (PyFunc.subscript func2counters name).stores

/-- A sequence of trace events handled by `count_accesses_safe`, starting from empty
counters. -/
def PyFunc.trace (events : List PyFunc.halide_trace_event_t) : PyFunc.State :=
  events.foldl (fun st e => (PyFunc.count_accesses_safe st e).1)
    { func2counters := PyFunc.reset_counters, id := 0 }

/-- The number of events of code `etype` among `events` whose sanitized name is `key`. -/
def PyFunc.occurrences (events : List PyFunc.halide_trace_event_t) (etype : Int)
    (key : List Char) : Int :=
  ((events.filter
    (fun e => decide (e.event = etype ∧ PyFunc.sanitize_name e.func = key))).length : Int)

/-! ## `replace_all` -/

/-- The call `result.replace(pos, len, str)` of `std::string`. -/
def string_replace (result : List Char) (pos len : Nat) (str : List Char) : List Char :=
  result.take pos ++ str ++ result.drop (pos + len)

/-- The `while` loop of `replace_all` on the state `(pos, result)`.  Every iteration costs one
unit of `fuel`; `none` means that the fuel ran out. -/
def replace_all_loop (find replace : List Char) : Nat → Nat → List Char → Option (List Char)
  | 0, _, _ => none
  | fuel + 1, pos, result =>
    match string_find result find pos with
    | some pos =>
      replace_all_loop find replace fuel (pos + replace.length)
        (string_replace result pos find.length replace)
    | none => some result

/-- The function `replace_all` of `RunGen.cpp`.  With a non-empty `find` the loop runs at
most `str.size() + 1` times, which is the fuel given. -/
def replace_all (str find replace : List Char) : Option (List Char) :=
  replace_all_loop find replace (str.length + 1) 0 str

/-- The pieces of `rest` between the occurrences of `delim`, found from left to right and
not overlapping; `n` bounds the number of occurrences looked for.  It is the yardstick that
`split_string` and `replace_all` are both compared with. -/
def split_parts (delim : List Char) : Nat → List Char → List (List Char)
  | 0, rest => [rest]
  | n + 1, rest =>
    match find_in delim rest 0 with
    | none => [rest]
    | some k => rest.take k :: split_parts delim n (rest.drop (k + delim.length))

/-! ## The run of `main` after the command line -/

/-- One element of the vector `filter_argv`, taken with the storage it points to: the null
pointer, the `scalar_value` of an argument, or the descriptor of its `buffer_value`.  The
members `scalar_value` and `buffer_value` of `ArgData` are read and written through the
element of index `arg.index`, which points to them from the moment they are set. -/
inductive Slot where
  | null
  | scalar (v : Value)
  | buffer (b : Buffer)
  deriving DecidableEq, Repr

/-- Modelled from the spec: how a call into the image library ends.  The library
(`halide_image_io.h`) is not among the sources; `RunGen.cpp` gives it the failure handler
`IOCheckFail`, which ends the run with `Error in I/O: ` and the message of the library, and
tests the boolean that the call returns. -/
inductive LibraryResult (α : Type) where
  | done (a : α)
  | check_failed (msg : List Char)
  | refused

/-- Modelled from the spec: what `main` consumes from outside.  The I/O capability
"`load(path) -> (Buffer, success)`, `save(buffer, path) -> success`,
`query_savable_formats(path) -> set<FormatInfo>`" and the module under test,
`halide_rungen_redirect_argv`, are not among the sources.  A call of the module gets the
number of calls made before it and the call vector with what its elements point to; it
returns its status and what the elements point to afterwards.  `fextract` is the extraction
of floating-point numbers, `indeterminate` the content of a `scalar_value` that has not been
written. -/
structure Environment where
  fextract : Bool → List Char → Extraction Nat
  indeterminate : Value
  load : List Char → LibraryResult Buffer
  save_query : List Char → LibraryResult (List FormatInfo)
  save : Buffer → List Char → LibraryResult Unit
  halide_rungen_redirect_argv : Nat → List Slot → Int × List Slot

/-- Modelled from the spec: a BufferDescriptor of the given TypeTag and Shape.  The
constructor `Buffer<>(type, data, d, shape)` of `HalideBuffer.h` (not among the sources)
makes a buffer of the type `type` whose `d` dimensions are those of `shape`, copied as they
are; `RunGen.cpp` calls it with `data = nullptr` and `d = shape.size()`. -/
def Buffer.of_shape (type : halide_type_t) (shape : Shape) : Buffer :=
  { type := type, dim := shape }

/-- The function `allocate_buffer` of `RunGen.cpp`: the buffer constructed from `type` and
`shape`.  The storage that `b.allocate()` obtains and the assertion `b.check_overflow()` are
not modelled. -/
def allocate_buffer (type : halide_type_t) (shape : Shape) : Buffer :=
  Buffer.of_shape type shape

/-- Modelled from the spec: "convert type".  The function
`ImageTypeConversion::convert_image(b, type)` of `halide_image_io.h` (not among the sources)
gives a buffer of the same shape with elements of the type asked for. -/
def convert_image (b : Buffer) (type : halide_type_t) : Buffer := { b with type := type }

/-- The function `load_input_from_file` of `RunGen.cpp`: the diagnostics written and the
buffer returned, or the message of the fatal error. -/
def load_input_from_file (env : Environment) (verbose : Bool) (w : Nat) (pathname : List Char)
    (metadata : halide_filter_argument_t) : Option (Except (List Char) (List Diagnostic × Buffer)) :=
  let d0 := info verbose ("Loading input ".toList ++ metadata.name ++ " from ".toList
    ++ pathname ++ " ...".toList)
  match env.load pathname with
  | .check_failed msg => some (.error ("Error in I/O: ".toList ++ msg))
  | .refused => some (.error ("Unable to load input: ".toList ++ pathname))
  | .done b =>
    let adjusted :=
      if b.dimensions ≠ metadata.dimensions then
        adjust_buffer_dims verbose w "Input".toList metadata.name metadata.dimensions b
      else some ([], b)
    match adjusted with
    | none => none
    | some (d1, b) =>
      if b.type ≠ metadata.type then
        some (.ok (d0 ++ d1 ++ [Diagnostic.warn ("Image loaded for argument ".toList
          ++ [Char.ofNat 34] ++ metadata.name ++ [Char.ofNat 34] ++ " is type ".toList
          ++ show_type b.type ++ " but this argument expects type ".toList
          ++ show_type metadata.type ++ "; data loss may have occurred.".toList)],
          convert_image b metadata.type))
      else some (.ok (d0 ++ d1, b))

/-- The function `load_input` of `RunGen.cpp`.  The functor `Zeroer` fills the data, which
is not modelled, and returns `true`; the dispatch on the type can fail. -/
def load_input (env : Environment) (verbose : Bool) (w : Nat) (pathname : List Char)
    (metadata : halide_filter_argument_t) : Option (Except (List Char) (List Diagnostic × Buffer)) :=
  match split_string pathname ":".toList with
  | none => none
  | some v =>
    if v.length ≠ 2 ∨ (v.getD 0 []).length = 1 then
      load_input_from_file env verbose w pathname metadata
    else if v.getD 0 [] = "zero".toList then
      match parse_extents w (v.getD 1 []) with
      | none => none
      | some (.error e) => some (.error e)
      | some (.ok shape) =>
        let b := allocate_buffer metadata.type shape
        match dynamic_type_dispatch (fun _ => true) b.type with
        | .error e => some (.error e)
        | .ok _ => some (.ok ([], b))
    else some (.error ("Unknown input: ".toList ++ pathname))

/-- The variables of `main` that the phases after the command line work on. -/
structure RunState where
  default_output_shape : Shape
  filter_argv : List Slot
  diagnostics : List Diagnostic
  deriving DecidableEq, Repr

/-- The buffer that the element `i` of the call vector points to (an empty `Buffer<>` when
it points to none). -/
def slot_buffer (filter_argv : List Slot) (i : Nat) : Buffer :=
  match filter_argv.getD i .null with
  | .buffer b => b
  | _ => { type := ⟨0, 0, 0⟩, dim := [] }

/-- Body of the loop "Parse all the input arguments, loading images as necessary". -/
def resolve_input (env : Environment) (verbose : Bool) (w : Nat) (arg_name : List Char)
    (arg : ArgData) (rs : RunState) : Option (Except (List Char) RunState) :=
  match arg.metadata.kind with
  | .halide_argument_kind_input_scalar =>
    match parse_scalar env.fextract arg.metadata.type arg.raw_string env.indeterminate with
    | .error e => some (.error e)
    | .ok (false, _) =>
      some (.error ("Argument value for: ".toList ++ arg_name
        ++ " could not be parsed as type ".toList ++ show_type arg.metadata.type
        ++ ": ".toList ++ arg.raw_string))
    | .ok (true, scalar_value) =>
      some (.ok { rs with filter_argv := rs.filter_argv.set arg.index (.scalar scalar_value) })
  | .halide_argument_kind_input_buffer =>
    match load_input env verbose w arg.raw_string arg.metadata with
    | none => none
    | some (.error e) => some (.error e)
    | some (.ok (d, buffer_value)) =>
      some (.ok
        { default_output_shape :=
            if rs.default_output_shape.isEmpty then get_shape buffer_value
            else rs.default_output_shape
          filter_argv := rs.filter_argv.set arg.index (.buffer buffer_value)
          diagnostics := rs.diagnostics ++ d })
  | .halide_argument_kind_output_buffer => some (.ok rs)

/-- The loop "Parse all the input arguments, loading images as necessary", over the entries
of `args` in the order of the map. -/
def resolve_inputs (env : Environment) (verbose : Bool) (w : Nat) :
    List (List Char × ArgData) → RunState → Option (Except (List Char) RunState)
  | [], rs => some (.ok rs)
  | arg_pair :: rest, rs =>
    match resolve_input env verbose w arg_pair.1 arg_pair.2 rs with
    | none => none
    | some (.error e) => some (.error e)
    | some (.ok rs) => resolve_inputs env verbose w rest rs

/-- Body of the first loop of the bounds query: an output gets a buffer without storage, of
the shape that `choose_output_extents` gives. -/
def place_output (default_output_shape : Shape) (filter_argv : List Slot) (arg : ArgData) :
    List Slot :=
  match arg.metadata.kind with
  | .halide_argument_kind_output_buffer =>
    let bounds_query_shape := choose_output_extents arg.metadata.dimensions default_output_shape
    filter_argv.set arg.index (.buffer (Buffer.of_shape arg.metadata.type bounds_query_shape))
  | _ => filter_argv

/-- The phases of `main` from the check of the arguments to the bounds query: the state in
which `halide_rungen_redirect_argv(&filter_argv[0])` is called for the first time. -/
def bounds_query_state (env : Environment) (w : Nat) (md : halide_filter_metadata_t)
    (st : MainState) (diagnostics : List Diagnostic) : Option (Except (List Char) RunState) :=
  let rs : RunState :=
    { default_output_shape := st.default_output_shape
      filter_argv := List.replicate md.arguments.length Slot.null
      diagnostics := diagnostics }
  match resolve_inputs env st.verbose w st.args rs with
  | none => none
  | some (.error e) => some (.error e)
  | some (.ok rs) =>
    some (.ok
      { rs with
        filter_argv :=
          st.args.foldl (fun fa p => place_output rs.default_output_shape fa p.2) rs.filter_argv
        diagnostics := rs.diagnostics ++ info st.verbose "Running bounds query...".toList })

/-- Body of the loop "Allocate the output buffers we'll need": the shape that the bounds
query left in the buffer of an output is repaired and a buffer of that shape is allocated.
The count `pixels_out`, which only the report of a benchmark uses, is not modelled. -/
def allocate_output (verbose : Bool) (w : Nat) (state : List Slot × List Diagnostic)
    (arg_pair : List Char × ArgData) : List Slot × List Diagnostic :=
  let arg_name := arg_pair.1
  let arg := arg_pair.2
  match arg.metadata.kind with
  | .halide_argument_kind_output_buffer =>
    let constrained_shape := get_shape (slot_buffer state.1 arg.index)
    let d1 := info verbose ("Output ".toList ++ arg_name ++ ": BoundsQuery result is ".toList
      ++ show_shape constrained_shape)
    let shape := fix_bounds_query_shape w constrained_shape
    let buffer_value := allocate_buffer arg.metadata.type shape
    let d2 := info verbose ("Output ".toList ++ arg_name ++ ": Shape is ".toList
      ++ show_shape (get_shape buffer_value))
    (state.1.set arg.index (.buffer buffer_value), state.2 ++ d1 ++ d2)
  | _ => state

/-- A call `(void) halide_rungen_redirect_argv(&filter_argv[0])`, whose status is dropped, on
the pair of the number of calls made so far and the call vector. -/
def call_ignored (env : Environment) (state : Nat × List Slot) : Nat × List Slot :=
  (state.1 + 1, (env.halide_rungen_redirect_argv state.1 state.2).2)

/-- Modelled from the spec: "`samples` batches of `iterations` calls".  The function
`Halide::Tools::benchmark(samples, iterations, op)` of `halide_benchmark.h` (not among the
sources) runs `op` in two nested `for` loops over the two `int` counts; the time that it
measures and returns is not modelled. -/
def benchmark {σ : Type} (samples iterations : Int) (op : σ → σ) (s : σ) : σ :=
  Nat.iterate (Nat.iterate op iterations.toNat) samples.toNat s

/-- Body of the loop "Save the output(s), if necessary". -/
def save_output (env : Environment) (verbose : Bool) (w : Nat)
    (state : List Slot × List Diagnostic) (arg_pair : List Char × ArgData) :
    Option (Except (List Char) (List Slot × List Diagnostic)) :=
  let arg_name := arg_pair.1
  let arg := arg_pair.2
  if arg.metadata.kind = .halide_argument_kind_output_buffer then
    if !arg.raw_string.isEmpty then
      let d0 := info verbose ("Saving output ".toList ++ arg_name ++ " to ".toList
        ++ arg.raw_string ++ " ...".toList)
      let b := slot_buffer state.1 arg.index
      match env.save_query arg.raw_string with
      | .check_failed msg => some (.error ("Error in I/O: ".toList ++ msg))
      | .refused => some (.error ("Unable to save output: ".toList ++ arg.raw_string))
      | .done savable_types =>
        let best := best_save_format b savable_types
        let adjusted :=
          if best.dimensions ≠ (b.dimensions : Int) then
            adjust_buffer_dims verbose w "Output".toList arg_name best.dimensions.toNat b
          else some ([], b)
        match adjusted with
        | none => none
        | some (d1, b) =>
          let converted :=
            if best.type ≠ b.type then
              ([Diagnostic.warn ("Image for argument ".toList ++ [Char.ofNat 34] ++ arg_name
                ++ [Char.ofNat 34] ++ " is of type ".toList ++ show_type b.type
                ++ " but is being saved as type ".toList ++ show_type best.type
                ++ "; data loss may have occurred.".toList)], convert_image b best.type)
            else ([], b)
          match env.save converted.2 arg.raw_string with
          | .check_failed msg => some (.error ("Error in I/O: ".toList ++ msg))
          | .refused => some (.error ("Unable to save output: ".toList ++ arg.raw_string))
          | .done _ =>
            some (.ok (state.1.set arg.index (.buffer converted.2),
              state.2 ++ d0 ++ d1 ++ converted.1))
    else
      some (.ok (state.1, state.2 ++ info verbose ("(Output ".toList ++ arg_name
        ++ " was not saved.)".toList)))
  else some (.ok state)

/-- The loop "Save the output(s), if necessary", over the entries of `args`. -/
def save_outputs (env : Environment) (verbose : Bool) (w : Nat) :
    List (List Char × ArgData) → List Slot × List Diagnostic →
    Option (Except (List Char) (List Slot × List Diagnostic))
  | [], state => some (.ok state)
  | arg_pair :: rest, state =>
    match save_output env verbose w state arg_pair with
    | none => none
    | some (.error e) => some (.error e)
    | some (.ok state) => save_outputs env verbose w rest state

/-- How a run of `main` ends: the number of calls of `halide_rungen_redirect_argv` that
were made, and either the message of the fatal error, after which the exit code is 1, or
the diagnostics written by a run that returns 0. -/
structure RunResult where
  invocations : Nat
  outcome : Except (List Char) (List Diagnostic)
  deriving DecidableEq, Repr

/-- The exit code of the process. -/
def RunResult.exit_code (r : RunResult) : Int :=
  match r.outcome with
  | .error _ => 1
  | .ok _ => 0

/-- The phases of `main` from the bounds query on: the call of the bounds query, the
allocation of the outputs, the calls of the filter, once or as a benchmark, and the saving
of the outputs.  What is written to the standard output is not modelled, nor is the memory
tracker, which is installed around the calls of the filter. -/
def run_filter (env : Environment) (w : Nat) (st : MainState) (rs : RunState) :
    Option RunResult :=
  let r := env.halide_rungen_redirect_argv 0 rs.filter_argv
  if r.1 ≠ 0 then
    some ⟨1, .error ("Bounds query failed with result code: ".toList ++ decimal r.1)⟩
  else
    let state := st.args.foldl (allocate_output st.verbose w) (r.2, rs.diagnostics)
    if st.benchmark then
      let d := info st.verbose "Benchmarking filter...".toList
      let calls := call_ignored env (1, state.1)
      let calls := benchmark st.benchmark_samples st.benchmark_iterations (call_ignored env) calls
      match save_outputs env st.verbose w st.args (calls.2, state.2 ++ d) with
      | none => none
      | some (.error e) => some ⟨calls.1, .error e⟩
      | some (.ok state) => some ⟨calls.1, .ok state.2⟩
    else
      let d := info st.verbose "Running filter...".toList
      let r := env.halide_rungen_redirect_argv 1 state.1
      if r.1 ≠ 0 then
        some ⟨2, .error ("Filter failed with result code: ".toList ++ decimal r.1)⟩
      else
        match save_outputs env st.verbose w st.args (r.2, state.2 ++ d) with
        | none => none
        | some (.error e) => some ⟨2, .error e⟩
        | some (.ok state) => some ⟨2, .ok state.2⟩

/-- The function `main` of `RunGen.cpp`; `argv` includes `argv[0]`. -/
def main (env : Environment) (w : Nat) (md : halide_filter_metadata_t)
    (argv : List (List Char)) : Option RunResult :=
  match main_resolve w md argv with
  | none => none
  | some (.error e) => some ⟨0, .error e⟩
  | some (.ok .usage) => some ⟨0, .ok []⟩
  | some (.ok .described) => some ⟨0, .ok []⟩
  | some (.ok (.resolved st diagnostics)) =>
    match bounds_query_state env w md st diagnostics with
    | none => none
    | some (.error e) => some ⟨0, .error e⟩
    | some (.ok rs) => run_filter env w st rs

/-- A module with one input buffer `in` and one output buffer `out`, both 2-D of `uint8`. -/
def metadata_in_out : halide_filter_metadata_t :=
  { name := "filter".toList
    arguments :=
      [⟨"in".toList, .halide_argument_kind_input_buffer, 2, ⟨halide_type_uint, 8, 1⟩⟩,
       ⟨"out".toList, .halide_argument_kind_output_buffer, 2, ⟨halide_type_uint, 8, 1⟩⟩] }

/-- An environment without files, whose module returns `status` on every call but the
first (the bounds query, which returns 0) and leaves the call vector as it is. -/
def env_status (status : Int) : Environment :=
  { fextract := fun _ str => ⟨true, none, str⟩
    indeterminate := .int 0
    load := fun _ => .refused
    save_query := fun _ => .refused
    save := fun _ _ => .refused
    halide_rungen_redirect_argv := fun k filter_argv => (if k = 0 then 0 else status, filter_argv) }

/-- The environment in which every call of the module after the bounds query returns 0
and does to the call vector what it does in `env`. -/
def Environment.mute (env : Environment) : Environment :=
  { env with
    halide_rungen_redirect_argv := fun k filter_argv =>
      (if k = 0 then (env.halide_rungen_redirect_argv k filter_argv).1 else 0,
       (env.halide_rungen_redirect_argv k filter_argv).2) }

/-! ## Invariants of the argument table -/

/-- The keys of a `std::map` over strings are in strictly ascending order. -/
def map_sorted {ν : Type} (m : List (List Char × ν)) : Prop :=
  (m.map Prod.fst).Pairwise (fun a b => string_lt a b = true)

/-- The members of a `std::set` of strings are in strictly ascending order. -/
def set_sorted (s : List (List Char)) : Prop :=
  s.Pairwise (fun a b => string_lt a b = true)

/-- The names of the declared arguments are pairwise distinct (the name is the unique key of
an ArgumentMetadata). -/
def names_distinct (md : halide_filter_metadata_t) : Prop :=
  (md.arguments.map (fun a => a.name)).Nodup

instance (md : halide_filter_metadata_t) : Decidable (names_distinct md) := by
  unfold names_distinct; infer_instance

/-- The element of the call vector holds the resolved value of the argument `arg`: the
scalar parsed from its raw string, the buffer that `load_input` gives for its raw string,
or, for an output, the buffer without storage whose shape `choose_output_extents` gives. -/
def holds_resolved (env : Environment) (verbose : Bool) (w : Nat) (default_output_shape : Shape)
    (arg : ArgData) (slot : Slot) : Prop :=
  match arg.metadata.kind with
  | .halide_argument_kind_input_scalar =>
    ∃ v, parse_scalar env.fextract arg.metadata.type arg.raw_string env.indeterminate
        = .ok (true, v) ∧ slot = .scalar v
  | .halide_argument_kind_input_buffer =>
    ∃ d b, load_input env verbose w arg.raw_string arg.metadata = some (.ok (d, b)) ∧
      slot = .buffer b
  | .halide_argument_kind_output_buffer =>
    slot = .buffer (Buffer.of_shape arg.metadata.type
      (choose_output_extents arg.metadata.dimensions default_output_shape))

/-- The table `args` agrees with the metadata `md`: the keys are in order, every entry is
entered under the name of its metadata, which is the declared argument of index
`arg.index`, and every declared argument has its entry. -/
def args_ok (md : halide_filter_metadata_t) (args : List (List Char × ArgData)) : Prop :=
  map_sorted args ∧
  (∀ p ∈ args, p.1 = p.2.metadata.name ∧ md.arguments[p.2.index]? = some p.2.metadata) ∧
  (∀ i a, md.arguments[i]? = some a →
    ∃ arg, (a.name, arg) ∈ args ∧ arg.index = i ∧ arg.metadata = a)

/-- The set `found` holds the names of the entries whose raw string is not empty, and every
handle-typed entry has a raw string. -/
def found_ok (args : List (List Char × ArgData)) (found : List (List Char)) : Prop :=
  set_sorted found ∧
  (∀ k, k ∈ found ↔ ∃ arg, (k, arg) ∈ args ∧ arg.raw_string ≠ []) ∧
  (∀ p ∈ args, p.2.metadata.type.code = halide_type_handle → p.2.raw_string ≠ [])

/-- A module with the scalar input `bias`, the input buffer `in` and the output buffer
`out`. -/
def metadata_bias_in_out : halide_filter_metadata_t :=
  { name := "filter".toList
    arguments :=
      [⟨"bias".toList, .halide_argument_kind_input_scalar, 0, ⟨halide_type_int, 32, 1⟩⟩,
       ⟨"in".toList, .halide_argument_kind_input_buffer, 2, ⟨halide_type_uint, 8, 1⟩⟩,
       ⟨"out".toList, .halide_argument_kind_output_buffer, 2, ⟨halide_type_uint, 8, 1⟩⟩] }

/-- The state in which `main` has resolved the command line
`out=o.png in=zero:[4,5] bias=3` for the module `metadata_bias_in_out`. -/
def state_bias_in_out : MainState :=
  { args := [("bias".toList, ⟨0, ⟨"bias".toList, .halide_argument_kind_input_scalar, 0,
                ⟨halide_type_int, 32, 1⟩⟩, "3".toList⟩),
             ("in".toList, ⟨1, ⟨"in".toList, .halide_argument_kind_input_buffer, 2,
                ⟨halide_type_uint, 8, 1⟩⟩, "zero:[4,5]".toList⟩),
             ("out".toList, ⟨2, ⟨"out".toList, .halide_argument_kind_output_buffer, 2,
                ⟨halide_type_uint, 8, 1⟩⟩, "o.png".toList⟩)]
    found := ["bias".toList, "in".toList, "out".toList]
    default_output_shape := []
    unknown_args := []
    benchmark := false
    track_memory := false
    describe := false
    benchmark_samples := 3
    benchmark_iterations := 10
    verbose := false
    halide_print_to_stdout := true }

/-- A module with the input buffer `in`, whose elements are handles, and the output buffer
`out`. -/
def metadata_handle_buffer : halide_filter_metadata_t :=
  { name := "filter".toList
    arguments :=
      [⟨"in".toList, .halide_argument_kind_input_buffer, 2, ⟨halide_type_handle, 64, 1⟩⟩,
       ⟨"out".toList, .halide_argument_kind_output_buffer, 2, ⟨halide_type_uint, 8, 1⟩⟩] }

/-- The command line gives a value for the argument `name`: one of its words does not begin
with `-` and is split at `=` into `name` and a value. -/
def given_on (argv : List (List Char)) (name : List Char) : Prop :=
  ∃ a ∈ argv, a.head? ≠ some (Char.ofNat 45) ∧
    ∃ value, split_string a "=".toList = some [name, value]

/-- The declared argument `a` has a value: the command line gives one, or `a` is
handle-typed and has the raw string `nullptr` from the start. -/
def has_value (argv : List (List Char)) (a : halide_filter_argument_t) : Prop :=
  given_on argv a.name ∨ a.type.code = halide_type_handle

/-- The state in which `main` has resolved the command line `out=o.png` for the module
`metadata_handle_buffer`. -/
def state_handle_buffer : MainState :=
  { args := [("in".toList, ⟨0, ⟨"in".toList, .halide_argument_kind_input_buffer, 2,
                ⟨halide_type_handle, 64, 1⟩⟩, "nullptr".toList⟩),
             ("out".toList, ⟨1, ⟨"out".toList, .halide_argument_kind_output_buffer, 2,
                ⟨halide_type_uint, 8, 1⟩⟩, "o.png".toList⟩)]
    found := ["in".toList, "out".toList]
    default_output_shape := []
    unknown_args := []
    benchmark := false
    track_memory := false
    describe := false
    benchmark_samples := 3
    benchmark_iterations := 10
    verbose := false
    halide_print_to_stdout := true }

/-! # Theorems -/

/-! ## Shapes: access and assignment -/

theorem Shape.at_set (s : Shape) (i j : Nat) (d : halide_dimension_t) :
    Shape.at (s.set i d) j = if i = j ∧ j < s.length then d else s.at j := by
  unfold Shape.at
  simp only [List.getD_eq_getElem?_getD, List.getElem?_set]
  by_cases hij : i = j
  · subst hij
    by_cases hl : i < s.length
    · simp [hl]
    · simp [hl, List.getElem?_eq_none (Nat.le_of_not_lt hl)]
  · simp [hij]

theorem Shape.at_of_le (s : Shape) (i : Nat) (h : s.length ≤ i) : s.at i = ⟨0, 0, 0⟩ := by
  unfold Shape.at
  simp [List.getD_eq_getElem?_getD, List.getElem?_eq_none h]

theorem Shape.length_setExtent (s : Shape) (i : Nat) (v : Int) :
    (s.setExtent i v).length = s.length := by
  simp [Shape.setExtent]

theorem Shape.length_setStride (s : Shape) (i : Nat) (v : Int) :
    (s.setStride i v).length = s.length := by
  simp [Shape.setStride]

theorem Shape.at_setExtent (s : Shape) (i j : Nat) (v : Int) :
    (s.setExtent i v).at j
      = if i = j ∧ j < s.length then { s.at j with extent := v } else s.at j := by
  unfold Shape.setExtent
  rw [Shape.at_set]
  by_cases h : i = j ∧ j < s.length
  · obtain ⟨h1, _⟩ := h
    subst h1
    simp_all
  · simp [h]

theorem Shape.at_setStride (s : Shape) (i j : Nat) (v : Int) :
    (s.setStride i v).at j
      = if i = j ∧ j < s.length then { s.at j with stride := v } else s.at j := by
  unfold Shape.setStride
  rw [Shape.at_set]
  by_cases h : i = j ∧ j < s.length
  · obtain ⟨h1, _⟩ := h
    subst h1
    simp_all
  · simp [h]

/-- Two shapes of the same length with the same elements are equal. -/
theorem Shape.ext_at (s t : Shape) (hl : s.length = t.length)
    (h : ∀ i, i < s.length → s.at i = t.at i) : s = t := by
  apply List.ext_getElem hl
  intro i h1 h2
  have := h i h1
  unfold Shape.at at this
  simpa [List.getD_eq_getElem?_getD, List.getElem?_eq_getElem h1,
    List.getElem?_eq_getElem h2] using this

/-! ## The first loop of `fix_bounds_query_shape` -/

theorem fill_extent_length (cs s : Shape) (i : Nat) :
    (fill_extent cs s i).length = s.length := by
  unfold fill_extent
  split_ifs <;> simp [Shape.length_setExtent]

theorem fill_extent_at (cs s : Shape) (i j : Nat) :
    (fill_extent cs s i).at j
      = if i = j ∧ j < s.length then
          { s.at j with extent := filled_extent cs j (s.at j).extent }
        else s.at j := by
  unfold fill_extent filled_extent
  by_cases hij : i = j
  · subst hij
    by_cases hl : i < s.length
    · split_ifs <;> simp_all [Shape.at_setExtent]
    · split_ifs <;> simp_all [Shape.at_setExtent]
  · split_ifs <;> simp_all [Shape.at_setExtent]

theorem fill_loop (cs : Shape) (n : Nat) (s : Shape) :
    ((List.range n).foldl (fill_extent cs) s).length = s.length ∧
    ∀ j, ((List.range n).foldl (fill_extent cs) s).at j
      = if j < n ∧ j < s.length then
          { s.at j with extent := filled_extent cs j (s.at j).extent }
        else s.at j := by
  induction n with
  | zero => simp
  | succ n ih =>
    obtain ⟨ihl, iha⟩ := ih
    rw [List.range_succ, List.foldl_append]
    simp only [List.foldl_cons, List.foldl_nil]
    refine ⟨by rw [fill_extent_length, ihl], ?_⟩
    intro j
    rw [fill_extent_at, ihl, iha]
    by_cases hj : n = j
    · subst hj
      by_cases hl : n < s.length
      · simp [hl]
      · simp [hl]
    · by_cases hjn : j < n
      · have : j < n + 1 := by omega
        simp [hj, hjn, this]
      · have : ¬ j < n + 1 := by omega
        simp [hj, hjn, this]

/-! ## The zero-stride flag and the planar loop -/

theorem zero_flag_loop (s : Shape) (n : Nat) :
    (List.range n).foldl
        (fun zero_strides i => if (s.at i).stride = 0 then true else zero_strides) false = true
      ↔ ∃ i, i < n ∧ (s.at i).stride = 0 := by
  induction n with
  | zero => simp
  | succ n ih =>
    rw [List.range_succ, List.foldl_append]
    simp only [List.foldl_cons, List.foldl_nil]
    by_cases hn : (s.at n).stride = 0
    · simp only [hn, if_true, true_iff]
      exact ⟨n, by omega, hn⟩
    · simp only [hn, if_false]
      rw [ih]
      constructor
      · rintro ⟨i, hi, h0⟩
        exact ⟨i, by omega, h0⟩
      · rintro ⟨i, hi, h0⟩
        have hne : i ≠ n := fun h => hn (h ▸ h0)
        exact ⟨i, by omega, h0⟩

theorem has_zero_strides_iff (s : Shape) :
    has_zero_strides s = true ↔ ∃ i, i < s.length ∧ (s.at i).stride = 0 :=
  zero_flag_loop s s.length

theorem planar_step_length (w : Nat) (s : Shape) (i : Nat) :
    (planar_step w s i).length = s.length := by
  simp [planar_step, Shape.length_setStride]

/-- Invariant of the planar loop after the axes `1 .. k` have been assigned. -/
theorem planar_loop (w : Nat) (s : Shape) (k : Nat) :
    ((List.range' 1 k).foldl (planar_step w) s).length = s.length ∧
    (∀ j, (((List.range' 1 k).foldl (planar_step w) s).at j).extent = (s.at j).extent ∧
          (((List.range' 1 k).foldl (planar_step w) s).at j).min = (s.at j).min) ∧
    ((List.range' 1 k).foldl (planar_step w) s).at 0 = s.at 0 ∧
    (∀ j, 1 ≤ j → j ≤ k → j < s.length →
      (((List.range' 1 k).foldl (planar_step w) s).at j).stride
        = mulw w (((List.range' 1 k).foldl (planar_step w) s).at (j - 1)).stride
            (((List.range' 1 k).foldl (planar_step w) s).at (j - 1)).extent) ∧
    (∀ j, k < j → ((List.range' 1 k).foldl (planar_step w) s).at j = s.at j) := by
  induction k with
  | zero =>
    simp only [List.range'_zero, List.foldl_nil, and_self, implies_true, true_and, and_true]
    intro j h1 h2
    omega
  | succ k ih =>
    obtain ⟨ihl, ihe, ih0, ihs, ihr⟩ := ih
    rw [List.range'_1_concat, List.foldl_append]
    simp only [List.foldl_cons, List.foldl_nil]
    generalize (List.range' 1 k).foldl (planar_step w) s = r at *
    refine ⟨by rw [planar_step_length, ihl], ?_, ?_, ?_, ?_⟩
    · intro j
      unfold planar_step
      rw [Shape.at_setStride]
      split_ifs
      · exact ihe j
      · exact ihe j
    · unfold planar_step
      rw [Shape.at_setStride]
      have : ¬ (1 + k = 0 ∧ 0 < r.length) := by omega
      rw [if_neg this, ih0]
    · intro j h1 h2 h3
      unfold planar_step
      rw [Shape.at_setStride, Shape.at_setStride]
      by_cases hj : j = k + 1
      · subst hj
        have h4 : 1 + k = k + 1 ∧ k + 1 < r.length := by omega
        have h5 : ¬ (1 + k = k + 1 - 1 ∧ k + 1 - 1 < r.length) := by omega
        rw [if_pos h4, if_neg h5]
        simp only [Nat.add_sub_cancel]
        rw [show 1 + k - 1 = k by omega]
      · have h4 : ¬ (1 + k = j ∧ j < r.length) := by omega
        have h5 : ¬ (1 + k = j - 1 ∧ j - 1 < r.length) := by omega
        rw [if_neg h4, if_neg h5]
        exact ihs j h1 (by omega) h3
    · intro j hj
      unfold planar_step
      rw [Shape.at_setStride]
      have h4 : ¬ (1 + k = j ∧ j < r.length) := by omega
      rw [if_neg h4]
      exact ihr j (by omega)

/-! ## The chunky block and the planar fallback, axis by axis -/

theorem mulw_comm (w : Nat) (a b : Int) : mulw w a b = mulw w b a := by
  unfold mulw
  rw [Int.mul_comm]

theorem fix_chunky_length (w : Nat) (cs s : Shape) : (fix_chunky w cs s).length = s.length := by
  unfold fix_chunky
  split_ifs <;> simp [Shape.length_setStride, Shape.length_setExtent]

theorem fix_chunky_min (w : Nat) (cs s : Shape) (j : Nat) :
    ((fix_chunky w cs s).at j).min = (s.at j).min := by
  unfold fix_chunky
  split_ifs <;> simp only [Shape.at_setStride, Shape.at_setExtent] <;> split_ifs <;> rfl

theorem fix_chunky_extent (w : Nat) (cs s : Shape) (j : Nat) :
    ((fix_chunky w cs s).at j).extent
      = if 3 ≤ s.length ∧ (cs.at 2).stride = 1 ∧ (cs.at 0).stride ≥ 1 ∧ j = 2 then
          (cs.at 0).stride
        else (s.at j).extent := by
  unfold fix_chunky
  by_cases h3 : 3 ≤ s.length
  · by_cases h2 : (cs.at 2).stride = 1
    · by_cases h0 : (cs.at 0).stride ≥ 1
      · by_cases hj : j = 2
        · subst hj
          have hl : 2 < s.length := by omega
          simp [h3, h2, h0, Shape.at_setStride, Shape.at_setExtent, Shape.length_setExtent, hl]
        · have hj2 : ¬ 2 = j := fun h => hj h.symm
          simp only [ge_iff_le, h3, h2, h0, hj, if_true, and_false, if_false,
            Shape.at_setStride, Shape.at_setExtent, Shape.length_setExtent, hj2, false_and]
          split_ifs <;> rfl
      · simp only [ge_iff_le, h3, h2, h0, if_true, if_false, false_and, and_false,
          Shape.at_setStride, Shape.length_setStride]
        split_ifs <;> rfl
    · simp [h3, h2]
  · have : ¬ s.length ≥ 3 := h3
    simp [h3, this]

theorem fix_planar_length (w : Nat) (s : Shape) : (fix_planar w s).length = s.length := by
  unfold fix_planar
  split_ifs
  · simp only
    rw [(planar_loop w _ _).1, Shape.length_setStride]
  · rfl

theorem fix_planar_extent_min (w : Nat) (s : Shape) (j : Nat) :
    ((fix_planar w s).at j).extent = (s.at j).extent ∧
    ((fix_planar w s).at j).min = (s.at j).min := by
  unfold fix_planar
  split_ifs
  · simp only
    have h := (planar_loop w (s.setStride 0 1) ((s.setStride 0 1).length - 1)).2.1 j
    rw [h.1, h.2, Shape.at_setStride]
    split_ifs <;> exact ⟨rfl, rfl⟩
  · exact ⟨rfl, rfl⟩

/-- With a zero stride somewhere, the planar fallback leaves planar strides. -/
theorem fix_planar_strides (w : Nat) (s : Shape)
    (hz : ∃ i, i < s.length ∧ (s.at i).stride = 0) :
    ((fix_planar w s).at 0).stride = 1 ∧
    ∀ j, 1 ≤ j → j < s.length →
      ((fix_planar w s).at j).stride
        = mulw w ((fix_planar w s).at (j - 1)).stride ((fix_planar w s).at (j - 1)).extent := by
  have hflag : has_zero_strides s = true := (has_zero_strides_iff s).2 hz
  have hpos : 0 < s.length := by
    obtain ⟨i, hi, _⟩ := hz
    omega
  unfold fix_planar
  simp only [hflag, if_true]
  obtain ⟨_, _, h0, hs, _⟩ := planar_loop w (s.setStride 0 1) ((s.setStride 0 1).length - 1)
  refine ⟨?_, ?_⟩
  · rw [h0, Shape.at_setStride]
    simp [hpos]
  · intro j h1 hj
    simp only [Shape.length_setStride] at hs ⊢
    exact hs j h1 (by omega) hj

/-- Without a zero stride, the planar fallback changes nothing. -/
theorem fix_planar_id (w : Nat) (s : Shape)
    (hz : ¬ ∃ i, i < s.length ∧ (s.at i).stride = 0) : fix_planar w s = s := by
  have hflag : ¬ has_zero_strides s = true := fun h => hz ((has_zero_strides_iff s).1 h)
  unfold fix_planar
  simp [hflag]

theorem fix_chunky_stride1 (w : Nat) (cs s : Shape) (h3 : 3 ≤ s.length)
    (h2 : (cs.at 2).stride = 1) :
    ((fix_chunky w cs s).at 1).stride
      = mulw w ((fix_chunky w cs s).at 0).extent ((fix_chunky w cs s).at 0).stride := by
  unfold fix_chunky
  have h3' : s.length ≥ 3 := h3
  simp only [h3', h2, if_true]
  rw [Shape.at_setStride, Shape.at_setStride]
  have hlen : (if (cs.at 0).stride ≥ 1 then s.setExtent 2 (cs.at 0).stride
      else s.setStride 0 (s.at 2).extent).length = s.length := by
    split_ifs <;> simp [Shape.length_setStride, Shape.length_setExtent]
  rw [hlen]
  have h1 : (1 = 1 ∧ 1 < s.length) := ⟨rfl, by omega⟩
  have h0 : ¬ (1 = 0 ∧ 0 < s.length) := by omega
  rw [if_pos h1, if_neg h0]

theorem fix_chunky_of_not_chunky (w : Nat) (cs s : Shape)
    (hn : s.length < 3 ∨ (cs.at 2).stride ≠ 1) : fix_chunky w cs s = s := by
  unfold fix_chunky
  rcases hn with h | h
  · have : ¬ s.length ≥ 3 := by omega
    simp [this]
  · simp [h]

/-- The first loop leaves mins and strides alone and fills the zero extents. -/
theorem fill_loop_at (cs : Shape) (j : Nat) (hj : j < cs.length) :
    (((List.range cs.length).foldl (fill_extent cs) cs).at j).min = (cs.at j).min ∧
    (((List.range cs.length).foldl (fill_extent cs) cs).at j).stride = (cs.at j).stride ∧
    (((List.range cs.length).foldl (fill_extent cs) cs).at j).extent
      = filled_extent cs j (cs.at j).extent := by
  rw [(fill_loop cs cs.length cs).2 j]
  simp [hj]

theorem fill_loop_stride (cs : Shape) (j : Nat) :
    (((List.range cs.length).foldl (fill_extent cs) cs).at j).stride = (cs.at j).stride := by
  rw [(fill_loop cs cs.length cs).2 j]
  split_ifs <;> rfl

/-- The first two phases never leave a zero extent; the planar fallback keeps extents. -/
theorem fix_bounds_query_shape_extent_ne_zero (w : Nat) (cs : Shape) (i : Nat)
    (hi : i < cs.length) : ((fix_bounds_query_shape w cs).at i).extent ≠ 0 := by
  unfold fix_bounds_query_shape
  simp only
  rw [(fix_planar_extent_min w _ i).1, fix_chunky_extent, (fill_loop_at cs i hi).2.2]
  unfold filled_extent
  split_ifs <;> omega

/-- A value that fits `w` bits is not changed by the reduction to `w` bits. -/
theorem wrap_of_fits (w : Nat) (hw : 1 ≤ w) (x : Int) (h : fitsSigned w x) : wrap w x = x := by
  obtain ⟨h1, h2⟩ := h
  unfold wrap
  have hm : ((2 ^ w : Nat) : Int) = 2 * (2 : Int) ^ (w - 1) := by
    have : w = (w - 1) + 1 := by omega
    conv_lhs => rw [this]
    push_cast
    ring
  have hpos : (0 : Int) < (2 : Int) ^ (w - 1) := by positivity
  generalize (2 : Int) ^ (w - 1) = k at *
  rw [Int.bmod_def, hm]
  have hhalf : (2 * k + 1) / 2 = k := by omega
  rw [hhalf]
  by_cases hx : 0 ≤ x
  · have : x % (2 * k) = x := Int.emod_eq_of_lt hx (by omega)
    rw [this, if_pos h2]
  · have : x % (2 * k) = x + 2 * k := by
      rw [← Int.add_emod_self]
      exact Int.emod_eq_of_lt (by omega) (by omega)
    rw [this, if_neg (by omega)]
    omega

/-- When the product fits the width, the machine product is the product. -/
theorem mulw_of_fits (w : Nat) (hw : 1 ≤ w) (a b : Int) (h : fitsSigned w (a * b)) :
    mulw w a b = a * b :=
  wrap_of_fits w hw (a * b) h

/-- As long as the stride products of the planar loop fit the fields, no returned stride
is zero: only an overflowing product can leave a zero stride. -/
theorem fix_bounds_query_shape_stride_ne_zero (w : Nat) (hw : 1 ≤ w) (cs : Shape) :
    ∀ i, i < cs.length →
      (∀ j, 1 ≤ j → j ≤ i →
        fitsSigned w (((fix_bounds_query_shape w cs).at (j - 1)).stride
          * ((fix_bounds_query_shape w cs).at (j - 1)).extent)) →
      ((fix_bounds_query_shape w cs).at i).stride ≠ 0 := by
  have hext := fix_bounds_query_shape_extent_ne_zero w cs
  have hR : fix_bounds_query_shape w cs
      = fix_planar w (fix_chunky w cs ((List.range cs.length).foldl (fill_extent cs) cs)) := rfl
  have hBlen : (fix_chunky w cs ((List.range cs.length).foldl (fill_extent cs) cs)).length
      = cs.length := by
    rw [fix_chunky_length, (fill_loop cs cs.length cs).1]
  generalize fix_chunky w cs ((List.range cs.length).foldl (fill_extent cs) cs) = B at hR hBlen
  generalize fix_bounds_query_shape w cs = R at hR hext ⊢
  by_cases hz : ∃ i, i < B.length ∧ (B.at i).stride = 0
  · obtain ⟨h0, hs⟩ := fix_planar_strides w B hz
    rw [← hR] at h0 hs
    intro i
    induction i with
    | zero =>
      intro _ _
      rw [h0]
      decide
    | succ n ih =>
      intro hn hfit
      have hprev := ih (by omega) (fun j hj1 hj2 => hfit j hj1 (by omega))
      have hstep := hs (n + 1) (by omega) (by omega)
      have hf := hfit (n + 1) (by omega) (by omega)
      simp only [Nat.add_sub_cancel] at hstep hf
      rw [hstep, mulw_of_fits w hw _ _ hf]
      exact Int.mul_ne_zero hprev (hext n (by omega))
  · rw [fix_planar_id w B hz] at hR
    intro i hi _ h0
    exact hz ⟨i, by omega, by rw [← hR, h0]⟩

/-! ## Claims on `fix_bounds_query_shape` -/

/-- C1: for a constrained shape with at least 3 axes whose axis-2 stride is 1, the returned
shape has `stride[1] == extent[0] * stride[0]` over the returned axis 0 (the product is the
machine product of `w`-bit integers, as the C expression computes it); and the 3-axis input
with strides `(4, s1, 1)` and all extents zero returns extents `(1, 1, 4)` and strides
`(4, 4, 1)`, whatever `s1` and the mins are. -/
theorem fix_bounds_query_shape_chunky_stride1 :
    (∀ (w : Nat) (cs : Shape), 3 ≤ cs.length → (cs.at 2).stride = 1 →
      ((fix_bounds_query_shape w cs).at 1).stride
        = mulw w ((fix_bounds_query_shape w cs).at 0).extent
            ((fix_bounds_query_shape w cs).at 0).stride) ∧
    (∀ (m0 m1 m2 s1 : Int),
      fix_bounds_query_shape 32 [⟨m0, 0, 4⟩, ⟨m1, 0, s1⟩, ⟨m2, 0, 1⟩]
        = [⟨m0, 1, 4⟩, ⟨m1, 1, 4⟩, ⟨m2, 4, 1⟩]) := by
  constructor
  · intro w cs h3 h2
    unfold fix_bounds_query_shape
    simp only
    have hlen := (fill_loop cs cs.length cs).1
    generalize (List.range cs.length).foldl (fill_extent cs) cs = A at hlen
    have hB := fix_chunky_length w cs A
    by_cases hz : ∃ i, i < (fix_chunky w cs A).length ∧ ((fix_chunky w cs A).at i).stride = 0
    · have h := (fix_planar_strides w _ hz).2 1 (by omega) (by omega)
      rw [h, mulw_comm]
    · rw [fix_planar_id w _ hz]
      exact fix_chunky_stride1 w cs A (by omega) h2
  · intro m0 m1 m2 s1
    simp [fix_bounds_query_shape, List.range, List.range.loop, fill_extent, fix_chunky, fix_planar,
      has_zero_strides, Shape.at, Shape.setExtent, Shape.setStride, mulw, wrap]

/-- Instance of C1 at the chunky shape with strides `(4, 7, 1)` and zero extents. -/
theorem fix_bounds_query_shape_chunky_stride1_witness :
    3 ≤ ([⟨0, 0, 4⟩, ⟨0, 0, 7⟩, ⟨0, 0, 1⟩] : Shape).length ∧
    (Shape.at [⟨0, 0, 4⟩, ⟨0, 0, 7⟩, ⟨0, 0, 1⟩] 2).stride = 1 ∧
    ((fix_bounds_query_shape 32 [⟨0, 0, 4⟩, ⟨0, 0, 7⟩, ⟨0, 0, 1⟩]).at 1).stride
      = mulw 32 ((fix_bounds_query_shape 32 [⟨0, 0, 4⟩, ⟨0, 0, 7⟩, ⟨0, 0, 1⟩]).at 0).extent
          ((fix_bounds_query_shape 32 [⟨0, 0, 4⟩, ⟨0, 0, 7⟩, ⟨0, 0, 1⟩]).at 0).stride :=
  ⟨by decide, by decide,
    fix_bounds_query_shape_chunky_stride1.1 32 [⟨0, 0, 4⟩, ⟨0, 0, 7⟩, ⟨0, 0, 1⟩]
      (by decide) (by decide)⟩

/-- C2: for a constrained shape with at least 3 axes, the returned axis-2 extent is the
constrained axis-0 stride when the constrained axis-2 stride is 1 and the constrained axis-0
stride is at least 1 (whatever the constrained axis-2 extent); otherwise 4 when the
constrained axis-2 extent is zero; otherwise the constrained axis-2 extent. -/
theorem fix_bounds_query_shape_extent2 (w : Nat) (cs : Shape) (h3 : 3 ≤ cs.length) :
    ((fix_bounds_query_shape w cs).at 2).extent
      = if (cs.at 2).stride = 1 ∧ (cs.at 0).stride ≥ 1 then (cs.at 0).stride
        else if (cs.at 2).extent = 0 then 4
        else (cs.at 2).extent := by
  unfold fix_bounds_query_shape
  simp only
  rw [(fix_planar_extent_min w _ 2).1, fix_chunky_extent, (fill_loop cs cs.length cs).1,
    (fill_loop_at cs 2 (by omega)).2.2]
  unfold filled_extent
  by_cases h2 : (cs.at 2).stride = 1 <;> by_cases h0 : (cs.at 0).stride ≥ 1 <;>
    by_cases he : (cs.at 2).extent = 0 <;> simp [h3, h2, h0, he]

/-- Instance of C2: a chunky shape whose axis-2 extent was already 7 gets axis-2 extent 3,
the axis-0 stride. -/
theorem fix_bounds_query_shape_extent2_witness :
    3 ≤ ([⟨0, 10, 3⟩, ⟨0, 10, 0⟩, ⟨0, 7, 1⟩] : Shape).length ∧
    ((fix_bounds_query_shape 32 [⟨0, 10, 3⟩, ⟨0, 10, 0⟩, ⟨0, 7, 1⟩]).at 2).extent = 3 :=
  ⟨by decide, fix_bounds_query_shape_extent2 32 [⟨0, 10, 3⟩, ⟨0, 10, 0⟩, ⟨0, 7, 1⟩] (by decide)⟩

/-- C3: the returned shape has as many axes as the constrained one and the same min on
every axis, and on every axis other than 2 its extent is the constrained extent when that
is non-zero and 1 when it is zero. -/
theorem fix_bounds_query_shape_frame (w : Nat) (cs : Shape) :
    (fix_bounds_query_shape w cs).length = cs.length ∧
    ∀ i, i < cs.length →
      ((fix_bounds_query_shape w cs).at i).min = (cs.at i).min ∧
      (i ≠ 2 → ((fix_bounds_query_shape w cs).at i).extent
        = if (cs.at i).extent = 0 then 1 else (cs.at i).extent) := by
  unfold fix_bounds_query_shape
  simp only
  refine ⟨by rw [fix_planar_length, fix_chunky_length, (fill_loop cs cs.length cs).1], ?_⟩
  intro i hi
  refine ⟨?_, ?_⟩
  · rw [(fix_planar_extent_min w _ i).2, fix_chunky_min, (fill_loop_at cs i hi).1]
  · intro hne
    rw [(fix_planar_extent_min w _ i).1, fix_chunky_extent, (fill_loop_at cs i hi).2.2]
    unfold filled_extent
    simp [hne]

/-- Instance of C3 on a 4-axis shape, at axis 3. -/
theorem fix_bounds_query_shape_frame_witness :
    (fix_bounds_query_shape 32 [⟨5, 0, 0⟩, ⟨-2, 9, 0⟩, ⟨1, 0, 0⟩, ⟨7, 0, 0⟩]).length = 4 ∧
    ((fix_bounds_query_shape 32 [⟨5, 0, 0⟩, ⟨-2, 9, 0⟩, ⟨1, 0, 0⟩, ⟨7, 0, 0⟩]).at 3).min = 7 ∧
    ((fix_bounds_query_shape 32 [⟨5, 0, 0⟩, ⟨-2, 9, 0⟩, ⟨1, 0, 0⟩, ⟨7, 0, 0⟩]).at 3).extent = 1 :=
  ⟨(fix_bounds_query_shape_frame 32 [⟨5, 0, 0⟩, ⟨-2, 9, 0⟩, ⟨1, 0, 0⟩, ⟨7, 0, 0⟩]).1,
   ((fix_bounds_query_shape_frame 32 [⟨5, 0, 0⟩, ⟨-2, 9, 0⟩, ⟨1, 0, 0⟩, ⟨7, 0, 0⟩]).2 3
      (by decide)).1,
   ((fix_bounds_query_shape_frame 32 [⟨5, 0, 0⟩, ⟨-2, 9, 0⟩, ⟨1, 0, 0⟩, ⟨7, 0, 0⟩]).2 3
      (by decide)).2 (by decide)⟩

/-- C4: a constrained shape that is not chunky (fewer than 3 axes, or axis-2 stride other
than 1) and has a zero stride gets planar strides, `stride[0] == 1` and
`stride[i] == stride[i-1] * extent[i-1]` for every axis `i >= 1` over the returned extents
(machine product of `w`-bit integers); one without a zero stride keeps all its strides. -/
theorem fix_bounds_query_shape_planar (w : Nat) (cs : Shape)
    (hn : cs.length < 3 ∨ (cs.at 2).stride ≠ 1) :
    ((∃ i, i < cs.length ∧ (cs.at i).stride = 0) →
      ((fix_bounds_query_shape w cs).at 0).stride = 1 ∧
      ∀ i, 1 ≤ i → i < cs.length →
        ((fix_bounds_query_shape w cs).at i).stride
          = mulw w ((fix_bounds_query_shape w cs).at (i - 1)).stride
              ((fix_bounds_query_shape w cs).at (i - 1)).extent) ∧
    ((¬ ∃ i, i < cs.length ∧ (cs.at i).stride = 0) →
      ∀ i, ((fix_bounds_query_shape w cs).at i).stride = (cs.at i).stride) := by
  unfold fix_bounds_query_shape
  simp only
  have hlen := (fill_loop cs cs.length cs).1
  have hst := fill_loop_stride cs
  generalize (List.range cs.length).foldl (fill_extent cs) cs = A at hlen hst
  rw [fix_chunky_of_not_chunky w cs A (by rw [hlen]; exact hn)]
  constructor
  · rintro ⟨i, hi, h0⟩
    have hz : ∃ i, i < A.length ∧ (A.at i).stride = 0 := ⟨i, by omega, by rw [hst, h0]⟩
    obtain ⟨h1, h2⟩ := fix_planar_strides w A hz
    exact ⟨h1, fun j hj1 hj2 => h2 j hj1 (by omega)⟩
  · intro hno i
    have hz : ¬ ∃ i, i < A.length ∧ (A.at i).stride = 0 := by
      rintro ⟨i, hi, h0⟩
      exact hno ⟨i, by omega, by rw [← hst, h0]⟩
    rw [fix_planar_id w A hz, hst]

/-- Instance of C4 on the 2-axis shape with extents `(3, 5)` and no stride given. -/
theorem fix_bounds_query_shape_planar_witness :
    (([⟨0, 3, 0⟩, ⟨0, 5, 0⟩] : Shape).length < 3 ∨
      (Shape.at [⟨0, 3, 0⟩, ⟨0, 5, 0⟩] 2).stride ≠ 1) ∧
    ((fix_bounds_query_shape 32 [⟨0, 3, 0⟩, ⟨0, 5, 0⟩]).at 0).stride = 1 ∧
    ((fix_bounds_query_shape 32 [⟨0, 3, 0⟩, ⟨0, 5, 0⟩]).at 1).stride = 3 :=
  ⟨by decide,
   ((fix_bounds_query_shape_planar 32 [⟨0, 3, 0⟩, ⟨0, 5, 0⟩] (by decide)).1
      ⟨0, by decide, by decide⟩).1,
   by
    have h := ((fix_bounds_query_shape_planar 32 [⟨0, 3, 0⟩, ⟨0, 5, 0⟩] (by decide)).1
      ⟨0, by decide, by decide⟩).2 1 (by decide) (by decide)
    rw [h]
    decide⟩

/-- C5 (failing input): with 32-bit fields, the constrained shape with extents
`(65536, 65536, 1)` and no stride given gets the planar strides `(1, 65536, 0)`: the product
`65536 * 65536` is `2 ^ 32`, which a 32-bit integer holds as 0, so the returned axis 2 has a
zero stride. -/
theorem fix_bounds_query_shape_zero_stride :
    fix_bounds_query_shape 32 [⟨0, 65536, 0⟩, ⟨0, 65536, 0⟩, ⟨0, 1, 0⟩]
      = [⟨0, 65536, 1⟩, ⟨0, 65536, 65536⟩, ⟨0, 1, 0⟩] ∧
    ((fix_bounds_query_shape 32 [⟨0, 65536, 0⟩, ⟨0, 65536, 0⟩, ⟨0, 1, 0⟩]).at 2).stride = 0 := by
  decide

/-! ## Decimal numerals and the extraction of integers -/

theorem digit_value_digitChar : ∀ m, m < 10 → digit_value (Nat.digitChar m) = some m := by
  decide

/-- A digit is neither whitespace nor a sign nor a comma. -/
theorem digit_not_special (c : Char) (h : (digit_value c).isSome) :
    isspace c = false ∧ c ≠ Char.ofNat 45 ∧ c ≠ Char.ofNat 43 ∧ c ≠ Char.ofNat 44 := by
  unfold digit_value at h
  have hc : 48 ≤ c.toNat ∧ c.toNat ≤ 57 := by
    by_contra hn
    simp [hn] at h
  refine ⟨?_, ?_, ?_, ?_⟩
  · unfold isspace
    have h1 : ¬ c.toNat = 32 := by omega
    have h2 : ¬ c.toNat ≤ 13 := by omega
    simp [h1, h2]
  · intro he
    rw [he] at hc
    revert hc
    decide
  · intro he
    rw [he] at hc
    revert hc
    decide
  · intro he
    rw [he] at hc
    revert hc
    decide

/-- The digits that `Nat.toDigitsCore` puts in front of `ds` are read back by
`read_digits` as the number they were made from. -/
theorem toDigitsCore_read : ∀ (fuel n : Nat) (ds : List Char), n < fuel →
    ∃ pre, Nat.toDigitsCore 10 fuel n ds = pre ++ ds ∧ pre ≠ [] ∧
      (∀ c ∈ pre, (digit_value c).isSome) ∧
      ∀ (rest : List Char) (k acc : Nat),
        read_digits (pre ++ rest) k acc
          = read_digits rest (k + pre.length) (acc * 10 ^ pre.length + n) := by
  intro fuel
  induction fuel with
  | zero => intro n ds h; omega
  | succ f ih =>
    intro n ds hn
    have hd : digit_value (Nat.digitChar (n % 10)) = some (n % 10) :=
      digit_value_digitChar (n % 10) (Nat.mod_lt _ (by decide))
    unfold Nat.toDigitsCore
    simp only
    by_cases h0 : n / 10 = 0
    · rw [if_pos h0]
      refine ⟨[Nat.digitChar (n % 10)], rfl, by simp, ?_, ?_⟩
      · intro c hc
        simp only [List.mem_singleton] at hc
        rw [hc, hd]
        rfl
      · intro rest k acc
        have hlt : n < 10 := by omega
        simp only [List.singleton_append, read_digits, hd, List.length_singleton, pow_one]
        rw [Nat.mod_eq_of_lt hlt]
        rfl
    · rw [if_neg h0]
      obtain ⟨pre, hpre, hne, hdig, hread⟩ :=
        ih (n / 10) (Nat.digitChar (n % 10) :: ds) (by omega)
      refine ⟨pre ++ [Nat.digitChar (n % 10)], by rw [hpre]; simp, by simp, ?_, ?_⟩
      · intro c hc
        rcases List.mem_append.1 hc with h | h
        · exact hdig c h
        · simp only [List.mem_singleton] at h
          rw [h, hd]
          rfl
      · intro rest k acc
        rw [List.append_assoc, hread]
        simp only [List.singleton_append, read_digits, hd, List.length_append,
          List.length_singleton]
        have : (acc * 10 ^ pre.length + n / 10) * 10 + n % 10
            = acc * 10 ^ (pre.length + 1) + n := by
          have := Nat.div_add_mod n 10
          rw [pow_succ]
          nlinarith
        rw [this, Nat.add_assoc]
        rfl

/-- The reading of the decimal digits of `n`. -/
theorem toDigits_read (n : Nat) :
    ∃ c t, Nat.toDigits 10 n = c :: t ∧ (∀ x ∈ c :: t, (digit_value x).isSome) ∧
      ∀ (rest : List Char) (k acc : Nat),
        read_digits (c :: t ++ rest) k acc
          = read_digits rest (k + (c :: t).length) (acc * 10 ^ (c :: t).length + n) := by
  obtain ⟨pre, hpre, hne, hdig, hread⟩ := toDigitsCore_read (n + 1) n [] (by omega)
  rw [List.append_nil] at hpre
  cases pre with
  | nil => exact absurd rfl hne
  | cons c t => exact ⟨c, t, hpre, hdig, hread⟩

/-- Extraction of an integer from its decimal numeral: nothing is left, the stream does
not fail, and the value stored is the integer. -/
theorem extract_int_decimal (T : IntType) (v : Int) (h1 : T.min ≤ v) (h2 : v ≤ T.max) :
    extract_int T (decimal v) = ⟨false, some v, []⟩ := by
  unfold decimal
  by_cases hv : v < 0
  · rw [if_pos hv]
    have hs : T.signed = true := by
      by_contra hns
      simp [IntType.min, hns] at h1
      omega
    obtain ⟨c, t, hct, hdig, hread⟩ := toDigits_read v.natAbs
    have hr : read_digits (c :: t) 0 0 = ((c :: t).length, v.natAbs, []) := by
      have := hread [] 0 0
      rw [List.append_nil] at this
      rw [this]
      simp [read_digits]
    have hsp : isspace (Char.ofNat 45) = false := by decide
    unfold extract_int
    simp only [skipws, hsp, Bool.false_eq_true, if_false, true_or, if_true, hct, hr]
    have hlen : ¬ ((c :: t).length = 0) := by simp
    have hval : -((v.natAbs : Nat) : Int) = v := by omega
    simp only [hlen, if_false, hs, if_true, decide_True, hval]
    have hn1 : ¬ v < T.min := by omega
    have hn2 : ¬ v > T.max := by omega
    simp [hn1, hn2]
  · rw [if_neg hv]
    obtain ⟨c, t, hct, hdig, hread⟩ := toDigits_read v.toNat
    have hr : read_digits (c :: t) 0 0 = ((c :: t).length, v.toNat, []) := by
      have := hread [] 0 0
      rw [List.append_nil] at this
      rw [this]
      simp [read_digits]
    obtain ⟨hsp, hm, hp, _⟩ := digit_not_special c (hdig c (List.mem_cons_self _ _))
    unfold extract_int
    have hsign : ¬ (c = Char.ofNat 45 ∨ c = Char.ofNat 43) := by
      rintro (h | h)
      · exact hm h
      · exact hp h
    simp only [hct, skipws, hsp, Bool.false_eq_true, if_false, hsign, hr]
    have hlen : ¬ ((c :: t).length = 0) := by simp
    have hval : ((v.toNat : Nat) : Int) = v := by omega
    have hneg : decide (c = Char.ofNat 45) = false := by simp [hm]
    simp only [hlen, if_false, hval, hneg, Bool.false_eq_true]
    have hn2 : ¬ v > T.max := by omega
    by_cases hs : T.signed = true
    · have hn1 : ¬ v < T.min := by omega
      simp [hs, hn1, hn2]
    · simp [hs, hn2]

/-! ## Type dispatch -/

theorem halide_type_code_eq (c b : Nat) (hb : b < 256) : halide_type_code c b = 256 * c + b := by
  unfold halide_type_code
  rw [Nat.shiftLeft_eq, Nat.mul_comm]
  exact (Nat.mul_add_lt_is_or (i := 8) hb c).symm

/-- The switch either takes the case of one `T`, whose label is the key, or the default
case, the key being no label. -/
theorem dispatch_switch_spec {α : Type} (F : CType → α) (type : halide_type_t) (key : Nat) :
    (∃ T : CType, key = halide_type_code T.tag.1 T.tag.2 ∧
      dispatch_switch F type key = .ok (F T)) ∨
    ((∀ T : CType, key ≠ halide_type_code T.tag.1 T.tag.2) ∧
      dispatch_switch F type key
        = .error ("Unsupported type: ".toList ++ show_type type ++ [Char.ofNat 10])) := by
  generalize hr : dispatch_switch F type key = r
  unfold dispatch_switch at hr
  by_cases h1 : key = halide_type_code halide_type_float 32
  · rw [if_pos h1] at hr; exact Or.inl ⟨.float, h1, hr.symm⟩
  rw [if_neg h1] at hr
  by_cases h2 : key = halide_type_code halide_type_float 64
  · rw [if_pos h2] at hr; exact Or.inl ⟨.double, h2, hr.symm⟩
  rw [if_neg h2] at hr
  by_cases h3 : key = halide_type_code halide_type_int 8
  · rw [if_pos h3] at hr; exact Or.inl ⟨.int8_t, h3, hr.symm⟩
  rw [if_neg h3] at hr
  by_cases h4 : key = halide_type_code halide_type_int 16
  · rw [if_pos h4] at hr; exact Or.inl ⟨.int16_t, h4, hr.symm⟩
  rw [if_neg h4] at hr
  by_cases h5 : key = halide_type_code halide_type_int 32
  · rw [if_pos h5] at hr; exact Or.inl ⟨.int32_t, h5, hr.symm⟩
  rw [if_neg h5] at hr
  by_cases h6 : key = halide_type_code halide_type_int 64
  · rw [if_pos h6] at hr; exact Or.inl ⟨.int64_t, h6, hr.symm⟩
  rw [if_neg h6] at hr
  by_cases h7 : key = halide_type_code halide_type_uint 1
  · rw [if_pos h7] at hr; exact Or.inl ⟨.bool, h7, hr.symm⟩
  rw [if_neg h7] at hr
  by_cases h8 : key = halide_type_code halide_type_uint 8
  · rw [if_pos h8] at hr; exact Or.inl ⟨.uint8_t, h8, hr.symm⟩
  rw [if_neg h8] at hr
  by_cases h9 : key = halide_type_code halide_type_uint 16
  · rw [if_pos h9] at hr; exact Or.inl ⟨.uint16_t, h9, hr.symm⟩
  rw [if_neg h9] at hr
  by_cases h10 : key = halide_type_code halide_type_uint 32
  · rw [if_pos h10] at hr; exact Or.inl ⟨.uint32_t, h10, hr.symm⟩
  rw [if_neg h10] at hr
  by_cases h11 : key = halide_type_code halide_type_uint 64
  · rw [if_pos h11] at hr; exact Or.inl ⟨.uint64_t, h11, hr.symm⟩
  rw [if_neg h11] at hr
  by_cases h12 : key = halide_type_code halide_type_handle 64
  · rw [if_pos h12] at hr; exact Or.inl ⟨.void_ptr, h12, hr.symm⟩
  rw [if_neg h12] at hr
  refine Or.inr ⟨?_, hr.symm⟩
  intro T
  cases T <;> assumption

/-- The key of a tag whose fields are in range determines its code and its bits. -/
theorem halide_type_code_inj (c1 b1 c2 b2 : Nat) (h1 : b1 < 256) (h2 : b2 < 256)
    (h : halide_type_code c1 b1 = halide_type_code c2 b2) : c1 = c2 ∧ b1 = b2 := by
  rw [halide_type_code_eq c1 b1 h1, halide_type_code_eq c2 b2 h2] at h
  omega

theorem tag_bits_lt (T : CType) : T.tag.2 < 256 := by
  cases T <;> decide

theorem tag_mem_handled (T : CType) : T.tag ∈ handled_tags := by
  cases T <;> decide

theorem handled_is_tag (p : Nat × Nat) (h : p ∈ handled_tags) : ∃ T : CType, T.tag = p := by
  simp only [handled_tags, List.mem_cons, List.mem_singleton, List.not_mem_nil, or_false] at h
  rcases h with h | h | h | h | h | h | h | h | h | h | h | h
  · exact ⟨.float, h.symm⟩
  · exact ⟨.double, h.symm⟩
  · exact ⟨.int8_t, h.symm⟩
  · exact ⟨.int16_t, h.symm⟩
  · exact ⟨.int32_t, h.symm⟩
  · exact ⟨.int64_t, h.symm⟩
  · exact ⟨.bool, h.symm⟩
  · exact ⟨.uint8_t, h.symm⟩
  · exact ⟨.uint16_t, h.symm⟩
  · exact ⟨.uint32_t, h.symm⟩
  · exact ⟨.uint64_t, h.symm⟩
  · exact ⟨.void_ptr, h.symm⟩

/-- A tag with the pair of `T` reaches the functor at `T`. -/
theorem dispatch_of_tag {α : Type} (F : CType → α) (type : halide_type_t) (T : CType)
    (h : (type.code, type.bits) = T.tag) : dynamic_type_dispatch F type = .ok (F T) := by
  have hc : type.code = T.tag.1 := by rw [← h]
  have hb : type.bits = T.tag.2 := by rw [← h]
  unfold dynamic_type_dispatch
  rw [hc, hb]
  cases T <;> rfl

/-- C8: for a tag whose fields are in the range of their types, the dispatch reaches the
functor at `T` exactly when the tag's `(code, bits)` pair is the pair of `T`; there are
exactly twelve such pairs, all different; the lane count plays no part; keys of different
pairs differ; and a tag with any other pair is the fatal error `Unsupported type`. -/
theorem dynamic_type_dispatch_twelve (type : halide_type_t) (hwf : type.wf) :
    (∀ T : CType, dynamic_type_dispatch id type = .ok T ↔ (type.code, type.bits) = T.tag) ∧
    (∀ (α : Type) (F : CType → α) (T : CType),
      (type.code, type.bits) = T.tag → dynamic_type_dispatch F type = .ok (F T)) ∧
    ((∃ T : CType, dynamic_type_dispatch id type = .ok T)
      ↔ (type.code, type.bits) ∈ handled_tags) ∧
    (handled_tags.length = 12 ∧ handled_tags.Nodup ∧
      ∀ T T' : CType, T.tag = T'.tag → T = T') ∧
    (∀ (lanes : Nat) (T : CType),
      dynamic_type_dispatch id { type with lanes := lanes } = .ok T
        ↔ dynamic_type_dispatch id type = .ok T) ∧
    (∀ c b : Nat, c < 256 → b < 256 →
      halide_type_code c b = halide_type_code type.code type.bits →
      c = type.code ∧ b = type.bits) ∧
    ((type.code, type.bits) ∉ handled_tags →
      ∀ (α : Type) (F : CType → α), dynamic_type_dispatch F type
        = .error ("Unsupported type: ".toList ++ show_type type ++ [Char.ofNat 10])) := by
  obtain ⟨_, hb, _⟩ := hwf
  have hiff : ∀ (t : halide_type_t), t.bits < 256 → ∀ T : CType,
      dynamic_type_dispatch id t = .ok T ↔ (t.code, t.bits) = T.tag := by
    intro t htb T
    constructor
    · intro h
      unfold dynamic_type_dispatch at h
      rcases dispatch_switch_spec id t (halide_type_code t.code t.bits) with
        ⟨T', hk, hok⟩ | ⟨_, herr⟩
      · rw [hok] at h
        have hT : T' = T := by simpa using h
        subst hT
        obtain ⟨e1, e2⟩ := halide_type_code_inj _ _ _ _ htb (tag_bits_lt T') hk
        exact Prod.ext e1 e2
      · rw [herr] at h
        cases h
    · intro h
      exact dispatch_of_tag id t T h
  refine ⟨hiff type hb, fun α F T h => dispatch_of_tag F type T h, ?_, ?_, ?_, ?_, ?_⟩
  · constructor
    · rintro ⟨T, hT⟩
      rw [(hiff type hb T).1 hT]
      exact tag_mem_handled T
    · intro h
      obtain ⟨T, hT⟩ := handled_is_tag _ h
      exact ⟨T, (hiff type hb T).2 hT.symm⟩
  · refine ⟨by decide, by decide, ?_⟩
    intro T T'
    cases T <;> cases T' <;> decide
  · intro lanes T
    exact (hiff { type with lanes := lanes } hb T).trans (hiff type hb T).symm
  · intro c b _ hb' h
    exact halide_type_code_inj c b type.code type.bits hb' hb h
  · intro hno α F
    unfold dynamic_type_dispatch
    rcases dispatch_switch_spec F type (halide_type_code type.code type.bits) with
      ⟨T, hk, _⟩ | ⟨_, herr⟩
    · exfalso
      obtain ⟨e1, e2⟩ := halide_type_code_inj _ _ _ _ hb (tag_bits_lt T) hk
      have : (type.code, type.bits) = T.tag := Prod.ext e1 e2
      rw [this] at hno
      exact hno (tag_mem_handled T)
    · exact herr

/-- Instance of C8: the tag `int32` with 4 lanes reaches the functor at `int32_t`, and the
tag `int24` is the fatal error `Unsupported type: int24`. -/
theorem dynamic_type_dispatch_twelve_witness :
    halide_type_t.wf ⟨halide_type_int, 32, 4⟩ ∧
    dynamic_type_dispatch id ⟨halide_type_int, 32, 4⟩ = .ok CType.int32_t ∧
    halide_type_t.wf ⟨halide_type_int, 24, 1⟩ ∧
    dynamic_type_dispatch id ⟨halide_type_int, 24, 1⟩
      = .error ("Unsupported type: int24".toList ++ [Char.ofNat 10]) :=
  ⟨by decide,
   ((dynamic_type_dispatch_twelve ⟨halide_type_int, 32, 4⟩ (by decide)).1 CType.int32_t).2
      (by decide),
   by decide,
   (dynamic_type_dispatch_twelve ⟨halide_type_int, 24, 1⟩ (by decide)).2.2.2.2.2.2
      (by decide) CType id⟩

/-! ## The scalar parsers -/

theorem parse_scalar_of_tag (fextract : Bool → List Char → Extraction Nat)
    (type : halide_type_t) (T : CType) (h : (type.code, type.bits) = T.tag)
    (str : List Char) (scalar : Value) :
    parse_scalar fextract type str scalar = .ok (ScalarParser fextract T str scalar) := by
  unfold parse_scalar
  exact dispatch_of_tag _ type T h

theorem integer_tag_ctype (type : halide_type_t) (h : is_integer_tag type) :
    ∃ T : CType, (type.code, type.bits) = T.tag ∧ T.is_integer = true := by
  obtain ⟨hc, hb⟩ := h
  rcases hc with hc | hc <;> rcases hb with hb | hb | hb | hb
  · exact ⟨.int8_t, by rw [hc, hb]; rfl, rfl⟩
  · exact ⟨.int16_t, by rw [hc, hb]; rfl, rfl⟩
  · exact ⟨.int32_t, by rw [hc, hb]; rfl, rfl⟩
  · exact ⟨.int64_t, by rw [hc, hb]; rfl, rfl⟩
  · exact ⟨.uint8_t, by rw [hc, hb]; rfl, rfl⟩
  · exact ⟨.uint16_t, by rw [hc, hb]; rfl, rfl⟩
  · exact ⟨.uint32_t, by rw [hc, hb]; rfl, rfl⟩
  · exact ⟨.uint64_t, by rw [hc, hb]; rfl, rfl⟩

/-- At an integer type the functor is the primary template. -/
theorem ScalarParser_integer (fextract : Bool → List Char → Extraction Nat) (T : CType)
    (hT : T.is_integer = true) (str : List Char) (scalar : Value) :
    ScalarParser fextract T str scalar
      = ((!(extract_at fextract T str).fail && (extract_at fextract T str).rest.isEmpty),
         (extract_at fextract T str).stored.getD scalar) := by
  cases T <;> first | rfl | (exfalso; revert hT; decide)

theorem read_digits_rest_nil : ∀ (l : List Char) (k acc : Nat),
    (read_digits l k acc).2.2 = [] → ∀ x ∈ l, (digit_value x).isSome := by
  intro l
  induction l with
  | nil => intro k acc _ x hx; cases hx
  | cons c cs ih =>
    intro k acc h x hx
    unfold read_digits at h
    cases hd : digit_value c with
    | none =>
      rw [hd] at h
      cases h
    | some d =>
      rw [hd] at h
      rcases List.mem_cons.1 hx with hxc | hxc
      · rw [hxc, hd]
        rfl
      · exact ih (k + 1) (acc * 10 + d) h x hxc

theorem skipws_keeps (pre : List Char) (d : Char) (t : List Char)
    (hd : (digit_value d).isSome) : ∃ p, skipws (pre ++ d :: t) = p ++ d :: t := by
  induction pre with
  | nil =>
    refine ⟨[], ?_⟩
    simp [skipws, (digit_not_special d hd).1]
  | cons x xs ih =>
    by_cases hx : isspace x = true
    · obtain ⟨p, hp⟩ := ih
      exact ⟨p, by simp [skipws, hx, hp]⟩
    · exact ⟨x :: xs, by simp [skipws, hx]⟩

theorem extract_int_rest (T : IntType) (str : List Char) (x : Char) (cs : List Char)
    (h : skipws str = x :: cs) :
    (extract_int T str).rest
      = (read_digits (if x = Char.ofNat 45 ∨ x = Char.ofNat 43 then cs else x :: cs) 0 0).2.2 := by
  unfold extract_int
  rw [h]
  simp only
  generalize read_digits (if x = Char.ofNat 45 ∨ x = Char.ofNat 43 then cs else x :: cs) 0 0 = r
  obtain ⟨n, mag, rest⟩ := r
  simp only
  split_ifs <;> rfl

/-- A character that is no digit, coming after a digit, is never consumed by the
extraction of an integer. -/
theorem extract_int_leftover (T : IntType) (pre : List Char) (d : Char) (mid : List Char)
    (c : Char) (rest : List Char) (hd : (digit_value d).isSome) (hc : digit_value c = none) :
    (extract_int T (pre ++ d :: (mid ++ c :: rest))).rest ≠ [] := by
  obtain ⟨p, hp⟩ := skipws_keeps pre d (mid ++ c :: rest) hd
  have hcn : ¬ (digit_value c).isSome = true := by rw [hc]; simp
  cases p with
  | nil =>
    rw [extract_int_rest T _ d (mid ++ c :: rest) hp]
    intro hnil
    have hsign : ¬ (d = Char.ofNat 45 ∨ d = Char.ofNat 43) := by
      rintro (h | h)
      · exact (digit_not_special d hd).2.1 h
      · exact (digit_not_special d hd).2.2.1 h
    rw [if_neg hsign] at hnil
    exact hcn (read_digits_rest_nil _ 0 0 hnil c (by simp))
  | cons x p' =>
    rw [extract_int_rest T _ x (p' ++ d :: (mid ++ c :: rest)) hp]
    intro hnil
    refine hcn (read_digits_rest_nil _ 0 0 hnil c ?_)
    split_ifs <;> simp

theorem extract_char_leftover (signed : Bool) (pre : List Char) (d : Char) (mid : List Char)
    (c : Char) (rest : List Char) (hd : (digit_value d).isSome) :
    (extract_char signed (pre ++ d :: (mid ++ c :: rest))).rest ≠ [] := by
  obtain ⟨p, hp⟩ := skipws_keeps pre d (mid ++ c :: rest) hd
  unfold extract_char
  rw [hp]
  cases p <;> simp

theorem extract_at_leftover (fextract : Bool → List Char → Extraction Nat) (T : CType)
    (hT : T.is_integer = true) (pre : List Char) (d : Char) (mid : List Char)
    (c : Char) (rest : List Char) (hd : (digit_value d).isSome) (hc : digit_value c = none) :
    (extract_at fextract T (pre ++ d :: (mid ++ c :: rest))).rest ≠ [] := by
  cases T <;> first
    | (exfalso; revert hT; decide)
    | exact extract_int_leftover _ pre d mid c rest hd hc
    | exact extract_char_leftover _ pre d mid c rest hd

/-- C6: for the tag of an 8-, 16-, 32- or 64-bit integer type, signed or unsigned, and every
text, `parse_scalar` succeeds only if the extraction has not failed and has left no
character of the text in the stream; and every text in which a character that is no digit
comes somewhere after a digit (characters left over after the numeral, as in `42x` and in
`42` followed by a space) is rejected. -/
theorem parse_scalar_rejects_trailing (fextract : Bool → List Char → Extraction Nat)
    (type : halide_type_t) (hint : is_integer_tag type) (str : List Char) (scalar : Value) :
    (∀ v, parse_scalar fextract type str scalar = .ok (true, v) →
      ∃ T : CType, dynamic_type_dispatch id type = .ok T ∧
        (extract_at fextract T str).fail = false ∧ (extract_at fextract T str).rest = []) ∧
    (∀ (pre : List Char) (d : Char) (mid : List Char) (c : Char) (rest : List Char),
      str = pre ++ d :: (mid ++ c :: rest) → (digit_value d).isSome → digit_value c = none →
      ∃ v, parse_scalar fextract type str scalar = .ok (false, v)) := by
  obtain ⟨T, htag, hT⟩ := integer_tag_ctype type hint
  rw [parse_scalar_of_tag fextract type T htag, ScalarParser_integer fextract T hT]
  constructor
  · intro v hv
    refine ⟨T, dispatch_of_tag id type T htag, ?_⟩
    simp only [Except.ok.injEq, Prod.mk.injEq, Bool.and_eq_true, Bool.not_eq_true',
      List.isEmpty_iff] at hv
    exact ⟨hv.1.1, hv.1.2⟩
  · intro pre d mid c rest hstr hd hc
    have hne := extract_at_leftover fextract T hT pre d mid c rest hd hc
    rw [← hstr] at hne
    refine ⟨(extract_at fextract T str).stored.getD scalar, ?_⟩
    have : (extract_at fextract T str).rest.isEmpty = false := by
      cases h : (extract_at fextract T str).rest with
      | nil => exact absurd h hne
      | cons _ _ => rfl
    rw [this, Bool.and_false]

/-- Instance of C6 at the 32-bit signed integer: the texts `42x` and `42` followed by a
space are rejected. -/
theorem parse_scalar_rejects_trailing_witness :
    is_integer_tag ⟨halide_type_int, 32, 1⟩ ∧
    (∃ v, parse_scalar (fun _ _ => ⟨true, none, []⟩) ⟨halide_type_int, 32, 1⟩ "42x".toList
      (.int 0) = .ok (false, v)) ∧
    (∃ v, parse_scalar (fun _ _ => ⟨true, none, []⟩) ⟨halide_type_int, 32, 1⟩ "42 ".toList
      (.int 0) = .ok (false, v)) :=
  ⟨by decide,
   (parse_scalar_rejects_trailing (fun _ _ => ⟨true, none, []⟩) ⟨halide_type_int, 32, 1⟩
      (by decide) "42x".toList (.int 0)).2 [] (Char.ofNat 52) [Char.ofNat 50] (Char.ofNat 120) []
      (by decide) (by decide) (by decide),
   (parse_scalar_rejects_trailing (fun _ _ => ⟨true, none, []⟩) ⟨halide_type_int, 32, 1⟩
      (by decide) "42 ".toList (.int 0)).2 [] (Char.ofNat 52) [Char.ofNat 50] (Char.ofNat 32) []
      (by decide) (by decide) (by decide)⟩

/-- Round trip at the integer types of 16, 32 and 64 bits: the decimal numeral of a value
of the type is parsed back to that value. -/
theorem parse_scalar_roundtrip_wide (fextract : Bool → List Char → Extraction Nat)
    (T : CType) (I : IntType) (hI : T.intType = some I) (lanes : Nat) (v : Int)
    (h1 : I.min ≤ v) (h2 : v ≤ I.max) (scalar : Value) :
    parse_scalar fextract ⟨T.tag.1, T.tag.2, lanes⟩ (decimal v) scalar
      = .ok (true, .int v) := by
  rw [parse_scalar_of_tag fextract _ T rfl]
  cases T <;> first
    | (exfalso; revert hI; simp [CType.intType]; done)
    | (simp only [CType.intType, Option.some.injEq] at hI
       subst hI
       simp [ScalarParser, ScalarParser_generic, extract_at, extract_int_decimal _ v h1 h2])

/-- C7 (failing inputs): at the 8-bit integer tags the text is read as one character.  The
numeral `42` of the `int8` value 42 is rejected, with the character code 52 of `4` stored;
the numeral `7` is accepted but stores 55, the character code of `7`; the numeral `200` of
the `uint8` value 200 is rejected. -/
theorem parse_scalar_int8_reads_char (fextract : Bool → List Char → Extraction Nat) :
    parse_scalar fextract ⟨halide_type_int, 8, 1⟩ (decimal 42) (.int 0) = .ok (false, .int 52) ∧
    parse_scalar fextract ⟨halide_type_int, 8, 1⟩ (decimal 7) (.int 0) = .ok (true, .int 55) ∧
    parse_scalar fextract ⟨halide_type_uint, 8, 1⟩ (decimal 200) (.int 0)
      = .ok (false, .int 50) :=
  ⟨rfl, rfl, rfl⟩

/-- C9: the boolean parser succeeds exactly on the texts `true` and `false`, storing the
boolean named; the handle parser succeeds exactly on the text `nullptr`, storing the null
handle; a parser that fails leaves the destination as it was; and these are the parsers
that the tags `uint1` and `handle64` reach. -/
theorem literal_parsers (fextract : Bool → List Char → Extraction Nat) (str : List Char)
    (v : Value) :
    ((ScalarParser_bool str v).1 = true ↔ (str = "true".toList ∨ str = "false".toList)) ∧
    (str = "true".toList → ScalarParser_bool str v = (true, .bool true)) ∧
    (str = "false".toList → ScalarParser_bool str v = (true, .bool false)) ∧
    ((ScalarParser_bool str v).1 = false → (ScalarParser_bool str v).2 = v) ∧
    ((ScalarParser_handle str v).1 = true ↔ str = "nullptr".toList) ∧
    (str = "nullptr".toList → ScalarParser_handle str v = (true, .handle 0)) ∧
    ((ScalarParser_handle str v).1 = false → (ScalarParser_handle str v).2 = v) ∧
    (∀ lanes, parse_scalar fextract ⟨halide_type_uint, 1, lanes⟩ str v
      = .ok (ScalarParser_bool str v)) ∧
    (∀ lanes, parse_scalar fextract ⟨halide_type_handle, 64, lanes⟩ str v
      = .ok (ScalarParser_handle str v)) := by
  have htf : "false".toList ≠ "true".toList := by decide
  refine ⟨?_, ?_, ?_, ?_, ?_, ?_, ?_, ?_, ?_⟩
  · unfold ScalarParser_bool
    by_cases h1 : str = "true".toList
    · simp [h1]
    · by_cases h2 : str = "false".toList
      · simp [h2]
      · rw [if_neg h1, if_neg h2]
        constructor
        · intro h
          exact absurd h (by simp)
        · rintro (h | h)
          · exact absurd h h1
          · exact absurd h h2
  · intro h
    simp [ScalarParser_bool, h]
  · intro h
    rw [h]
    simp [ScalarParser_bool, htf]
  · unfold ScalarParser_bool
    split_ifs <;> simp
  · unfold ScalarParser_handle
    by_cases h1 : str = "nullptr".toList
    · simp [h1]
    · rw [if_neg h1]
      constructor
      · intro h
        exact absurd h (by simp)
      · intro h
        exact absurd h h1
  · intro h
    simp [ScalarParser_handle, h]
  · unfold ScalarParser_handle
    split_ifs <;> simp
  · intro lanes
    exact parse_scalar_of_tag fextract _ CType.bool rfl str v
  · intro lanes
    exact parse_scalar_of_tag fextract _ CType.void_ptr rfl str v

/-- Instance of C9: `true` is accepted and stores `true`; `True` is rejected and the
destination keeps its value. -/
theorem literal_parsers_witness :
    ScalarParser_bool "true".toList (.int 7) = (true, .bool true) ∧
    (ScalarParser_bool "True".toList (.int 7)).2 = .int 7 :=
  ⟨(literal_parsers (fun _ _ => ⟨true, none, []⟩) "true".toList (.int 7)).2.1 rfl,
   (literal_parsers (fun _ _ => ⟨true, none, []⟩) "True".toList (.int 7)).2.2.2.1 (by decide)⟩

/-! ## Splitting and extent lists -/

theorem intercalate_cons_cons (sep p q : List Char) (qs : List (List Char)) :
    List.intercalate sep (p :: q :: qs) = p ++ sep ++ List.intercalate sep (q :: qs) := by
  simp [List.intercalate]

theorem intercalate_single (sep p : List Char) : List.intercalate sep [p] = p := by
  simp [List.intercalate]

theorem find_in_none (c : Char) : ∀ (p : List Char) (idx : Nat), c ∉ p →
    find_in [c] p idx = none := by
  intro p
  induction p with
  | nil => intro idx _; simp [find_in]
  | cons x xs ih =>
    intro idx h
    have hx : c ≠ x := fun e => h (by simp [e])
    have hxs : c ∉ xs := fun e => h (by simp [e])
    simp [find_in, hx, ih (idx + 1) hxs]

theorem find_in_hit (c : Char) : ∀ (p rest : List Char) (idx : Nat), c ∉ p →
    find_in [c] (p ++ c :: rest) idx = some (idx + p.length) := by
  intro p
  induction p with
  | nil => intro rest idx _; simp [find_in]
  | cons x xs ih =>
    intro rest idx h
    have hx : c ≠ x := fun e => h (by simp [e])
    have hxs : c ∉ xs := fun e => h (by simp [e])
    simp [find_in, hx, ih rest (idx + 1) hxs]
    omega

/-- Splitting a text made of parts joined by a one-character delimiter that occurs in
no part gives back the parts. -/
theorem split_loop_join (c : Char) : ∀ (parts : List (List Char)), parts ≠ [] →
    (∀ p ∈ parts, c ∉ p) → ∀ (pre : List Char) (elements : List (List Char)) (fuel : Nat),
    parts.length ≤ fuel →
    (split_string_loop (pre ++ List.intercalate [c] parts) [c] fuel pre.length elements).map
        (split_string_finish (pre ++ List.intercalate [c] parts))
      = some (elements ++ parts) := by
  intro parts
  induction parts with
  | nil => intro h; exact absurd rfl h
  | cons p ps ih =>
    intro _ hno pre elements fuel hfuel
    have hp : c ∉ p := hno p (List.mem_cons_self _ _)
    cases fuel with
    | zero => simp at hfuel
    | succ f =>
      cases ps with
      | nil =>
        rw [intercalate_single]
        unfold split_string_loop
        have hfind : string_find (pre ++ p) [c] pre.length = none := by
          unfold string_find
          simp [find_in_none c p pre.length hp]
        rw [hfind]
        simp [split_string_finish]
      | cons q qs =>
        rw [intercalate_cons_cons]
        have hfind : string_find (pre ++ (p ++ [c] ++ List.intercalate [c] (q :: qs))) [c]
            pre.length = some (pre.length + p.length) := by
          unfold string_find
          simp [find_in_hit c p _ pre.length hp]
        unfold split_string_loop
        rw [hfind]
        simp only
        have hsub : substr (pre ++ (p ++ [c] ++ List.intercalate [c] (q :: qs))) pre.length
            (pre.length + p.length - pre.length) = p := by
          unfold substr
          simp
        rw [hsub]
        have hsrc : pre ++ (p ++ [c] ++ List.intercalate [c] (q :: qs))
            = (pre ++ p ++ [c]) ++ List.intercalate [c] (q :: qs) := by simp
        have hlen : pre.length + p.length + [c].length = (pre ++ p ++ [c]).length := by
          simp only [List.length_append, List.length_singleton]
        rw [hsrc, hlen]
        have := ih (by simp) (fun r hr => hno r (List.mem_cons_of_mem _ hr)) (pre ++ p ++ [c])
          (elements ++ [p]) f (by simpa using hfuel)
        rw [this]
        simp

theorem intercalate_length_ge (sep : List Char) (hsep : sep ≠ []) :
    ∀ parts : List (List Char), parts.length ≤ (List.intercalate sep parts).length + 1 := by
  intro parts
  induction parts with
  | nil => simp
  | cons p ps ih =>
    cases ps with
    | nil => simp
    | cons q qs =>
      rw [intercalate_cons_cons]
      have : 0 < sep.length := List.length_pos.2 hsep
      simp only [List.length_cons, List.length_append] at ih ⊢
      omega

theorem split_string_join (c : Char) (parts : List (List Char)) (hne : parts ≠ [])
    (hno : ∀ p ∈ parts, c ∉ p) :
    split_string (List.intercalate [c] parts) [c] = some parts := by
  have h := split_loop_join c parts hne hno [] [] ((List.intercalate [c] parts).length + 1)
    (intercalate_length_ge [c] (by simp) parts)
  simpa [split_string] using h

theorem decimal_no_comma (v : Int) : Char.ofNat 44 ∉ decimal v := by
  unfold decimal
  have hd : ∀ n : Nat, Char.ofNat 44 ∉ Nat.toDigits 10 n := by
    intro n hmem
    obtain ⟨c, t, hct, hdig, _⟩ := toDigits_read n
    rw [hct] at hmem
    exact (digit_not_special _ (hdig _ hmem)).2.2.2 rfl
  split_ifs
  · intro hmem
    rcases List.mem_cons.1 hmem with h | h
    · revert h; decide
    · exact hd _ h
  · exact hd _

theorem parse_scalar_int_decimal (w : Nat) (e : Int) (h : fitsSigned w e) (scalar : Int) :
    parse_scalar_int w (decimal e) scalar = (true, e) := by
  unfold parse_scalar_int
  have h1 : (IntType.mk true w).min ≤ e := by
    simp only [IntType.min, if_true]
    exact h.1
  have h2 : e ≤ (IntType.mk true w).max := by
    simp only [IntType.max, if_true]
    have := h.2
    omega
  rw [extract_int_decimal _ e h1 h2]
  rfl

theorem parse_extents_loop_decimal (w : Nat) (extent_list : List Char) :
    ∀ (es : List Int), (∀ e ∈ es, fitsSigned w e) → ∀ result : Shape,
    parse_extents_loop w extent_list (es.map decimal) result
      = .ok (result ++ es.map (fun e => ⟨0, e, 0⟩)) := by
  intro es
  induction es with
  | nil => intro _ result; simp [parse_extents_loop]
  | cons e es ih =>
    intro h result
    simp only [List.map_cons, parse_extents_loop]
    rw [parse_scalar_int_decimal w e (h e (List.mem_cons_self _ _))]
    simp only [Bool.not_true, Bool.false_eq_true, if_false]
    rw [ih (fun x hx => h x (List.mem_cons_of_mem _ hx))]
    simp

/-- C10: for a non-empty list of integers `e0 .. ek` that fit the (32-bit) extent field,
`parse_extents` applied to `[`, their decimal numerals joined by `,`, and `]` returns a shape
of `k + 1` axes whose `i`-th extent is `ei` and whose every min and stride is 0. -/
theorem parse_extents_roundtrip (w : Nat) (es : List Int) (hne : es ≠ [])
    (hfit : ∀ e ∈ es, fitsSigned w e) :
    parse_extents w ("[".toList ++ List.intercalate ",".toList (es.map decimal) ++ "]".toList)
      = some (.ok (es.map (fun e => ⟨0, e, 0⟩))) ∧
    (es.map (fun e => (⟨0, e, 0⟩ : halide_dimension_t))).length = es.length ∧
    ∀ i, i < es.length →
      (Shape.at (es.map (fun e => ⟨0, e, 0⟩)) i).extent = es.getD i 0 ∧
      (Shape.at (es.map (fun e => ⟨0, e, 0⟩)) i).min = 0 ∧
      (Shape.at (es.map (fun e => ⟨0, e, 0⟩)) i).stride = 0 := by
  refine ⟨?_, by simp, ?_⟩
  · unfold parse_extents
    generalize hj : List.intercalate ",".toList (es.map decimal) = j
    have hcond : ¬ (("[".toList ++ j ++ "]".toList).isEmpty = true ∨
        ("[".toList ++ j ++ "]".toList).head? ≠ some (Char.ofNat 91) ∨
        ("[".toList ++ j ++ "]".toList).getLast? ≠ some (Char.ofNat 93)) := by
      have h1 : ("[".toList ++ j ++ "]".toList) = Char.ofNat 91 :: (j ++ [Char.ofNat 93]) := by
        have : "[".toList = [Char.ofNat 91] := by decide
        have h2 : "]".toList = [Char.ofNat 93] := by decide
        rw [this, h2]
        simp
      rw [h1]
      rw [show Char.ofNat 91 :: (j ++ [Char.ofNat 93]) = (Char.ofNat 91 :: j) ++ [Char.ofNat 93]
        from rfl, List.getLast?_concat]
      simp
    rw [if_neg hcond]
    have hsub : substr ("[".toList ++ j ++ "]".toList) 1
        (("[".toList ++ j ++ "]".toList).length - 2) = j := by
      unfold substr
      simp
    rw [hsub, ← hj]
    have hsplit := split_string_join (Char.ofNat 44) (es.map decimal) (by simpa using hne)
      (by
        intro p hp
        obtain ⟨e, _, he⟩ := List.mem_map.1 hp
        rw [← he]
        exact decimal_no_comma e)
    have hc : ",".toList = [Char.ofNat 44] := by decide
    rw [hc, hsplit]
    simp only
    rw [parse_extents_loop_decimal w _ es hfit]
    simp
  · intro i hi
    unfold Shape.at
    simp only [List.getD_eq_getElem?_getD, List.getElem?_map, List.getElem?_eq_getElem hi,
      Option.map_some', Option.getD_some, and_self]

/-- Instance of C10: `[4,5,6]` gives the extents `(4, 5, 6)`. -/
theorem parse_extents_roundtrip_witness :
    ([4, 5, 6] : List Int) ≠ [] ∧ (∀ e ∈ ([4, 5, 6] : List Int), fitsSigned 32 e) ∧
    parse_extents 32 "[4,5,6]".toList = some (.ok [⟨0, 4, 0⟩, ⟨0, 5, 0⟩, ⟨0, 6, 0⟩]) :=
  ⟨by decide, by decide, (parse_extents_roundtrip 32 [4, 5, 6] (by decide) (by decide)).1⟩

/-! ## Fatal extent lists -/

theorem splitOn_no_sep (c : Char) : ∀ (s : List Char), ∀ l ∈ s.splitOn c, c ∉ l := by
  intro s
  induction s with
  | nil => intro l hl; simp [List.splitOn_nil] at hl; simp [hl]
  | cons x xs ih =>
    intro l hl
    simp only [List.splitOn, List.splitOnP_cons] at hl ih
    by_cases hx : (x == c) = true
    · rw [if_pos hx] at hl
      rcases List.mem_cons.1 hl with h | h
      · simp [h]
      · exact ih l h
    · rw [if_neg hx] at hl
      cases hsp : List.splitOnP (fun y => y == c) xs with
      | nil => exact absurd hsp (List.splitOnP_ne_nil _ _)
      | cons hd tl =>
        rw [hsp] at hl ih
        simp only [List.modifyHead_cons, List.mem_cons] at hl
        rcases hl with h | h
        · rw [h]
          intro hmem
          rcases List.mem_cons.1 hmem with h1 | h1
          · exact hx (by simp [h1])
          · exact ih hd (by simp) h1
        · exact ih l (by simp [h])

/-- Splitting at a one-character delimiter always ends, and gives the pieces between the
occurrences of the delimiter. -/
theorem split_string_char (c : Char) (s : List Char) :
    split_string s [c] = some (s.splitOn c) := by
  have h := split_string_join c (s.splitOn c) (List.splitOnP_ne_nil _ _) (splitOn_no_sep c s)
  rwa [List.intercalate_splitOn] at h

theorem parse_extents_loop_error (w : Nat) (text : List Char) :
    ∀ (entries : List (List Char)) (result : Shape),
      (∃ msg, parse_extents_loop w text entries result = .error msg)
        ↔ ∃ s ∈ entries, (parse_scalar_int w s 0).1 = false := by
  intro entries
  induction entries with
  | nil => intro result; simp [parse_extents_loop]
  | cons s rest ih =>
    intro result
    simp only [parse_extents_loop]
    by_cases hs : (parse_scalar_int w s 0).1 = true
    · simp only [hs, Bool.not_true, Bool.false_eq_true, if_false]
      rw [ih]
      simp [hs]
    · simp only [Bool.not_eq_true] at hs
      simp [hs]

/-- C11: `parse_extents` always returns or fails, and it is fatal exactly when the text is
empty, does not begin with `[`, does not end with `]`, or some entry between the brackets,
the entries being the pieces between the commas, is not parsed as an integer of the extent
field's width (32 bits in the Halide runtime); otherwise it returns a shape. -/
theorem parse_extents_fatal_iff (w : Nat) (extent_list : List Char) :
    (∃ r, parse_extents w extent_list = some r) ∧
    ((∃ msg, parse_extents w extent_list = some (.error msg)) ↔
      (extent_list = [] ∨ extent_list.head? ≠ some (Char.ofNat 91) ∨
        extent_list.getLast? ≠ some (Char.ofNat 93) ∨
        ∃ s ∈ (substr extent_list 1 (extent_list.length - 2)).splitOn (Char.ofNat 44),
          (parse_scalar_int w s 0).1 = false)) ∧
    ((∃ shape, parse_extents w extent_list = some (.ok shape)) ↔
      ¬ (extent_list = [] ∨ extent_list.head? ≠ some (Char.ofNat 91) ∨
        extent_list.getLast? ≠ some (Char.ofNat 93) ∨
        ∃ s ∈ (substr extent_list 1 (extent_list.length - 2)).splitOn (Char.ofNat 44),
          (parse_scalar_int w s 0).1 = false)) := by
  have hc : ",".toList = [Char.ofNat 44] := by decide
  have hiff : (∃ msg, parse_extents w extent_list = some (.error msg)) ↔
      (extent_list = [] ∨ extent_list.head? ≠ some (Char.ofNat 91) ∨
        extent_list.getLast? ≠ some (Char.ofNat 93) ∨
        ∃ s ∈ (substr extent_list 1 (extent_list.length - 2)).splitOn (Char.ofNat 44),
          (parse_scalar_int w s 0).1 = false) := by
    unfold parse_extents
    by_cases hfmt : extent_list.isEmpty = true ∨ extent_list.head? ≠ some (Char.ofNat 91)
        ∨ extent_list.getLast? ≠ some (Char.ofNat 93)
    · rw [if_pos hfmt]
      constructor
      · intro _
        rcases hfmt with h | h | h
        · exact Or.inl (List.isEmpty_iff.1 h)
        · exact Or.inr (Or.inl h)
        · exact Or.inr (Or.inr (Or.inl h))
      · intro _
        exact ⟨_, rfl⟩
    · rw [if_neg hfmt, hc, split_string_char]
      simp only [Option.some.injEq]
      rw [parse_extents_loop_error]
      constructor
      · intro h
        exact Or.inr (Or.inr (Or.inr h))
      · rintro (h | h | h | h)
        · exact absurd (Or.inl (List.isEmpty_iff.2 h)) hfmt
        · exact absurd (Or.inr (Or.inl h)) hfmt
        · exact absurd (Or.inr (Or.inr h)) hfmt
        · exact h
  have htot : ∃ r, parse_extents w extent_list = some r := by
    unfold parse_extents
    split_ifs
    · exact ⟨_, rfl⟩
    · rw [hc, split_string_char]
      exact ⟨_, rfl⟩
  refine ⟨htot, hiff, ?_⟩
  rw [← hiff]
  obtain ⟨r, hr⟩ := htot
  rw [hr]
  cases r with
  | error e => simp
  | ok shape => simp

/-- Instances of C11: the texts `[4,5`, `[`, `[]` and `[4,,5]` are fatal. -/
theorem parse_extents_fatal_iff_witness :
    (∃ msg, parse_extents 32 "[4,5".toList = some (.error msg)) ∧
    (∃ msg, parse_extents 32 "[".toList = some (.error msg)) ∧
    (∃ msg, parse_extents 32 "[]".toList = some (.error msg)) ∧
    (∃ msg, parse_extents 32 "[4,,5]".toList = some (.error msg)) :=
  ⟨(parse_extents_fatal_iff 32 "[4,5".toList).2.1.2 (by decide),
   (parse_extents_fatal_iff 32 "[".toList).2.1.2 (by decide),
   (parse_extents_fatal_iff 32 "[]".toList).2.1.2 (by decide),
   (parse_extents_fatal_iff 32 "[4,,5]".toList).2.1.2 (by decide)⟩

/-! ## Default output shapes -/

/-- The axis that `choose_output_extents` makes at index `i`. -/
theorem choose_loop (defaults : Shape) (n : Nat) (k : Nat) (hk : k ≤ n) :
    ((List.range k).foldl
        (fun s i =>
          if i < defaults.length then s.set i (defaults.at i)
          else Shape.setExtent s i (if i < 2 then 1000 else 4))
        (List.replicate n (⟨0, 0, 0⟩ : halide_dimension_t))).length = n ∧
    ∀ j, j < n →
      Shape.at ((List.range k).foldl
        (fun s i =>
          if i < defaults.length then s.set i (defaults.at i)
          else Shape.setExtent s i (if i < 2 then 1000 else 4))
        (List.replicate n (⟨0, 0, 0⟩ : halide_dimension_t))) j
      = if j < k then
          (if j < defaults.length then defaults.at j
           else ⟨0, if j < 2 then 1000 else 4, 0⟩)
        else ⟨0, 0, 0⟩ := by
  induction k with
  | zero =>
    refine ⟨by simp, ?_⟩
    intro j hj
    simp [Shape.at, List.getD_eq_getElem?_getD, List.getElem?_replicate, hj]
  | succ k ih =>
    obtain ⟨ihl, iha⟩ := ih (by omega)
    rw [List.range_succ, List.foldl_append]
    simp only [List.foldl_cons, List.foldl_nil]
    generalize (List.range k).foldl
        (fun s i =>
          if i < defaults.length then s.set i (defaults.at i)
          else Shape.setExtent s i (if i < 2 then 1000 else 4))
        (List.replicate n (⟨0, 0, 0⟩ : halide_dimension_t)) = r at ihl iha
    refine ⟨by split_ifs <;> simp [Shape.length_setExtent, ihl], ?_⟩
    intro j hj
    by_cases hd : k < defaults.length
    · rw [if_pos hd, Shape.at_set, ihl, iha j hj]
      by_cases hjk : k = j
      · subst hjk
        simp [hj, hd]
      · have h1 : ¬ (k = j ∧ j < n) := fun h => hjk h.1
        rw [if_neg h1]
        by_cases hlt : j < k
        · simp [hlt, Nat.lt_succ_of_lt hlt]
        · have : ¬ j < k + 1 := by omega
          simp [hlt, this]
    · rw [if_neg hd, Shape.at_setExtent, ihl, iha j hj]
      by_cases hjk : k = j
      · subst hjk
        simp [hj, hd]
      · have h1 : ¬ (k = j ∧ j < n) := fun h => hjk h.1
        rw [if_neg h1]
        by_cases hlt : j < k
        · simp [hlt, Nat.lt_succ_of_lt hlt]
        · have : ¬ j < k + 1 := by omega
          simp [hlt, this]

/-- C12: `choose_output_extents` returns a shape of exactly `n` axes in which axis `i` is a
copy of `defaults[i]` when `i < len(defaults)` and otherwise has min 0, stride 0 and extent
1000 for `i` = 0 or 1 and extent 4 for `i >= 2`; the defaults beyond `n` axes play no part. -/
theorem choose_output_extents_axes (n : Nat) (defaults : Shape) :
    (choose_output_extents n defaults).length = n ∧
    (∀ i, i < n →
      (choose_output_extents n defaults).at i
        = if i < defaults.length then defaults.at i
          else ⟨0, if i < 2 then 1000 else 4, 0⟩) ∧
    choose_output_extents n defaults = choose_output_extents n (defaults.take n) := by
  have hspec : ∀ (ds : Shape), (choose_output_extents n ds).length = n ∧
      ∀ i, i < n → (choose_output_extents n ds).at i
        = if i < ds.length then ds.at i else ⟨0, if i < 2 then 1000 else 4, 0⟩ := by
    intro ds
    obtain ⟨hl, ha⟩ := choose_loop ds n n (Nat.le_refl n)
    refine ⟨hl, ?_⟩
    intro i hi
    have := ha i hi
    rw [if_pos hi] at this
    exact this
  refine ⟨(hspec defaults).1, (hspec defaults).2, ?_⟩
  apply Shape.ext_at
  · rw [(hspec defaults).1, (hspec _).1]
  · intro i hi
    rw [(hspec defaults).1] at hi
    rw [(hspec defaults).2 i hi, (hspec _).2 i hi]
    by_cases hd : i < defaults.length
    · have : i < (List.take n defaults).length := by simp; omega
      rw [if_pos hd, if_pos this]
      simp [Shape.at, List.getD_eq_getElem?_getD, List.getElem?_take, hi]
    · have : ¬ i < (List.take n defaults).length := by simp; omega
      rw [if_neg hd, if_neg this]

/-- Instance of C12: four axes with one default axis. -/
theorem choose_output_extents_axes_witness :
    choose_output_extents 4 [⟨1, 2, 3⟩]
      = [⟨1, 2, 3⟩, ⟨0, 1000, 0⟩, ⟨0, 4, 0⟩, ⟨0, 4, 0⟩] ∧
    (choose_output_extents 4 [⟨1, 2, 3⟩]).at 1 = ⟨0, 1000, 0⟩ :=
  ⟨by decide, (choose_output_extents_axes 4 [⟨1, 2, 3⟩]).2.1 1 (by decide)⟩

/-! ## Adjusting the dimensions of a buffer -/

theorem slice_loop_take (dims_needed : Nat) : ∀ (fuel : Nat) (b : Buffer),
    b.dim.length ≤ dims_needed + fuel →
    slice_loop dims_needed fuel b = some { b with dim := b.dim.take dims_needed } := by
  intro fuel
  induction fuel with
  | zero =>
    intro b hb
    have hle : b.dim.length ≤ dims_needed := by omega
    have : ¬ b.dimensions > dims_needed := by unfold Buffer.dimensions; omega
    simp only [slice_loop, this, if_false]
    rw [List.take_of_length_le hle]
  | succ f ih =>
    intro b hb
    unfold slice_loop
    by_cases hgt : b.dimensions > dims_needed
    · rw [if_pos hgt]
      unfold Buffer.dimensions at hgt
      have hlen : (b.sliced dims_needed 0).dim.length ≤ dims_needed + f := by
        simp only [Buffer.sliced, List.length_eraseIdx]
        split_ifs <;> omega
      rw [ih _ hlen]
      simp only [Buffer.sliced, Option.some.injEq, Buffer.mk.injEq, true_and]
      rw [List.eraseIdx_eq_take_drop_succ, List.take_append_eq_append_take]
      have hmin : min dims_needed b.dim.length = dims_needed := Nat.min_eq_left (by omega)
      simp [List.take_take, hmin]
    · rw [if_neg hgt]
      unfold Buffer.dimensions at hgt
      rw [List.take_of_length_le (by omega)]

theorem embed_loop_append (w : Nat) (dims_needed : Nat) : ∀ (fuel : Nat) (b : Buffer),
    dims_needed ≤ b.dim.length + fuel →
    ∃ extra : Shape, embed_loop w dims_needed fuel b = some { b with dim := b.dim ++ extra } ∧
      extra.length = dims_needed - b.dim.length ∧
      ∀ d ∈ extra, d.extent = 1 ∧ d.min = 0 := by
  intro fuel
  induction fuel with
  | zero =>
    intro b hb
    have : ¬ b.dimensions < dims_needed := by unfold Buffer.dimensions; omega
    refine ⟨[], ?_, ?_, ?_⟩
    · simp [embed_loop, this]
    · simp; omega
    · simp
  | succ f ih =>
    intro b hb
    unfold embed_loop
    by_cases hlt : b.dimensions < dims_needed
    · rw [if_pos hlt]
      unfold Buffer.dimensions at hlt
      have hdim : (b.embedded w b.dimensions 0).dim
          = b.dim ++ [⟨0, 1, if b.dim.length = 0 then 1
              else mulw w (b.dim.at (b.dim.length - 1)).extent
                (b.dim.at (b.dim.length - 1)).stride⟩] := by
        simp [Buffer.embedded, Buffer.dimensions]
      obtain ⟨extra, he, hl, hx⟩ := ih (b.embedded w b.dimensions 0) (by
        rw [hdim]; simp; omega)
      refine ⟨(⟨0, 1, if b.dim.length = 0 then 1
              else mulw w (b.dim.at (b.dim.length - 1)).extent
                (b.dim.at (b.dim.length - 1)).stride⟩ : halide_dimension_t) :: extra, ?_, ?_, ?_⟩
      · rw [he, hdim]
        simp [Buffer.embedded]
      · rw [hdim] at hl
        simp at hl ⊢
        omega
      · intro d hd
        rcases List.mem_cons.1 hd with h | h
        · rw [h]
          exact ⟨rfl, rfl⟩
        · exact hx d h
    · rw [if_neg hlt]
      unfold Buffer.dimensions at hlt
      refine ⟨[], by simp, by simp; omega, by simp⟩

theorem dims_in_range_are_trivial_iff (b : Buffer) (first last : Nat) :
    dims_in_range_are_trivial b first last = true
      ↔ ∀ d, first ≤ d → d ≤ last → (b.dim.at d).extent ≤ 1 := by
  unfold dims_in_range_are_trivial
  simp only [List.all_eq_true, List.mem_range'_1, Bool.not_eq_true', decide_eq_false_iff_not,
    not_lt, and_imp]
  constructor
  · intro h d h1 h2
    exact h d h1 (by omega)
  · intro h d h1 h2
    exact h d h1 (by omega)

theorem info_not_warn (verbose : Bool) (msg : List Char) :
    (info verbose msg).filter Diagnostic.is_warn = [] := by
  unfold info
  split_ifs <;> simp [Diagnostic.is_warn]

/-- C13: `adjust_buffer_dims` returns a buffer with exactly `dims_needed` axes: of a buffer
with more axes the first `dims_needed` are kept unchanged and the others dropped; to a
buffer with fewer axes, all kept unchanged, axes of extent 1 are appended; a buffer with
`dims_needed` axes is returned unchanged. -/
theorem adjust_buffer_dims_axes (verbose : Bool) (w : Nat) (title name : List Char)
    (dims_needed : Nat) (b : Buffer) :
    ∃ diagnostics b', adjust_buffer_dims verbose w title name dims_needed b
        = some (diagnostics, b') ∧
      b'.dimensions = dims_needed ∧ b'.type = b.type ∧
      (dims_needed < b.dimensions → b'.dim = b.dim.take dims_needed) ∧
      (b.dimensions < dims_needed →
        ∃ extra : Shape, b'.dim = b.dim ++ extra ∧ ∀ d ∈ extra, d.extent = 1) ∧
      (b.dimensions = dims_needed → b' = b) := by
  unfold adjust_buffer_dims
  simp only
  by_cases hgt : b.dimensions > dims_needed
  · rw [if_pos hgt]
    have hs := slice_loop_take dims_needed b.dimensions b (by unfold Buffer.dimensions; omega)
    rw [hs]
    refine ⟨_, _, rfl, ?_, rfl, fun _ => rfl, ?_, ?_⟩
    · unfold Buffer.dimensions at hgt ⊢
      simp only [List.length_take]
      omega
    · intro h
      omega
    · intro h
      omega
  · rw [if_neg hgt]
    by_cases hlt : b.dimensions < dims_needed
    · rw [if_pos hlt]
      obtain ⟨extra, he, hl, hx⟩ := embed_loop_append w dims_needed dims_needed b (by omega)
      rw [he]
      refine ⟨_, _, rfl, ?_, rfl, ?_, ?_, ?_⟩
      · unfold Buffer.dimensions at hlt ⊢
        simp only [List.length_append, hl]
        omega
      · intro h
        omega
      · intro _
        exact ⟨extra, rfl, fun d hd => (hx d hd).1⟩
      · intro h
        omega
    · rw [if_neg hlt]
      refine ⟨_, _, rfl, by omega, rfl, ?_, ?_, fun _ => rfl⟩
      · intro h
        omega
      · intro h
        omega

/-- Instance of C13: of three axes the first two are kept; to three axes a fourth of
extent 1 is appended. -/
theorem adjust_buffer_dims_axes_witness :
    (∃ diagnostics, adjust_buffer_dims false 32 "Input".toList "in".toList 2
        ⟨⟨1, 8, 1⟩, [⟨0, 3, 1⟩, ⟨0, 4, 3⟩, ⟨0, 2, 12⟩]⟩
      = some (diagnostics, ⟨⟨1, 8, 1⟩, [⟨0, 3, 1⟩, ⟨0, 4, 3⟩]⟩)) ∧
    (∃ diagnostics b', adjust_buffer_dims false 32 "Input".toList "in".toList 4
        ⟨⟨1, 8, 1⟩, [⟨0, 3, 1⟩, ⟨0, 4, 3⟩, ⟨0, 2, 12⟩]⟩ = some (diagnostics, b') ∧
      b'.dimensions = 4) := by
  constructor
  · obtain ⟨diagnostics, b', h, _, ht, hd, _, _⟩ := adjust_buffer_dims_axes false 32
      "Input".toList "in".toList 2 ⟨⟨1, 8, 1⟩, [⟨0, 3, 1⟩, ⟨0, 4, 3⟩, ⟨0, 2, 12⟩]⟩
    refine ⟨diagnostics, ?_⟩
    rw [h]
    have hd' := hd (by decide)
    obtain ⟨ty, dm⟩ := b'
    simp only at ht hd'
    rw [ht, hd']
    rfl
  · obtain ⟨diagnostics, b', h, hn, _⟩ := adjust_buffer_dims_axes false 32
      "Input".toList "in".toList 4 ⟨⟨1, 8, 1⟩, [⟨0, 3, 1⟩, ⟨0, 4, 3⟩, ⟨0, 2, 12⟩]⟩
    exact ⟨diagnostics, b', h, hn⟩

/-- C14: `adjust_buffer_dims` writes exactly one warning when `dims_needed` exceeds the
number of axes, exactly one warning when axes are dropped and one of them has an extent
greater than 1, and no warning when every dropped axis has an extent of at most 1; when
the numbers of axes agree it writes nothing at all. -/
theorem adjust_buffer_dims_warnings (verbose : Bool) (w : Nat) (title name : List Char)
    (dims_needed : Nat) (b : Buffer) :
    ∃ diagnostics b', adjust_buffer_dims verbose w title name dims_needed b
        = some (diagnostics, b') ∧
      (b.dimensions < dims_needed → (diagnostics.filter Diagnostic.is_warn).length = 1) ∧
      (dims_needed < b.dimensions →
        (∃ d, dims_needed ≤ d ∧ d < b.dimensions ∧ (b.dim.at d).extent > 1) →
        (diagnostics.filter Diagnostic.is_warn).length = 1) ∧
      (dims_needed < b.dimensions →
        (∀ d, dims_needed ≤ d → d < b.dimensions → (b.dim.at d).extent ≤ 1) →
        (diagnostics.filter Diagnostic.is_warn).length = 0) ∧
      (b.dimensions = dims_needed → diagnostics = []) := by
  unfold adjust_buffer_dims
  simp only
  by_cases hgt : b.dimensions > dims_needed
  · rw [if_pos hgt]
    have hs := slice_loop_take dims_needed b.dimensions b (by unfold Buffer.dimensions; omega)
    rw [hs]
    refine ⟨_, _, rfl, fun h => by omega, ?_, ?_, fun h => by omega⟩
    · rintro _ ⟨d, hd1, hd2, hd3⟩
      have hnt : ¬ dims_in_range_are_trivial b dims_needed (b.dimensions - 1) = true := by
        rw [dims_in_range_are_trivial_iff]
        intro h
        have := h d hd1 (by omega)
        omega
      simp only [Bool.not_eq_true] at hnt
      simp [hnt, List.filter_append, info_not_warn, Diagnostic.is_warn]
    · intro _ hall
      have ht : dims_in_range_are_trivial b dims_needed (b.dimensions - 1) = true := by
        rw [dims_in_range_are_trivial_iff]
        intro d h1 h2
        exact hall d h1 (by omega)
      simp [ht, List.filter_append, info_not_warn]
  · rw [if_neg hgt]
    by_cases hlt : b.dimensions < dims_needed
    · rw [if_pos hlt]
      obtain ⟨extra, he, _, _⟩ := embed_loop_append w dims_needed dims_needed b (by omega)
      rw [he]
      refine ⟨_, _, rfl, ?_, fun h => by omega, fun h => by omega, fun h => by omega⟩
      intro _
      simp [List.filter_append, info_not_warn, Diagnostic.is_warn]
    · rw [if_neg hlt]
      exact ⟨_, _, rfl, fun h => by omega, fun h => by omega, fun h => by omega, fun _ => rfl⟩

/-- Instance of C14: dropping a third axis of extent 2 writes one warning, dropping a third
axis of extent 1 writes none. -/
theorem adjust_buffer_dims_warnings_witness :
    (∃ diagnostics b', adjust_buffer_dims false 32 "Input".toList "in".toList 2
        ⟨⟨1, 8, 1⟩, [⟨0, 3, 1⟩, ⟨0, 4, 3⟩, ⟨0, 2, 12⟩]⟩ = some (diagnostics, b') ∧
      (diagnostics.filter Diagnostic.is_warn).length = 1) ∧
    (∃ diagnostics b', adjust_buffer_dims false 32 "Input".toList "in".toList 2
        ⟨⟨1, 8, 1⟩, [⟨0, 3, 1⟩, ⟨0, 4, 3⟩, ⟨0, 1, 12⟩]⟩ = some (diagnostics, b') ∧
      (diagnostics.filter Diagnostic.is_warn).length = 0) := by
  constructor
  · obtain ⟨diagnostics, b', h, _, h1, _⟩ := adjust_buffer_dims_warnings false 32
      "Input".toList "in".toList 2 ⟨⟨1, 8, 1⟩, [⟨0, 3, 1⟩, ⟨0, 4, 3⟩, ⟨0, 2, 12⟩]⟩
    exact ⟨diagnostics, b', h, h1 (by decide) ⟨2, by decide, by decide, by decide⟩⟩
  · obtain ⟨diagnostics, b', h, _, _, h0, _⟩ := adjust_buffer_dims_warnings false 32
      "Input".toList "in".toList 2 ⟨⟨1, 8, 1⟩, [⟨0, 3, 1⟩, ⟨0, 4, 3⟩, ⟨0, 1, 12⟩]⟩
    refine ⟨diagnostics, b', h, h0 (by decide) ?_⟩
    intro d h1 h2
    have hd : d = 2 := by
      have : d < 3 := h2
      omega
    subst hd
    decide

/-! ## Memory tracker -/

theorem map_find_assign_same (k v : Nat) : ∀ m : List (Nat × Nat),
    map_find k (map_assign ptr_lt k v m) = some v := by
  intro m
  induction m with
  | nil => simp [map_assign, map_find]
  | cons e rest ih =>
    obtain ⟨k', v'⟩ := e
    unfold map_assign
    by_cases h1 : ptr_lt k k' = true
    · simp [h1, map_find]
    · by_cases h2 : ptr_lt k' k = true
      · have hne : ¬ k' = k := by
          unfold ptr_lt at h2
          simp only [decide_eq_true_eq] at h2
          omega
        simp [h1, h2, map_find, hne, ih]
      · simp [h1, h2, map_find]

theorem map_find_assign_other (k v q : Nat) (hq : q ≠ k) : ∀ m : List (Nat × Nat),
    map_find q (map_assign ptr_lt k v m) = map_find q m := by
  intro m
  induction m with
  | nil => simp [map_assign, map_find, hq.symm]
  | cons e rest ih =>
    obtain ⟨k', v'⟩ := e
    unfold map_assign
    by_cases h1 : ptr_lt k k' = true
    · simp [h1, map_find, hq.symm]
    · by_cases h2 : ptr_lt k' k = true
      · simp [h1, h2, map_find, ih]
      · have hk : k' = k := by
          unfold ptr_lt at h1 h2
          simp only [decide_eq_true_eq] at h1 h2
          omega
        subst hk
        simp [h1, map_find, hq.symm]

theorem map_find_erase_same (k : Nat) : ∀ m : List (Nat × Nat),
    map_find k (map_erase k m) = none := by
  intro m
  induction m with
  | nil => simp [map_erase, map_find]
  | cons e rest ih =>
    obtain ⟨k', v'⟩ := e
    unfold map_erase at ih ⊢
    rw [List.filter_cons]
    by_cases h : k' = k
    · have hd : decide ((k', v').1 ≠ k) = false := by simp [h]
      rw [hd]
      simp only [Bool.false_eq_true, if_false]
      exact ih
    · have hd : decide ((k', v').1 ≠ k) = true := by simp [h]
      rw [hd]
      simp only [if_true, map_find, h, if_false]
      exact ih

theorem map_find_erase_other (k q : Nat) (hq : q ≠ k) : ∀ m : List (Nat × Nat),
    map_find q (map_erase k m) = map_find q m := by
  intro m
  induction m with
  | nil => simp [map_erase, map_find]
  | cons e rest ih =>
    obtain ⟨k', v'⟩ := e
    unfold map_erase at ih ⊢
    rw [List.filter_cons]
    by_cases h : k' = k
    · have hd : decide ((k', v').1 ≠ k) = false := by simp [h]
      have hne : ¬ k' = q := fun e => hq (e.symm.trans h)
      rw [hd]
      simp only [Bool.false_eq_true, if_false, map_find, hne]
      exact ih
    · have hd : decide ((k', v').1 ≠ k) = true := by simp [h]
      rw [hd]
      simp only [if_true, map_find]
      rw [ih]

theorem sub64_add (a x : Nat) : (sub64 a x + x) % 2 ^ 64 = a % 2 ^ 64 := by
  unfold sub64
  norm_num
  omega

theorem sub64_lt (a x : Nat) : sub64 a x < 2 ^ 64 := by
  unfold sub64
  exact Nat.mod_lt _ (by norm_num)

theorem add64_add (a x y : Nat) : (add64 a x + y) % 2 ^ 64 = (a + (x + y)) % 2 ^ 64 := by
  unfold add64
  norm_num
  omega

/-- A call of `tracker_malloc` that returns a pointer not in the ledger. -/
theorem tracker_malloc_ok (t : HalideMemoryTracker) (x ptr : Nat)
    (h : map_find ptr t.memory_size_map = none) :
    t.tracker_malloc_impl x ptr
      = .ok { memory_allocated := add64 t.memory_allocated x
              memory_highwater :=
                if t.memory_highwater < add64 t.memory_allocated x then
                  add64 t.memory_allocated x
                else t.memory_highwater
              memory_size_map := map_assign ptr_lt ptr x t.memory_size_map } := by
  unfold HalideMemoryTracker.tracker_malloc_impl
  simp only
  split_ifs <;> simp_all

/-- A call of `tracker_free` on a pointer of the ledger. -/
theorem tracker_free_ok (t : HalideMemoryTracker) (ptr x : Nat)
    (h : map_find ptr t.memory_size_map = some x) :
    t.tracker_free_impl ptr
      = .ok { memory_allocated := sub64 t.memory_allocated x
              memory_highwater := t.memory_highwater
              memory_size_map := map_erase ptr t.memory_size_map } := by
  unfold HalideMemoryTracker.tracker_free_impl
  rw [h]

/-- Allocations that return pointers which differ from each other and from those of the
ledger are all tracked: the running total grows by the sum of the sizes (as a `uint64_t`),
the mark does not go down, and the ledger gets exactly the new entries. -/
theorem tracker_mallocs_ok : ∀ (allocs : List (Nat × Nat)) (t : HalideMemoryTracker),
    (allocs.map Prod.fst).Nodup →
    (∀ a ∈ allocs, map_find a.1 t.memory_size_map = none) →
    ∃ t', tracker_mallocs t allocs = .ok t' ∧
      t'.memory_allocated % 2 ^ 64
        = (t.memory_allocated + (allocs.map Prod.snd).sum) % 2 ^ 64 ∧
      (t.memory_allocated < 2 ^ 64 → t'.memory_allocated < 2 ^ 64) ∧
      t.memory_highwater ≤ t'.memory_highwater ∧
      (∀ a ∈ allocs, map_find a.1 t'.memory_size_map = some a.2) ∧
      (∀ q, q ∉ allocs.map Prod.fst →
        map_find q t'.memory_size_map = map_find q t.memory_size_map) := by
  intro allocs
  induction allocs with
  | nil =>
    intro t _ _
    exact ⟨t, rfl, by simp, fun h => h, Nat.le_refl _, by simp, fun _ _ => rfl⟩
  | cons a rest ih =>
    intro t hnd hnew
    obtain ⟨p, x⟩ := a
    simp only [List.map_cons, List.nodup_cons] at hnd
    obtain ⟨hp, hnd'⟩ := hnd
    have hpt : map_find p t.memory_size_map = none := hnew (p, x) (List.mem_cons_self _ _)
    simp only [tracker_mallocs]
    rw [tracker_malloc_ok t x p hpt]
    simp only
    obtain ⟨t', hrun, hsum, hlt, hhw, hin, hout⟩ := ih
      { memory_allocated := add64 t.memory_allocated x
        memory_highwater :=
          if t.memory_highwater < add64 t.memory_allocated x then add64 t.memory_allocated x
          else t.memory_highwater
        memory_size_map := map_assign ptr_lt p x t.memory_size_map } hnd'
      (by
        intro a ha
        have hne : a.1 ≠ p := by
          intro e
          exact hp (e ▸ List.mem_map_of_mem Prod.fst ha)
        simp only
        rw [map_find_assign_other p x a.1 hne]
        exact hnew a (List.mem_cons_of_mem _ ha))
    simp only at hsum hlt hhw hout
    refine ⟨t', hrun, ?_, ?_, ?_, ?_, ?_⟩
    · rw [hsum]
      simp only [List.map_cons, List.sum_cons]
      exact add64_add _ _ _
    · intro _
      exact hlt (by unfold add64; exact Nat.mod_lt _ (by norm_num))
    · refine Nat.le_trans ?_ hhw
      split_ifs <;> omega
    · intro a ha
      rcases List.mem_cons.1 ha with h | h
      · rw [h]
        simp only
        rw [hout p hp]
        exact map_find_assign_same p x _
      · exact hin a h
    · intro q hq
      simp only [List.map_cons, List.mem_cons, not_or] at hq
      rw [hout q hq.2]
      exact map_find_assign_other p x q hq.1 _

/-- Frees of pointers of the ledger, each once: no call fails, the mark stays, the running
total goes down by the sum of the recorded sizes (as a `uint64_t`), and the ledger loses
exactly these entries. -/
theorem tracker_frees_ok : ∀ (frees : List Nat) (t : HalideMemoryTracker),
    frees.Nodup →
    (∀ f ∈ frees, (map_find f t.memory_size_map).isSome) →
    ∃ t', tracker_frees t frees = .ok t' ∧
      t'.memory_highwater = t.memory_highwater ∧
      (t'.memory_allocated
          + (frees.map (fun f => (map_find f t.memory_size_map).getD 0)).sum) % 2 ^ 64
        = t.memory_allocated % 2 ^ 64 ∧
      (t.memory_allocated < 2 ^ 64 → t'.memory_allocated < 2 ^ 64) ∧
      (∀ f ∈ frees, map_find f t'.memory_size_map = none) ∧
      (∀ q, q ∉ frees → map_find q t'.memory_size_map = map_find q t.memory_size_map) := by
  intro frees
  induction frees with
  | nil =>
    intro t _ _
    exact ⟨t, rfl, rfl, by simp, fun h => h, by simp, fun _ _ => rfl⟩
  | cons f rest ih =>
    intro t hnd hin
    simp only [List.nodup_cons] at hnd
    obtain ⟨hf, hnd'⟩ := hnd
    obtain ⟨x, hx⟩ := Option.isSome_iff_exists.1 (hin f (List.mem_cons_self _ _))
    simp only [tracker_frees]
    rw [tracker_free_ok t f x hx]
    simp only
    have hrest : ∀ g ∈ rest, map_find g (map_erase f t.memory_size_map)
        = map_find g t.memory_size_map := by
      intro g hg
      have hne : g ≠ f := fun e => hf (e ▸ hg)
      exact map_find_erase_other f g hne _
    obtain ⟨t', hrun, hhw, hsum, hlt, hgone, hout⟩ := ih
      { memory_allocated := sub64 t.memory_allocated x
        memory_highwater := t.memory_highwater
        memory_size_map := map_erase f t.memory_size_map } hnd'
      (by
        intro g hg
        simp only
        rw [hrest g hg]
        exact hin g (List.mem_cons_of_mem _ hg))
    simp only at hhw hsum hlt hout
    have hmap : rest.map (fun g => (map_find g (map_erase f t.memory_size_map)).getD 0)
        = rest.map (fun g => (map_find g t.memory_size_map).getD 0) := by
      apply List.map_congr_left
      intro g hg
      rw [hrest g hg]
    rw [hmap] at hsum
    refine ⟨t', hrun, hhw, ?_, ?_, ?_, ?_⟩
    · simp only [List.map_cons, List.sum_cons, hx, Option.getD_some]
      have h1 := sub64_add t.memory_allocated x
      generalize (rest.map (fun g => (map_find g t.memory_size_map).getD 0)).sum = S at hsum ⊢
      generalize sub64 t.memory_allocated x = s1 at hsum h1
      norm_num at hsum h1 ⊢
      omega
    · intro _
      exact hlt (sub64_lt _ _)
    · intro g hg
      rcases List.mem_cons.1 hg with h | h
      · rw [h, hout f hf]
        exact map_find_erase_same f _
      · exact hgone g h
    · intro q hq
      simp only [List.mem_cons, not_or] at hq
      rw [hout q hq.2]
      exact map_find_erase_other f q hq.1 _

/-- From counters that agree, and as long as the total does not exceed a `uint64_t`, the
running total and the mark both grow by the sum of the sizes allocated. -/
theorem tracker_mallocs_counts : ∀ (allocs : List (Nat × Nat)) (t : HalideMemoryTracker),
    (allocs.map Prod.fst).Nodup →
    (∀ a ∈ allocs, map_find a.1 t.memory_size_map = none) →
    t.memory_highwater = t.memory_allocated →
    t.memory_allocated + (allocs.map Prod.snd).sum < 2 ^ 64 →
    ∃ t', tracker_mallocs t allocs = .ok t' ∧
      t'.allocated = t.memory_allocated + (allocs.map Prod.snd).sum ∧
      t'.highwater = t.memory_allocated + (allocs.map Prod.snd).sum := by
  intro allocs
  induction allocs with
  | nil =>
    intro t _ _ hh _
    exact ⟨t, rfl, by simp [HalideMemoryTracker.allocated],
      by simp [HalideMemoryTracker.highwater, hh]⟩
  | cons a rest ih =>
    intro t hnd hnew hh hsum
    obtain ⟨p, x⟩ := a
    simp only [List.map_cons, List.nodup_cons, List.sum_cons] at hnd hsum
    obtain ⟨hp, hnd'⟩ := hnd
    have hpt : map_find p t.memory_size_map = none := hnew (p, x) (List.mem_cons_self _ _)
    have hadd : add64 t.memory_allocated x = t.memory_allocated + x := by
      unfold add64
      exact Nat.mod_eq_of_lt (by omega)
    simp only [tracker_mallocs]
    rw [tracker_malloc_ok t x p hpt, hadd]
    simp only
    obtain ⟨t', hrun, ha, hw⟩ := ih
      { memory_allocated := t.memory_allocated + x
        memory_highwater :=
          if t.memory_highwater < t.memory_allocated + x then t.memory_allocated + x
          else t.memory_highwater
        memory_size_map := map_assign ptr_lt p x t.memory_size_map } hnd'
      (by
        intro a ha
        have hne : a.1 ≠ p := by
          intro e
          exact hp (e ▸ List.mem_map_of_mem Prod.fst ha)
        simp only
        rw [map_find_assign_other p x a.1 hne]
        exact hnew a (List.mem_cons_of_mem _ ha))
      (by
        simp only
        split_ifs <;> omega)
      (by simp only; omega)
    simp only at ha hw
    refine ⟨t', hrun, ?_, ?_⟩
    · rw [ha]
      simp only [List.map_cons, List.sum_cons]
      omega
    · rw [hw]
      simp only [List.map_cons, List.sum_cons]
      omega

/-- C15 (failing input): a newly constructed tracker holds whatever its two counters
happen to hold, for instance 7 and 9; after one tracked allocation of 1 byte `allocated()`
is then 8 and `highwater()` is 9, not 1 and 1. -/
theorem tracker_construct_indeterminate :
    tracker_mallocs (HalideMemoryTracker.construct 7 9) [(4096, 1)]
      = .ok ⟨8, 9, [(4096, 1)]⟩ ∧
    HalideMemoryTracker.allocated ⟨8, 9, [(4096, 1)]⟩ = 8 ∧
    HalideMemoryTracker.highwater ⟨8, 9, [(4096, 1)]⟩ = 9 := by
  decide

/-- C16: after tracked allocations (the pointers returned differ from each other and from
those of the ledger) followed by one free of each of these pointers, in any order, no call
has failed, `allocated()` is what it was before the allocations (0 when it was 0), and
`highwater()` is what it was just before the first free. -/
theorem tracker_alloc_free_all (t : HalideMemoryTracker) (allocs : List (Nat × Nat))
    (frees : List Nat) (hlt : t.memory_allocated < 2 ^ 64)
    (hnd : (allocs.map Prod.fst).Nodup)
    (hnew : ∀ a ∈ allocs, map_find a.1 t.memory_size_map = none)
    (hperm : frees.Perm (allocs.map Prod.fst)) :
    ∃ t1 t2, tracker_mallocs t allocs = .ok t1 ∧ tracker_frees t1 frees = .ok t2 ∧
      t2.allocated = t.allocated ∧ t2.highwater = t1.highwater ∧
      (t.allocated = 0 → t2.allocated = 0) := by
  obtain ⟨t1, hrun1, hsum1, hlt1, _, hin1, _⟩ := tracker_mallocs_ok allocs t hnd hnew
  have hfnd : frees.Nodup := hperm.nodup_iff.2 hnd
  have hfin : ∀ f ∈ frees, (map_find f t1.memory_size_map).isSome := by
    intro f hf
    obtain ⟨a, ha, hfa⟩ := List.mem_map.1 (hperm.mem_iff.1 hf)
    rw [← hfa, hin1 a ha]
    rfl
  obtain ⟨t2, hrun2, hhw, hsum2, hlt2, _, _⟩ := tracker_frees_ok frees t1 hfnd hfin
  have hS : (frees.map (fun f => (map_find f t1.memory_size_map).getD 0)).sum
      = (allocs.map Prod.snd).sum := by
    rw [(hperm.map _).sum_eq, List.map_map]
    congr 1
    apply List.map_congr_left
    intro a ha
    simp only [Function.comp_apply]
    rw [hin1 a ha]
    rfl
  rw [hS] at hsum2
  have heq : t2.memory_allocated = t.memory_allocated := by
    have h2 := hlt2 (hlt1 hlt)
    have h3 : (t2.memory_allocated + (allocs.map Prod.snd).sum) % 2 ^ 64
        = (t.memory_allocated + (allocs.map Prod.snd).sum) % 2 ^ 64 := by
      rw [hsum2, hsum1]
    have h4 : t2.memory_allocated % 2 ^ 64 = t.memory_allocated % 2 ^ 64 :=
      Nat.ModEq.add_right_cancel' _ h3
    rwa [Nat.mod_eq_of_lt h2, Nat.mod_eq_of_lt hlt] at h4
  refine ⟨t1, t2, hrun1, hrun2, heq, hhw, ?_⟩
  intro h0
  unfold HalideMemoryTracker.allocated at h0 ⊢
  rw [heq, h0]

/-- Instance of C16: three allocations, freed in another order. -/
theorem tracker_alloc_free_all_witness :
    ∃ t1 t2, tracker_mallocs ⟨0, 0, []⟩ [(4096, 10), (8192, 20), (64, 5)] = .ok t1 ∧
      tracker_frees t1 [8192, 64, 4096] = .ok t2 ∧
      t2.allocated = HalideMemoryTracker.allocated ⟨0, 0, []⟩ ∧
      t2.highwater = t1.highwater ∧
      (HalideMemoryTracker.allocated ⟨0, 0, []⟩ = 0 → t2.allocated = 0) :=
  tracker_alloc_free_all ⟨0, 0, []⟩ [(4096, 10), (8192, 20), (64, 5)] [8192, 64, 4096]
    (by decide) (by decide) (by decide) (by decide)

/-- C17: `tracker_free` on a pointer that is not in the ledger is the fatal error
`halide_error: Tracking error in tracker_free`, and the members are unchanged when the
process exits; on a pointer of the ledger it subtracts the recorded size from the running
total (as a `uint64_t`; exactly, when the size does not exceed the total), removes the
entry of this pointer and no other, and leaves the mark; a second free of the pointer is
fatal. -/
theorem tracker_free_spec (t : HalideMemoryTracker) (ptr : Nat) :
    (map_find ptr t.memory_size_map = none →
      t.tracker_free_impl ptr
        = .error (rungen_halide_error "Tracking error in tracker_free".toList, t)) ∧
    (∀ x, map_find ptr t.memory_size_map = some x →
      ∃ t', t.tracker_free_impl ptr = .ok t' ∧
        t'.memory_allocated = sub64 t.memory_allocated x ∧
        (x ≤ t.memory_allocated → t.memory_allocated < 2 ^ 64 →
          t'.memory_allocated = t.memory_allocated - x) ∧
        t'.memory_highwater = t.memory_highwater ∧
        map_find ptr t'.memory_size_map = none ∧
        (∀ q, q ≠ ptr → map_find q t'.memory_size_map = map_find q t.memory_size_map) ∧
        t'.tracker_free_impl ptr
          = .error (rungen_halide_error "Tracking error in tracker_free".toList, t')) := by
  have hnone : ∀ s : HalideMemoryTracker, map_find ptr s.memory_size_map = none →
      s.tracker_free_impl ptr
        = .error (rungen_halide_error "Tracking error in tracker_free".toList, s) := by
    intro s h
    unfold HalideMemoryTracker.tracker_free_impl
    rw [h]
  refine ⟨hnone t, ?_⟩
  intro x hx
  refine ⟨_, tracker_free_ok t ptr x hx, rfl, ?_, rfl, map_find_erase_same ptr _,
    fun q hq => map_find_erase_other ptr q hq _, ?_⟩
  · intro h1 h2
    simp only [sub64]
    norm_num at h2 ⊢
    omega
  · exact hnone _ (map_find_erase_same ptr _)

/-- Instance of C17: a free of a pointer that was never allocated, and a free of a tracked
pointer. -/
theorem tracker_free_spec_witness :
    HalideMemoryTracker.tracker_free_impl ⟨30, 30, [(64, 10), (4096, 20)]⟩ 128
      = .error (rungen_halide_error "Tracking error in tracker_free".toList,
          ⟨30, 30, [(64, 10), (4096, 20)]⟩) ∧
    (∃ t', HalideMemoryTracker.tracker_free_impl ⟨30, 30, [(64, 10), (4096, 20)]⟩ 4096
        = .ok t' ∧ t'.memory_allocated = 10) := by
  refine ⟨(tracker_free_spec ⟨30, 30, [(64, 10), (4096, 20)]⟩ 128).1 (by decide), ?_⟩
  obtain ⟨t', h1, _, h3, _⟩ :=
    (tracker_free_spec ⟨30, 30, [(64, 10), (4096, 20)]⟩ 4096).2 20 (by decide)
  exact ⟨t', h1, h3 (by decide) (by decide)⟩

/-- C18: `highwater_reset` sets the mark to the running total and leaves the running total
and the ledger as they are; afterwards `highwater() == allocated()`. -/
theorem highwater_reset_spec (t : HalideMemoryTracker) :
    t.highwater_reset.memory_highwater = t.memory_allocated ∧
    t.highwater_reset.memory_allocated = t.memory_allocated ∧
    t.highwater_reset.memory_size_map = t.memory_size_map ∧
    t.highwater_reset.highwater = t.highwater_reset.allocated :=
  ⟨rfl, rfl, rfl, rfl⟩

/-! ## The command line -/

/-- A token `name=value` with no other `=` is split into the name and the value. -/
theorem split_name_value (name value : List Char) (hn : Char.ofNat 61 ∉ name)
    (hv : Char.ofNat 61 ∉ value) :
    split_string (name ++ "=".toList ++ value) "=".toList = some [name, value] := by
  have he : "=".toList = [Char.ofNat 61] := by decide
  rw [he]
  have h := split_string_join (Char.ofNat 61) [name, value] (by simp) (by
    intro p hp
    simp only [List.mem_cons, List.mem_singleton, List.not_mem_nil, or_false] at hp
    rcases hp with h | h
    · rw [h]; exact hn
    · rw [h]; exact hv)
  rw [intercalate_cons_cons, intercalate_single] at h
  exact h

/-- What the loop of `main` does with a well-formed token `name=value`: an unknown name is
noted and the loop is left; a known name whose raw value is not empty is the fatal error
`Argument value specified multiple times`; otherwise the value is recorded as the raw value
and the name is entered in `found`. -/
theorem process_named_spec (st : MainState) (name value : List Char)
    (hn : Char.ofNat 61 ∉ name) (hv : Char.ofNat 61 ∉ value)
    (hne : name ≠ []) (hve : value ≠ []) :
    process_named st (name ++ "=".toList ++ value)
      = match map_find name st.args with
        | none => some (.ok (true, { st with unknown_args := st.unknown_args ++ [name] }))
        | some arg =>
          if arg.raw_string ≠ [] then
            some (.error ("Argument value specified multiple times for: ".toList ++ name))
          else
            some (.ok (false,
              { st with
                args := map_assign string_lt name { arg with raw_string := value } st.args
                found := set_insert string_lt name st.found })) := by
  unfold process_named
  rw [split_name_value name value hn hv]
  have h2 : ¬ (([name, value] : List (List Char)).length ≠ 2 ∨
      (([name, value] : List (List Char)).getD 0 []).isEmpty = true ∨
      (([name, value] : List (List Char)).getD 1 []).isEmpty = true) := by
    simp [hne, hve]
  simp only
  rw [if_neg h2]
  have hg0 : ([name, value] : List (List Char)).getD 0 [] = name := rfl
  have hg1 : ([name, value] : List (List Char)).getD 1 [] = value := rfl
  rw [hg0, hg1]
  cases hfind : map_find name st.args with
  | none => rfl
  | some arg =>
    simp only
    have hvne : ¬ value.isEmpty = true := by simpa using hve
    rw [if_neg hvne]
    by_cases hr : arg.raw_string = []
    · simp [hr]
    · have : (!arg.raw_string.isEmpty) = true := by simpa using hr
      simp [this, hr]

/-- After a well-formed token whose name is not declared, the loop over `argv` ends: the
name is noted and the tokens after it are not looked at. -/
theorem process_argv_unknown (w : Nat) (st : MainState) (c : Char) (name value : List Char)
    (rest : List (List Char)) (hc : c ≠ Char.ofNat 45) (hc' : c ≠ Char.ofNat 61)
    (hn : Char.ofNat 61 ∉ name) (hv : Char.ofNat 61 ∉ value) (hve : value ≠ [])
    (hunknown : map_find (c :: name) st.args = none) :
    process_argv w ((c :: name ++ "=".toList ++ value) :: rest) st
      = some (.ok { st with unknown_args := st.unknown_args ++ [c :: name] }) := by
  have hspec := process_named_spec st (c :: name) value
    (by
      intro h
      rcases List.mem_cons.1 h with h | h
      · exact hc' h.symm
      · exact hn h)
    hv (by simp) hve
  rw [hunknown] at hspec
  simp only [List.cons_append] at hspec
  unfold process_argv
  have hhead : ¬ (c :: (name ++ "=".toList ++ value)).head? = some (Char.ofNat 45) := by
    simp [hc]
  simp only [List.cons_append]
  rw [if_neg hhead, hspec]

/-- C19 (failing input): for a module that declares only `bias`, the command line
`foo=1 bias=3 bar=2` ends in the report `Unknown argument name: foo`, `Argument value
missing for: bias`: the loop is left at `foo=1`, so `bias=3` is not processed (its value is
reported missing) and the unknown name `bar` gets no line. -/
theorem unknown_name_ends_loop :
    main_resolve 32 metadata_bias
        ["rungen".toList, "foo=1".toList, "bias=3".toList, "bar=2".toList]
      = some (.error ("Unknown argument name: foo".toList ++ [Char.ofNat 10]
          ++ "Argument value missing for: bias".toList ++ [Char.ofNat 10])) ∧
    (process_argv 32 ["foo=1".toList, "bias=3".toList, "bar=2".toList]
        (MainState.init metadata_bias)).map (fun r => r.map (fun st => st.unknown_args))
      = some (.ok ["foo".toList]) := by
  decide

/-- C20 (failing input): for a module that declares the handle-typed argument `h`, the
command line `h=nullptr`, the first and only token for `h`, is rejected with `Argument value
specified multiple times for: h`; and for a module that declares only `bias`, the second
token for `bias` in `foo=1 bias=3 bias=4` is not rejected with that message, the loop having
been left at `foo=1`. -/
theorem handle_first_value_rejected :
    main_resolve 32 metadata_handle ["rungen".toList, "h=nullptr".toList]
      = some (.error "Argument value specified multiple times for: h".toList) ∧
    main_resolve 32 metadata_bias
        ["rungen".toList, "foo=1".toList, "bias=3".toList, "bias=4".toList]
      = some (.error ("Unknown argument name: foo".toList ++ [Char.ofNat 10]
          ++ "Argument value missing for: bias".toList ++ [Char.ofNat 10])) := by
  decide

/-! ## The chunky equation `stride[0] == extent[2]` -/

/-- When the chunky block leaves no zero stride, the returned shape has
`stride[0] == extent[2]`. -/
theorem fix_chunky_stride0 (w : Nat) (cs s : Shape) (h3 : 3 ≤ s.length)
    (h2 : (cs.at 2).stride = 1) (hs : (s.at 0).stride = (cs.at 0).stride) :
    ((fix_chunky w cs s).at 0).stride = ((fix_chunky w cs s).at 2).extent := by
  rw [fix_chunky_extent]
  unfold fix_chunky
  have h3' : s.length ≥ 3 := h3
  have hl : 0 < s.length := by omega
  simp only [h3', h2, if_true]
  by_cases h0 : (cs.at 0).stride ≥ 1
  · have hc : 3 ≤ s.length ∧ (1 : Int) = 1 ∧ (cs.at 0).stride ≥ 1 ∧ 2 = 2 := ⟨h3, rfl, h0, rfl⟩
    simp only [h0, if_true, Shape.at_setStride, Shape.at_setExtent, Shape.length_setExtent]
    simp [hs, h3, h0]
  · simp only [h0, if_false, Shape.at_setStride, Shape.length_setStride]
    simp [hl, h0]

theorem fix_bounds_query_shape_chunky_stride0_of_no_zero (w : Nat) (cs : Shape)
    (h3 : 3 ≤ cs.length) (h2 : (cs.at 2).stride = 1)
    (hz : ¬ ∃ i, i < cs.length ∧
      ((fix_chunky w cs ((List.range cs.length).foldl (fill_extent cs) cs)).at i).stride = 0) :
    ((fix_bounds_query_shape w cs).at 0).stride
      = ((fix_bounds_query_shape w cs).at 2).extent := by
  unfold fix_bounds_query_shape
  simp only
  have hlen := (fill_loop cs cs.length cs).1
  have hst := fill_loop_stride cs 0
  generalize (List.range cs.length).foldl (fill_extent cs) cs = A at hlen hst hz
  have hz' : ¬ ∃ i, i < (fix_chunky w cs A).length ∧ ((fix_chunky w cs A).at i).stride = 0 := by
    rw [fix_chunky_length, hlen]
    exact hz
  rw [fix_planar_id w _ hz']
  exact fix_chunky_stride0 w cs A (by omega) h2 hst

theorem fix_bounds_query_shape_eq_planar (w : Nat) (cs : Shape) :
    fix_bounds_query_shape w cs = fix_planar w (shape_after_chunky w cs) := rfl

/-- C27 (amended): for every constrained shape with at least 3 axes whose axis-2 stride is
exactly 1, the shape returned by `fix_bounds_query_shape` has `stride[0] == extent[2]`
whenever no stride is zero after the chunky block (the flag `zero_strides` is false); when a
stride is still zero there, the planar fallback applies: the returned `stride[0]` is 1 and
`extent[2]` is the one that the chunky block left. -/
theorem fix_bounds_query_shape_chunky_stride0 (w : Nat) (cs : Shape) (h3 : 3 ≤ cs.length)
    (h2 : (cs.at 2).stride = 1) :
    (has_zero_strides (shape_after_chunky w cs) = false →
      ((fix_bounds_query_shape w cs).at 0).stride
        = ((fix_bounds_query_shape w cs).at 2).extent) ∧
    (has_zero_strides (shape_after_chunky w cs) = true →
      ((fix_bounds_query_shape w cs).at 0).stride = 1 ∧
      ((fix_bounds_query_shape w cs).at 2).extent
        = ((shape_after_chunky w cs).at 2).extent) := by
  constructor
  · intro hz
    apply fix_bounds_query_shape_chunky_stride0_of_no_zero w cs h3 h2
    intro hex
    have hlen : (shape_after_chunky w cs).length = cs.length := by
      unfold shape_after_chunky
      rw [fix_chunky_length, (fill_loop cs cs.length cs).1]
    have : has_zero_strides (shape_after_chunky w cs) = true := by
      rw [has_zero_strides_iff, hlen]
      exact hex
    rw [hz] at this
    exact absurd this (by simp)
  · intro hz
    rw [fix_bounds_query_shape_eq_planar]
    exact ⟨(fix_planar_strides w _ ((has_zero_strides_iff _).1 hz)).1,
      (fix_planar_extent_min w _ 2).1⟩

theorem fix_bounds_query_shape_chunky_stride0_witness :
    has_zero_strides (shape_after_chunky 32 [⟨0, 0, 3⟩, ⟨0, 0, 0⟩, ⟨0, 0, 1⟩]) = false ∧
    fix_bounds_query_shape 32 [⟨0, 0, 3⟩, ⟨0, 0, 0⟩, ⟨0, 0, 1⟩]
      = [⟨0, 1, 3⟩, ⟨0, 1, 3⟩, ⟨0, 3, 1⟩] ∧
    ((fix_bounds_query_shape 32 [⟨0, 0, 3⟩, ⟨0, 0, 0⟩, ⟨0, 0, 1⟩]).at 0).stride
      = ((fix_bounds_query_shape 32 [⟨0, 0, 3⟩, ⟨0, 0, 0⟩, ⟨0, 0, 1⟩]).at 2).extent :=
  ⟨by decide, by decide,
    (fix_bounds_query_shape_chunky_stride0 32 [⟨0, 0, 3⟩, ⟨0, 0, 0⟩, ⟨0, 0, 1⟩]
      (by decide) (by decide)).1 (by decide)⟩

/-- C27 (counterexample): the 4-axis constrained shape with strides `(3, 0, 1, 0)` and all
extents zero is chunky (axis-2 stride 1, axis-0 stride 3), and the chunky block makes
`stride[0] == extent[2] == 3`; but the zero stride of axis 3 then sets off the planar
fallback, which assigns `stride[0] = 1`: the returned shape has `stride[0] = 1` and
`extent[2] = 3`. -/
theorem fix_bounds_query_shape_planar_overrides_chunky :
    fix_bounds_query_shape 32 [⟨0, 0, 3⟩, ⟨0, 0, 0⟩, ⟨0, 0, 1⟩, ⟨0, 0, 0⟩]
      = [⟨0, 1, 1⟩, ⟨0, 1, 1⟩, ⟨0, 3, 1⟩, ⟨0, 1, 3⟩] ∧
    ((fix_bounds_query_shape 32 [⟨0, 0, 3⟩, ⟨0, 0, 0⟩, ⟨0, 0, 1⟩, ⟨0, 0, 0⟩]).at 0).stride = 1 ∧
    ((fix_bounds_query_shape 32 [⟨0, 0, 3⟩, ⟨0, 0, 0⟩, ⟨0, 0, 1⟩, ⟨0, 0, 0⟩]).at 2).extent = 3 := by
  decide

/-! ## Save formats -/

theorem format_score_nonneg (type : halide_type_t) (dimensions : Int) (f : FormatInfo) :
    0 ≤ format_score type dimensions f := by
  unfold format_score
  simp only
  split_ifs <;> omega

/-- A score of zero means the same axis count, bit-width and type code. -/
theorem format_score_eq_zero (type : halide_type_t) (dimensions : Int) (f : FormatInfo) :
    format_score type dimensions f = 0
      ↔ f.dimensions = dimensions ∧ f.type.bits = type.bits ∧ f.type.code = type.code := by
  unfold format_score
  simp only
  constructor
  · intro h
    split_ifs at h with hc
    · omega
    · exact ⟨by omega, by omega, not_not.1 hc⟩
  · rintro ⟨h1, h2, h3⟩
    simp [h1, h2, h3]

/-- The loop of `best_save_format`: either no format scores below the initial `best_score`
and the state is unchanged, or the state holds the first format of least score. -/
theorem best_save_loop (type : halide_type_t) (dimensions : Int) :
    ∀ (info : List FormatInfo) (st : Int × FormatInfo),
      (info.foldl (best_save_step type dimensions) st = st ∧
        ∀ f ∈ info, st.1 ≤ format_score type dimensions f) ∨
      (∃ pre r post, info = pre ++ r :: post ∧
        info.foldl (best_save_step type dimensions) st = (format_score type dimensions r, r) ∧
        format_score type dimensions r < st.1 ∧
        (∀ f ∈ pre, format_score type dimensions r < format_score type dimensions f) ∧
        ∀ f ∈ post, format_score type dimensions r ≤ format_score type dimensions f) := by
  intro info
  induction info with
  | nil => intro st; left; exact ⟨rfl, by simp⟩
  | cons f t ih =>
    intro st
    rw [List.foldl_cons]
    by_cases hlt : format_score type dimensions f < st.1
    · have hstep : best_save_step type dimensions st f = (format_score type dimensions f, f) := by
        unfold best_save_step
        simp [hlt]
      rw [hstep]
      rcases ih (format_score type dimensions f, f) with ⟨he, hall⟩ | ⟨pre, r, post, ht, he, hr, hpre, hpost⟩
      · right
        exact ⟨[], f, t, rfl, he, hlt, by simp, hall⟩
      · right
        refine ⟨f :: pre, r, post, by rw [ht]; rfl, he, lt_trans hr hlt, ?_, hpost⟩
        intro g hg
        rcases List.mem_cons.1 hg with rfl | hg
        · exact hr
        · exact hpre g hg
    · have hstep : best_save_step type dimensions st f = st := by
        unfold best_save_step
        simp [hlt]
      rw [hstep]
      rcases ih st with ⟨he, hall⟩ | ⟨pre, r, post, ht, he, hr, hpre, hpost⟩
      · left
        refine ⟨he, ?_⟩
        intro g hg
        rcases List.mem_cons.1 hg with rfl | hg
        · exact not_lt.1 hlt
        · exact hall g hg
      · right
        refine ⟨f :: pre, r, post, by rw [ht]; rfl, he, hr, ?_, hpost⟩
        intro g hg
        rcases List.mem_cons.1 hg with rfl | hg
        · exact lt_of_lt_of_le hr (not_lt.1 hlt)
        · exact hpre g hg

/-- The bound on the scores is needed: a single format whose score is exactly `0x7fffffff`
never replaces the value-initialised `best`. -/
theorem best_save_format_sentinel :
    best_save_format ⟨⟨1, 8, 1⟩, []⟩ [⟨⟨1, 135, 1⟩, 16777215⟩] = ⟨⟨0, 0, 0⟩, 0⟩ := by
  decide

/-! ## The ledger invariant of the memory tracker -/

theorem map_find_none_iff (k : Nat) : ∀ m : List (Nat × Nat),
    map_find k m = none ↔ k ∉ m.map Prod.fst := by
  intro m
  induction m with
  | nil => simp [map_find]
  | cons e rest ih =>
    obtain ⟨k', v⟩ := e
    unfold map_find
    by_cases h : k' = k
    · simp [h]
    · have h' : ¬ k = k' := fun e => h e.symm
      simp [h, h', ih]

/-- A new key is put somewhere into the list, which keeps all its entries. -/
theorem map_assign_perm (k v : Nat) : ∀ m : List (Nat × Nat), k ∉ m.map Prod.fst →
    (map_assign ptr_lt k v m).Perm ((k, v) :: m) := by
  intro m
  induction m with
  | nil => intro _; exact List.Perm.refl _
  | cons e rest ih =>
    obtain ⟨k', v'⟩ := e
    intro hk
    have hne : k ≠ k' := by
      intro h
      apply hk
      simp [h]
    have hrest : k ∉ rest.map Prod.fst := by
      intro h
      apply hk
      simp only [List.map_cons, List.mem_cons]
      exact Or.inr h
    unfold map_assign
    by_cases h1 : k < k'
    · simp [ptr_lt, h1]
    · have h2 : k' < k := by omega
      simp only [ptr_lt, h1, h2, decide_False, decide_True, if_true, Bool.false_eq_true,
        if_false]
      exact ((ih hrest).cons (k', v')).trans (List.Perm.swap _ _ _)

/-- Erasing a key that the map holds once takes its size off the sum. -/
theorem map_erase_sum (p x : Nat) : ∀ m : List (Nat × Nat), (m.map Prod.fst).Nodup →
    map_find p m = some x →
    (m.map Prod.snd).sum = x + ((map_erase p m).map Prod.snd).sum := by
  intro m
  induction m with
  | nil => intro _ h; simp [map_find] at h
  | cons e rest ih =>
    obtain ⟨k, v⟩ := e
    intro hnd hf
    rw [List.map_cons, List.nodup_cons] at hnd
    unfold map_find at hf
    unfold map_erase
    rw [List.filter_cons]
    by_cases hk : k = p
    · subst hk
      simp only [if_true, Option.some.injEq] at hf
      subst hf
      have hd : decide ((k, v).1 ≠ k) = false := by simp
      rw [hd]
      simp only [Bool.false_eq_true, if_false, List.map_cons, List.sum_cons]
      have hself : rest.filter (fun e => decide (e.1 ≠ k)) = rest := by
        rw [List.filter_eq_self]
        intro a ha
        have : a.1 ≠ k := by
          intro h
          have hm : a.1 ∈ rest.map Prod.fst := List.mem_map_of_mem Prod.fst ha
          rw [h] at hm
          exact hnd.1 hm
        simpa using this
      rw [hself]
    · simp only [hk, if_false] at hf
      have hd : decide ((k, v).1 ≠ p) = true := by simpa using hk
      rw [hd]
      simp only [if_true, List.map_cons, List.sum_cons]
      have := ih hnd.2 hf
      unfold map_erase at this
      rw [this]
      omega

theorem map_erase_nodup (p : Nat) (m : List (Nat × Nat)) (h : (m.map Prod.fst).Nodup) :
    ((map_erase p m).map Prod.fst).Nodup := by
  unfold map_erase
  exact h.sublist (List.Sublist.map _ (List.filter_sublist _))

/-- A tracked size is at most the sum of the recorded sizes. -/
theorem map_find_le_sum (p x : Nat) : ∀ m : List (Nat × Nat), map_find p m = some x →
    x ≤ (m.map Prod.snd).sum := by
  intro m
  induction m with
  | nil => intro h; simp [map_find] at h
  | cons e rest ih =>
    obtain ⟨k, v⟩ := e
    intro hf
    unfold map_find at hf
    by_cases hk : k = p
    · simp only [hk, if_true, Option.some.injEq] at hf
      simp [hf]
    · simp only [hk, if_false] at hf
      have := ih hf
      simp only [List.map_cons, List.sum_cons]
      omega

/-- The bound on the new total is needed: at the top of the `uint64_t` range the counter
wraps to zero while the recorded sizes do not. -/
theorem tracker_ledger_wraps :
    HalideMemoryTracker.tracker_malloc_impl ⟨2 ^ 64 - 1, 2 ^ 64 - 1, [(64, 2 ^ 64 - 1)]⟩ 1 128
      = .ok ⟨0, 2 ^ 64 - 1, [(64, 2 ^ 64 - 1), (128, 1)]⟩ := by
  decide

/-! ## Access counters of the Python bindings -/

/-- C30 (failing input): two load events on the func name `f$1`, handled by
`count_accesses_safe` from empty counters, leave `get_loads("f") = 1`, not 2.  The key looked
up by `func2counters.find(e->func)` is the name as traced, `f$1`, while the counters are kept
under the sanitized name `f`; the lookup never succeeds, so every event initialises the
counters of `f` again.  A store followed by a load likewise leaves `get_stores("f") = 0`. -/
theorem count_accesses_safe_resets :
    PyFunc.sanitize_name "f$1".toList = "f".toList ∧
    PyFunc.occurrences [⟨"f$1".toList, 0⟩, ⟨"f$1".toList, 0⟩] 0 "f".toList = 2 ∧
    PyFunc.get_loads (PyFunc.trace [⟨"f$1".toList, 0⟩, ⟨"f$1".toList, 0⟩]).func2counters
      (PyFunc.sanitize_name "f$1".toList) = 1 ∧
    PyFunc.occurrences [⟨"f$1".toList, 1⟩, ⟨"f$1".toList, 0⟩] 1 "f".toList = 1 ∧
    PyFunc.get_stores (PyFunc.trace [⟨"f$1".toList, 1⟩, ⟨"f$1".toList, 0⟩]).func2counters
      (PyFunc.sanitize_name "f$1".toList) = 0 := by
  decide

theorem PyFunc.sanitize_name_plain (name : List Char) (h : Char.ofNat 36 ∉ name) :
    PyFunc.sanitize_name name = name := by
  unfold PyFunc.sanitize_name string_find
  simp [find_in_none (Char.ofNat 36) name 0 h]

/-- One event on a name without `'$'`. -/
theorem PyFunc.count_accesses_safe_plain (st : PyFunc.State) (e : PyFunc.halide_trace_event_t)
    (h : Char.ofNat 36 ∉ e.func) (k : List Char) :
    (PyFunc.count_accesses_safe st e).1.func2counters k
      = if k = e.func then
          some ⟨(PyFunc.subscript st.func2counters k).stores + (if e.event = 1 then 1 else 0),
                (PyFunc.subscript st.func2counters k).loads + (if e.event = 0 then 1 else 0)⟩
        else st.func2counters k := by
  unfold PyFunc.count_accesses_safe PyFunc.count_accesses_internal PyFunc.init_counter
  simp only [PyFunc.sanitize_name_plain e.func h]
  by_cases hk : k = e.func
  · subst hk
    by_cases h0 : e.event = 0
    · have h1 : ¬ e.event = 1 := by omega
      cases hf : st.func2counters e.func <;>
        simp [h0, PyFunc.assign, PyFunc.subscript, hf]
    · by_cases h1 : e.event = 1
      · cases hf : st.func2counters e.func <;>
          simp [h0, h1, PyFunc.assign, PyFunc.subscript, hf]
      · cases hf : st.func2counters e.func <;>
          simp [h0, h1, PyFunc.assign, PyFunc.subscript, hf]
  · by_cases h0 : e.event = 0
    · cases hf : st.func2counters e.func <;>
        simp [h0, PyFunc.assign, PyFunc.subscript, hf, hk]
    · by_cases h1 : e.event = 1
      · cases hf : st.func2counters e.func <;>
          simp [h0, h1, PyFunc.assign, PyFunc.subscript, hf, hk]
      · cases hf : st.func2counters e.func <;>
          simp [h0, h1, PyFunc.assign, PyFunc.subscript, hf, hk]

theorem PyFunc.trace_snoc (events : List PyFunc.halide_trace_event_t)
    (e : PyFunc.halide_trace_event_t) :
    PyFunc.trace (events ++ [e]) = (PyFunc.count_accesses_safe (PyFunc.trace events) e).1 := by
  unfold PyFunc.trace
  rw [List.foldl_append]
  rfl

theorem PyFunc.occurrences_snoc (events : List PyFunc.halide_trace_event_t)
    (e : PyFunc.halide_trace_event_t) (etype : Int) (key : List Char) :
    PyFunc.occurrences (events ++ [e]) etype key
      = PyFunc.occurrences events etype key
        + (if e.event = etype ∧ PyFunc.sanitize_name e.func = key then 1 else 0) := by
  unfold PyFunc.occurrences
  rw [List.filter_append, List.length_append]
  by_cases h : e.event = etype ∧ PyFunc.sanitize_name e.func = key
  · simp [List.filter_cons, h]
  · simp [List.filter_cons, h]

/-- On traces whose func names carry no `'$'` the counters are exact: a name that
occurred has the numbers of its store and load events, any other name has no entry. -/
theorem PyFunc.trace_plain (events : List PyFunc.halide_trace_event_t)
    (h : ∀ e ∈ events, Char.ofNat 36 ∉ e.func) (n : List Char) :
    (PyFunc.trace events).func2counters n
      = if ∃ e ∈ events, e.func = n then
          some ⟨PyFunc.occurrences events 1 n, PyFunc.occurrences events 0 n⟩
        else none := by
  induction events using List.reverseRecOn with
  | nil => simp [PyFunc.trace, PyFunc.reset_counters]
  | append_singleton es e ih =>
    have hes : ∀ e ∈ es, Char.ofNat 36 ∉ e.func := fun a ha => h a (by simp [ha])
    have he : Char.ofNat 36 ∉ e.func := h e (by simp)
    have ih := ih hes
    rw [PyFunc.trace_snoc, PyFunc.count_accesses_safe_plain _ e he n,
      PyFunc.occurrences_snoc, PyFunc.occurrences_snoc, PyFunc.sanitize_name_plain e.func he]
    by_cases hn : n = e.func
    · subst hn
      have hex : ∃ a ∈ es ++ [e], a.func = e.func := ⟨e, by simp, rfl⟩
      rw [if_pos rfl, if_pos hex]
      unfold PyFunc.subscript
      rw [ih]
      by_cases hin : ∃ a ∈ es, a.func = e.func
      · simp only [hin, if_true, Option.getD_some, and_true]
      · have hz : ∀ etype, PyFunc.occurrences es etype e.func = 0 := by
          intro etype
          unfold PyFunc.occurrences
          have : es.filter (fun a => decide (a.event = etype ∧
              PyFunc.sanitize_name a.func = e.func)) = [] := by
            rw [List.filter_eq_nil_iff]
            intro a ha hd
            have hd := of_decide_eq_true hd
            rw [PyFunc.sanitize_name_plain a.func (hes a ha)] at hd
            exact hin ⟨a, ha, hd.2⟩
          rw [this]
          rfl
        simp only [hin, if_false, Option.getD_none, and_true, hz]
    · have hne : ¬ e.func = n := fun x => hn x.symm
      rw [if_neg hn, ih]
      have hiff : (∃ a ∈ es ++ [e], a.func = n) ↔ ∃ a ∈ es, a.func = n := by
        constructor
        · rintro ⟨a, ha, han⟩
          rcases List.mem_append.1 ha with ha | ha
          · exact ⟨a, ha, han⟩
          · rw [List.mem_singleton] at ha
            rw [ha] at han
            exact absurd han hne
        · rintro ⟨a, ha, han⟩
          exact ⟨a, by simp [ha], han⟩
      simp only [hiff, hne, and_false, if_false, add_zero]

/-- The claim of C30 holds on traces whose func names carry no `'$'`. -/
theorem PyFunc.counts_exact_of_plain (events : List PyFunc.halide_trace_event_t)
    (h : ∀ e ∈ events, Char.ofNat 36 ∉ e.func) :
    (∀ e ∈ events,
      PyFunc.get_loads (PyFunc.trace events).func2counters (PyFunc.sanitize_name e.func)
        = PyFunc.occurrences events 0 (PyFunc.sanitize_name e.func) ∧
      PyFunc.get_stores (PyFunc.trace events).func2counters (PyFunc.sanitize_name e.func)
        = PyFunc.occurrences events 1 (PyFunc.sanitize_name e.func)) ∧
    ∀ n, (¬ ∃ e ∈ events, e.func = n) →
      PyFunc.get_loads (PyFunc.trace events).func2counters n = -1 ∧
      PyFunc.get_stores (PyFunc.trace events).func2counters n = -1 := by
  constructor
  · intro e he
    have hex : ∃ a ∈ events, a.func = e.func := ⟨e, he, rfl⟩
    rw [PyFunc.sanitize_name_plain e.func (h e he)]
    unfold PyFunc.get_loads PyFunc.get_stores PyFunc.subscript
    rw [PyFunc.trace_plain events h e.func, if_pos hex]
    simp
  · intro n hn
    unfold PyFunc.get_loads PyFunc.get_stores
    rw [PyFunc.trace_plain events h n, if_neg hn]
    simp

/-! ## Splitting and replacing with any non-empty delimiter -/

/-- What `find_in` returns: the least offset at which `delim` begins. -/
theorem find_in_spec (delim : List Char) : ∀ (rest : List Char) (idx : Nat),
    (∀ j, find_in delim rest idx = some j →
      ∃ k, j = idx + k ∧ k ≤ rest.length ∧ delim <+: rest.drop k ∧
        ∀ i < k, ¬ delim <+: rest.drop i) ∧
    (find_in delim rest idx = none → ∀ i, ¬ delim <+: rest.drop i) := by
  intro rest
  induction rest with
  | nil =>
    intro idx
    unfold find_in
    by_cases hp : delim.isPrefixOf [] = true
    · rw [if_pos hp]
      refine ⟨?_, by intro h; simp at h⟩
      intro j hj
      simp only [Option.some.injEq] at hj
      exact ⟨0, by omega, le_refl _, List.isPrefixOf_iff_prefix.1 hp, by intro i hi; omega⟩
    · rw [if_neg hp]
      refine ⟨by intro j hj; simp at hj, ?_⟩
      intro _ i hpre
      rw [List.drop_nil] at hpre
      exact hp (List.isPrefixOf_iff_prefix.2 hpre)
  | cons c t ih =>
    intro idx
    unfold find_in
    by_cases hp : delim.isPrefixOf (c :: t) = true
    · rw [if_pos hp]
      refine ⟨?_, by intro h; simp at h⟩
      intro j hj
      simp only [Option.some.injEq] at hj
      exact ⟨0, by omega, Nat.zero_le _, List.isPrefixOf_iff_prefix.1 hp,
        by intro i hi; omega⟩
    · rw [if_neg hp]
      have hnp : ¬ delim <+: c :: t := fun h => hp (List.isPrefixOf_iff_prefix.2 h)
      obtain ⟨ih1, ih2⟩ := ih (idx + 1)
      constructor
      · intro j hj
        obtain ⟨k, hk, hlen, hpre, hmin⟩ := ih1 j hj
        refine ⟨k + 1, by omega, by simp only [List.length_cons]; omega, by simpa using hpre, ?_⟩
        intro i hi
        cases i with
        | zero => simpa using hnp
        | succ i => simpa using hmin i (by omega)
      · intro hn i
        cases i with
        | zero => simpa using hnp
        | succ i => simpa using ih2 hn i

theorem find_in_shift (delim : List Char) : ∀ (rest : List Char) (idx : Nat),
    find_in delim rest idx = (find_in delim rest 0).map (fun k => idx + k) := by
  intro rest
  induction rest with
  | nil => intro idx; unfold find_in; split_ifs <;> simp
  | cons c t ih =>
    intro idx
    unfold find_in
    split_ifs
    · simp
    · rw [ih (idx + 1), ih (0 + 1)]
      cases find_in delim t 0 with
      | none => rfl
      | some k => simp only [Option.map_some']; congr 1; omega

theorem string_find_suffix (delim pre rest : List Char) :
    string_find (pre ++ rest) delim pre.length
      = (find_in delim rest 0).map (fun k => pre.length + k) := by
  unfold string_find
  have h : pre.length ≤ (pre ++ rest).length := by simp
  rw [if_pos h, List.drop_left, find_in_shift]

/-- An occurrence found at offset `k` cuts `rest` into the piece before it, the delimiter and
what follows. -/
theorem find_in_cut (delim rest : List Char) (k : Nat) (h : find_in delim rest 0 = some k) :
    k + delim.length ≤ rest.length ∧
    rest = rest.take k ++ delim ++ rest.drop (k + delim.length) := by
  obtain ⟨k', hk, _, hpre, _⟩ := (find_in_spec delim rest 0).1 k h
  have hk' : k' = k := by omega
  subst hk'
  obtain ⟨t, ht⟩ := hpre
  have hlen : (rest.drop k').length = delim.length + t.length := by
    rw [← ht, List.length_append]
  rw [List.length_drop] at hlen
  have hdrop : rest.drop (k' + delim.length) = t := by
    rw [← List.drop_drop, ← ht, List.drop_left]
  refine ⟨by omega, ?_⟩
  rw [hdrop, List.append_assoc, ht, List.take_append_drop]

theorem split_parts_ne_nil (delim : List Char) (n : Nat) (rest : List Char) :
    split_parts delim n rest ≠ [] := by
  cases n with
  | zero => simp [split_parts]
  | succ n =>
    unfold split_parts
    cases find_in delim rest 0 <;> simp

theorem infix_drop (delim l : List Char) (h : delim <:+: l) : ∃ i, delim <+: l.drop i := by
  obtain ⟨s, t, hst⟩ := h
  refine ⟨s.length, t, ?_⟩
  rw [← hst, List.append_assoc, List.drop_left]

/-- The pieces joined by the delimiter are the text, and no piece holds the delimiter. -/
theorem split_parts_spec (delim : List Char) (hd : delim ≠ []) : ∀ (n : Nat) (rest : List Char),
    rest.length ≤ n →
    List.intercalate delim (split_parts delim n rest) = rest ∧
    ∀ p ∈ split_parts delim n rest, ¬ delim <:+: p := by
  have hdl : 0 < delim.length := List.length_pos.2 hd
  have hlast : ∀ rest : List Char, find_in delim rest 0 = none →
      ∀ p ∈ [rest], ¬ delim <:+: p := by
    intro rest hnone p hp hin
    rw [List.mem_singleton] at hp
    subst hp
    obtain ⟨i, hi⟩ := infix_drop delim p hin
    exact (find_in_spec delim p 0).2 hnone i hi
  intro n
  induction n with
  | zero =>
    intro rest hlen
    have hnil : rest = [] := List.length_eq_zero.1 (by omega)
    subst hnil
    have hnone : find_in delim [] 0 = none := by
      unfold find_in
      have : ¬ delim.isPrefixOf [] = true := by
        intro h
        have := List.isPrefixOf_iff_prefix.1 h
        exact hd (List.prefix_nil.1 this)
      rw [if_neg this]
    unfold split_parts
    exact ⟨intercalate_single _ _, hlast [] hnone⟩
  | succ n ih =>
    intro rest hlen
    unfold split_parts
    cases hf : find_in delim rest 0 with
    | none => exact ⟨intercalate_single _ _, hlast rest hf⟩
    | some k =>
      simp only
      obtain ⟨hk, hcut⟩ := find_in_cut delim rest k hf
      have hlen' : (rest.drop (k + delim.length)).length ≤ n := by
        rw [List.length_drop]
        omega
      obtain ⟨hj, hno⟩ := ih (rest.drop (k + delim.length)) hlen'
      have hne := split_parts_ne_nil delim n (rest.drop (k + delim.length))
      constructor
      · obtain ⟨q, qs, hq⟩ := List.exists_cons_of_ne_nil hne
        rw [hq, intercalate_cons_cons, ← hq, hj]
        exact hcut.symm
      · intro p hp hin
        rcases List.mem_cons.1 hp with rfl | hp
        · obtain ⟨i, hi⟩ := infix_drop delim _ hin
          obtain ⟨k', hk', _, _, hmin⟩ := (find_in_spec delim rest 0).1 k hf
          have hkk : k' = k := by omega
          subst hkk
          by_cases hik : i < k'
          · apply hmin i hik
            rw [List.drop_take] at hi
            exact hi.trans (List.take_prefix _ _)
          · have hnil : (rest.take k').drop i = [] := by
              apply List.drop_eq_nil_of_le
              rw [List.length_take]
              omega
            rw [hnil] at hi
            exact hd (List.prefix_nil.1 hi)
        · exact hno p hp hin

/-- The loop of `split_string` ends, with the pieces of the text not yet scanned. -/
theorem split_loop_parts (delim : List Char) (hd : delim ≠ []) : ∀ (n : Nat)
    (rest pre : List Char) (elements : List (List Char)), rest.length ≤ n →
    (split_string_loop (pre ++ rest) delim (n + 1) pre.length elements).map
        (split_string_finish (pre ++ rest))
      = some (elements ++ split_parts delim n rest) := by
  have hdl : 0 < delim.length := List.length_pos.2 hd
  have hfin : ∀ (rest pre : List Char) (elements : List (List Char)),
      split_string_finish (pre ++ rest) (pre.length, elements) = elements ++ [rest] := by
    intro rest pre elements
    unfold split_string_finish
    simp
  intro n
  induction n with
  | zero =>
    intro rest pre elements hlen
    have hnil : rest = [] := List.length_eq_zero.1 (by omega)
    subst hnil
    have hnone : find_in delim [] 0 = none := by
      unfold find_in
      have : ¬ delim.isPrefixOf [] = true := by
        intro h
        have := List.isPrefixOf_iff_prefix.1 h
        exact hd (List.prefix_nil.1 this)
      rw [if_neg this]
    unfold split_string_loop
    rw [string_find_suffix, hnone]
    simp only [Option.map_none', Option.map_some', hfin]
    rfl
  | succ n ih =>
    intro rest pre elements hlen
    unfold split_string_loop
    rw [string_find_suffix]
    cases hf : find_in delim rest 0 with
    | none =>
      simp only [Option.map_none', Option.map_some', hfin]
      unfold split_parts
      rw [hf]
    | some k =>
      simp only [Option.map_some']
      obtain ⟨hk, hcut⟩ := find_in_cut delim rest k hf
      have hsub : substr (pre ++ rest) pre.length (pre.length + k - pre.length) = rest.take k := by
        unfold substr
        rw [List.drop_left, Nat.add_sub_cancel_left]
      rw [hsub]
      have hsrc : pre ++ rest
          = (pre ++ rest.take k ++ delim) ++ rest.drop (k + delim.length) := by
        conv => lhs; rw [hcut]
        simp only [List.append_assoc]
      have hstart : pre.length + k + delim.length = (pre ++ rest.take k ++ delim).length := by
        simp only [List.length_append, List.length_take]
        omega
      rw [hstart, hsrc]
      have hlen' : (rest.drop (k + delim.length)).length ≤ n := by
        rw [List.length_drop]
        omega
      rw [ih (rest.drop (k + delim.length)) (pre ++ rest.take k ++ delim)
        (elements ++ [rest.take k]) hlen']
      conv => rhs; unfold split_parts
      rw [hf]
      simp

/-- The loop of `replace_all` ends, with the pieces of the text not yet scanned joined by
the replacement. -/
theorem replace_loop_parts (find replace : List Char) (hd : find ≠ []) : ∀ (n : Nat)
    (rest done : List Char), rest.length ≤ n →
    replace_all_loop find replace (n + 1) done.length (done ++ rest)
      = some (done ++ List.intercalate replace (split_parts find n rest)) := by
  have hdl : 0 < find.length := List.length_pos.2 hd
  intro n
  induction n with
  | zero =>
    intro rest done hlen
    have hnil : rest = [] := List.length_eq_zero.1 (by omega)
    subst hnil
    have hnone : find_in find [] 0 = none := by
      unfold find_in
      have : ¬ find.isPrefixOf [] = true := by
        intro h
        have := List.isPrefixOf_iff_prefix.1 h
        exact hd (List.prefix_nil.1 this)
      rw [if_neg this]
    unfold replace_all_loop
    rw [string_find_suffix, hnone]
    simp [split_parts, intercalate_single]
  | succ n ih =>
    intro rest done hlen
    unfold replace_all_loop
    rw [string_find_suffix]
    cases hf : find_in find rest 0 with
    | none =>
      simp only [Option.map_none']
      unfold split_parts
      rw [hf]
      simp [intercalate_single]
    | some k =>
      simp only [Option.map_some']
      obtain ⟨hk, hcut⟩ := find_in_cut find rest k hf
      have hrep : string_replace (done ++ rest) (done.length + k) find.length replace
          = (done ++ rest.take k ++ replace) ++ rest.drop (k + find.length) := by
        unfold string_replace
        have h1 : (done ++ rest).take (done.length + k) = done ++ rest.take k := by
          rw [List.take_append]
        have h2 : (done ++ rest).drop (done.length + k + find.length)
            = rest.drop (k + find.length) := by
          rw [Nat.add_assoc, List.drop_append]
        rw [h1, h2]
      have hpos : done.length + k + replace.length
          = (done ++ rest.take k ++ replace).length := by
        simp only [List.length_append, List.length_take]
        omega
      rw [hrep, hpos]
      have hlen' : (rest.drop (k + find.length)).length ≤ n := by
        rw [List.length_drop]
        omega
      rw [ih (rest.drop (k + find.length)) (done ++ rest.take k ++ replace) hlen']
      conv => rhs; unfold split_parts
      rw [hf]
      simp only
      obtain ⟨q, qs, hq⟩ := List.exists_cons_of_ne_nil
        (split_parts_ne_nil find n (rest.drop (k + find.length)))
      rw [hq, intercalate_cons_cons]
      simp only [List.append_assoc]

/-- C29: for every source and every non-empty delimiter, `split_string` ends and returns a
non-empty list; its elements joined with the delimiter are the source, no element contains
the delimiter, and `replace_all(source, delim, r)` ends with those same elements joined by
`r`. -/
theorem split_string_replace_all (source delim r : List Char) (hd : delim ≠ []) :
    ∃ parts, split_string source delim = some parts ∧ parts ≠ [] ∧
      List.intercalate delim parts = source ∧
      (∀ p ∈ parts, ¬ delim <:+: p) ∧
      replace_all source delim r = some (List.intercalate r parts) := by
  refine ⟨split_parts delim source.length source, ?_, split_parts_ne_nil _ _ _,
    (split_parts_spec delim hd _ source (le_refl _)).1,
    (split_parts_spec delim hd _ source (le_refl _)).2, ?_⟩
  · have := split_loop_parts delim hd source.length source [] [] (le_refl _)
    simpa [split_string] using this
  · have := replace_loop_parts delim r hd source.length source [] (le_refl _)
    simpa [replace_all] using this

theorem split_string_replace_all_witness :
    ∃ parts, split_string "a::b::".toList "::".toList = some parts ∧ parts ≠ [] ∧
      List.intercalate "::".toList parts = "a::b::".toList ∧
      (∀ p ∈ parts, ¬ "::".toList <:+: p) ∧
      replace_all "a::b::".toList "::".toList ":".toList
        = some (List.intercalate ":".toList parts) :=
  split_string_replace_all "a::b::".toList "::".toList ":".toList (by decide)

/-! ## The run of `main`: how often the module is called, and what its status does -/

theorem adjust_buffer_dims_total (verbose : Bool) (w : Nat) (title name : List Char)
    (dims_needed : Nat) (b : Buffer) :
    ∃ r, adjust_buffer_dims verbose w title name dims_needed b = some r := by
  unfold adjust_buffer_dims
  simp only
  by_cases hgt : b.dimensions > dims_needed
  · rw [if_pos hgt]
    have hs := slice_loop_take dims_needed b.dimensions b (by unfold Buffer.dimensions; omega)
    rw [hs]
    exact ⟨_, rfl⟩
  · rw [if_neg hgt]
    by_cases hlt : b.dimensions < dims_needed
    · rw [if_pos hlt]
      obtain ⟨extra, he, _, _⟩ := embed_loop_append w dims_needed dims_needed b (by omega)
      rw [he]
      exact ⟨_, rfl⟩
    · rw [if_neg hlt]
      exact ⟨_, rfl⟩

theorem save_output_total (env : Environment) (verbose : Bool) (w : Nat)
    (state : List Slot × List Diagnostic) (arg_pair : List Char × ArgData) :
    ∃ r, save_output env verbose w state arg_pair = some r := by
  unfold save_output
  simp only
  split_ifs with hk hr
  · cases env.save_query arg_pair.2.raw_string with
    | check_failed msg => exact ⟨_, rfl⟩
    | refused => exact ⟨_, rfl⟩
    | done savable_types =>
      simp only
      split_ifs with hd
      · obtain ⟨r, hr⟩ := adjust_buffer_dims_total verbose w "Output".toList arg_pair.1
          (best_save_format (slot_buffer state.1 arg_pair.2.index) savable_types).dimensions.toNat
          (slot_buffer state.1 arg_pair.2.index)
        rw [hr]
        simp only
        cases env.save _ arg_pair.2.raw_string <;> exact ⟨_, rfl⟩
      · simp only
        cases env.save _ arg_pair.2.raw_string <;> exact ⟨_, rfl⟩
  · exact ⟨_, rfl⟩
  · exact ⟨_, rfl⟩

theorem save_outputs_total (env : Environment) (verbose : Bool) (w : Nat) :
    ∀ (args : List (List Char × ArgData)) (state : List Slot × List Diagnostic),
      ∃ r, save_outputs env verbose w args state = some r := by
  intro args
  induction args with
  | nil => intro state; exact ⟨_, rfl⟩
  | cons p rest ih =>
    intro state
    unfold save_outputs
    obtain ⟨r, hr⟩ := save_output_total env verbose w state p
    rw [hr]
    cases r with
    | error e => exact ⟨_, rfl⟩
    | ok s => exact ih s

theorem call_ignored_iterate (env : Environment) : ∀ (n : Nat) (state : Nat × List Slot),
    (Nat.iterate (call_ignored env) n state).1 = state.1 + n := by
  intro n
  induction n with
  | zero => intro state; rfl
  | succ n ih =>
    intro state
    rw [Function.iterate_succ_apply, ih]
    unfold call_ignored
    simp only
    omega

/-- The benchmark calls its operation `samples * iterations` times. -/
theorem benchmark_calls (env : Environment) (samples iterations : Int) (state : Nat × List Slot) :
    (benchmark samples iterations (call_ignored env) state).1
      = state.1 + samples.toNat * iterations.toNat := by
  unfold benchmark
  generalize samples.toNat = s
  induction s generalizing state with
  | zero => simp
  | succ s ih =>
    rw [Function.iterate_succ_apply, ih, call_ignored_iterate]
    rw [Nat.succ_mul]
    omega

/-- The number of calls of the module that `run_filter` makes after a bounds query that
returned 0: one for a single run, `1 + samples * iterations` for a benchmark. -/
theorem run_filter_invocations (env : Environment) (w : Nat) (st : MainState) (rs : RunState)
    (h0 : (env.halide_rungen_redirect_argv 0 rs.filter_argv).1 = 0) :
    ∃ outcome, run_filter env w st rs
      = some ⟨1 + (if st.benchmark then
            1 + st.benchmark_samples.toNat * st.benchmark_iterations.toNat else 1), outcome⟩ := by
  unfold run_filter
  simp only [h0, ne_eq, not_true_eq_false, if_false]
  by_cases hb : st.benchmark = true
  · simp only [hb, if_true]
    have hc := benchmark_calls env st.benchmark_samples st.benchmark_iterations
      (call_ignored env (1, (List.foldl (allocate_output st.verbose w)
        ((env.halide_rungen_redirect_argv 0 rs.filter_argv).2, rs.diagnostics) st.args).1))
    have h1 : (call_ignored env (1, (List.foldl (allocate_output st.verbose w)
        ((env.halide_rungen_redirect_argv 0 rs.filter_argv).2, rs.diagnostics) st.args).1)).1
        = 2 := rfl
    rw [h1] at hc
    have hc' : (benchmark st.benchmark_samples st.benchmark_iterations (call_ignored env)
        (call_ignored env (1, (List.foldl (allocate_output st.verbose w)
        ((env.halide_rungen_redirect_argv 0 rs.filter_argv).2, rs.diagnostics) st.args).1))).1
        = 1 + (1 + st.benchmark_samples.toNat * st.benchmark_iterations.toNat) := by
      rw [hc]
      omega
    rw [hc']
    obtain ⟨r, hr⟩ := save_outputs_total env st.verbose w st.args
      ((benchmark st.benchmark_samples st.benchmark_iterations (call_ignored env)
        (call_ignored env (1, (List.foldl (allocate_output st.verbose w)
        ((env.halide_rungen_redirect_argv 0 rs.filter_argv).2, rs.diagnostics) st.args).1))).2,
        (List.foldl (allocate_output st.verbose w)
        ((env.halide_rungen_redirect_argv 0 rs.filter_argv).2, rs.diagnostics) st.args).2
          ++ info st.verbose "Benchmarking filter...".toList)
    rw [hr]
    cases r with
    | error e => exact ⟨_, rfl⟩
    | ok s => exact ⟨_, rfl⟩
  · simp only [hb, Bool.false_eq_true, if_false]
    by_cases h1 : (env.halide_rungen_redirect_argv 1 (List.foldl (allocate_output st.verbose w)
        ((env.halide_rungen_redirect_argv 0 rs.filter_argv).2, rs.diagnostics) st.args).1).1 = 0
    swap
    · rw [if_pos h1]
      exact ⟨_, rfl⟩
    · rw [if_neg (not_not.2 h1)]
      obtain ⟨r, hr⟩ := save_outputs_total env st.verbose w st.args
        ((env.halide_rungen_redirect_argv 1 (List.foldl (allocate_output st.verbose w)
          ((env.halide_rungen_redirect_argv 0 rs.filter_argv).2, rs.diagnostics) st.args).1).2,
          (List.foldl (allocate_output st.verbose w)
          ((env.halide_rungen_redirect_argv 0 rs.filter_argv).2, rs.diagnostics) st.args).2
            ++ info st.verbose "Running filter...".toList)
      rw [hr]
      cases r with
      | error e => exact ⟨_, rfl⟩
      | ok s => exact ⟨_, rfl⟩

theorem main_of_resolved (env : Environment) (w : Nat) (md : halide_filter_metadata_t)
    (argv : List (List Char)) (st : MainState) (diagnostics : List Diagnostic) (rs : RunState)
    (hres : main_resolve w md argv = some (.ok (.resolved st diagnostics)))
    (hbq : bounds_query_state env w md st diagnostics = some (.ok rs)) :
    main env w md argv = run_filter env w st rs := by
  unfold main
  rw [hres]
  simp only
  rw [hbq]

theorem resolve_inputs_mute (env : Environment) (verbose : Bool) (w : Nat) :
    ∀ (args : List (List Char × ArgData)) (rs : RunState),
      resolve_inputs env.mute verbose w args rs = resolve_inputs env verbose w args rs := by
  intro args
  induction args with
  | nil => intro rs; rfl
  | cons p rest ih =>
    intro rs
    unfold resolve_inputs
    have h : resolve_input env.mute verbose w p.1 p.2 rs = resolve_input env verbose w p.1 p.2 rs :=
      rfl
    rw [h]
    cases resolve_input env verbose w p.1 p.2 rs with
    | none => rfl
    | some r =>
      cases r with
      | error e => rfl
      | ok rs' => exact ih rs'

theorem save_outputs_mute (env : Environment) (verbose : Bool) (w : Nat) :
    ∀ (args : List (List Char × ArgData)) (state : List Slot × List Diagnostic),
      save_outputs env.mute verbose w args state = save_outputs env verbose w args state := by
  intro args
  induction args with
  | nil => intro state; rfl
  | cons p rest ih =>
    intro state
    unfold save_outputs
    have h : save_output env.mute verbose w state p = save_output env verbose w state p := rfl
    rw [h]
    cases save_output env verbose w state p with
    | none => rfl
    | some r =>
      cases r with
      | error e => rfl
      | ok s => exact ih s

theorem bounds_query_state_mute (env : Environment) (w : Nat) (md : halide_filter_metadata_t)
    (st : MainState) (diagnostics : List Diagnostic) :
    bounds_query_state env.mute w md st diagnostics = bounds_query_state env w md st diagnostics := by
  unfold bounds_query_state
  simp only [resolve_inputs_mute]

/-- In a benchmark the statuses that the warm-up and the benchmarked calls return play no
part. -/
theorem run_filter_mute (env : Environment) (w : Nat) (st : MainState) (rs : RunState)
    (hb : st.benchmark = true) :
    run_filter env.mute w st rs = run_filter env w st rs := by
  unfold run_filter
  have h0 : env.mute.halide_rungen_redirect_argv 0 rs.filter_argv
      = env.halide_rungen_redirect_argv 0 rs.filter_argv := rfl
  have hc : call_ignored env.mute = call_ignored env := rfl
  simp only [h0, hc, hb, if_true, save_outputs_mute]

/-- C23 (counterexample): a benchmark run in which every call of the module after the bounds
query returns the status 7.  The run is not fatal: the 32 calls are made and `main` returns
0 without any report of the status. -/
theorem benchmark_status_not_fatal :
    (∀ k filter_argv, k ≠ 0 →
      ((env_status 7).halide_rungen_redirect_argv k filter_argv).1 = 7) ∧
    main (env_status 7) 32 metadata_in_out
        ["rungen".toList, "in=zero:[4,5]".toList, "--benchmark".toList]
      = some ⟨32, .ok []⟩ ∧
    RunResult.exit_code ⟨32, .ok []⟩ = 0 := by
  refine ⟨?_, by decide, by decide⟩
  intro k filter_argv hk
  simp [env_status, hk]

/-- C23 (amended): in a run that reaches the bounds query, a non-zero status of the bounds
query is fatal, and so is a non-zero status of the single call of a run that is no
benchmark: the run ends with exit code 1 and the message that carries the status.  In a
benchmark the statuses of the warm-up and of the benchmarked calls are ignored: the run ends
as it does when these calls return 0. -/
theorem main_status_fatal (env : Environment) (w : Nat) (md : halide_filter_metadata_t)
    (argv : List (List Char)) (st : MainState) (diagnostics : List Diagnostic) (rs : RunState)
    (hres : main_resolve w md argv = some (.ok (.resolved st diagnostics)))
    (hbq : bounds_query_state env w md st diagnostics = some (.ok rs)) :
    ((env.halide_rungen_redirect_argv 0 rs.filter_argv).1 ≠ 0 →
      main env w md argv
        = some ⟨1, .error ("Bounds query failed with result code: ".toList
            ++ decimal (env.halide_rungen_redirect_argv 0 rs.filter_argv).1)⟩) ∧
    ((env.halide_rungen_redirect_argv 0 rs.filter_argv).1 = 0 → st.benchmark = false →
      ∀ status, status ≠ 0 →
      (env.halide_rungen_redirect_argv 1
        (st.args.foldl (allocate_output st.verbose w)
          ((env.halide_rungen_redirect_argv 0 rs.filter_argv).2, rs.diagnostics)).1).1 = status →
      main env w md argv
        = some ⟨2, .error ("Filter failed with result code: ".toList ++ decimal status)⟩) ∧
    (∀ r, main env w md argv = some r → (∃ e, r.outcome = .error e) → r.exit_code = 1) ∧
    (st.benchmark = true → main env.mute w md argv = main env w md argv) := by
  rw [main_of_resolved env w md argv st diagnostics rs hres hbq]
  refine ⟨?_, ?_, ?_, ?_⟩
  · intro h
    unfold run_filter
    simp only [h, ne_eq, not_false_eq_true, if_true]
  · intro h0 hb status hs h1
    unfold run_filter
    simp only [h0, hb, ne_eq, not_true_eq_false, if_false, Bool.false_eq_true, h1, hs,
      not_false_eq_true, if_true]
  · rintro r _ ⟨e, he⟩
    unfold RunResult.exit_code
    rw [he]
  · intro hb
    rw [main_of_resolved env.mute w md argv st diagnostics rs hres
      ((bounds_query_state_mute env w md st diagnostics).trans hbq)]
    exact run_filter_mute env w st rs hb

theorem main_status_fatal_witness :
    main (env_status 7) 32 metadata_in_out ["rungen".toList, "in=zero:[4,5]".toList,
        "out=o.png".toList]
      = some ⟨2, .error ("Filter failed with result code: 7".toList)⟩ :=
  (main_status_fatal (env_status 7) 32 metadata_in_out
    ["rungen".toList, "in=zero:[4,5]".toList, "out=o.png".toList]
    { args := [("in".toList, ⟨0, ⟨"in".toList, .halide_argument_kind_input_buffer, 2,
                  ⟨halide_type_uint, 8, 1⟩⟩, "zero:[4,5]".toList⟩),
               ("out".toList, ⟨1, ⟨"out".toList, .halide_argument_kind_output_buffer, 2,
                  ⟨halide_type_uint, 8, 1⟩⟩, "o.png".toList⟩)]
      found := ["in".toList, "out".toList]
      default_output_shape := []
      unknown_args := []
      benchmark := false
      track_memory := false
      describe := false
      benchmark_samples := 3
      benchmark_iterations := 10
      verbose := false
      halide_print_to_stdout := true }
    []
    { default_output_shape := [⟨0, 4, 0⟩, ⟨0, 5, 0⟩]
      filter_argv := [.buffer ⟨⟨1, 8, 1⟩, [⟨0, 4, 0⟩, ⟨0, 5, 0⟩]⟩,
                      .buffer ⟨⟨1, 8, 1⟩, [⟨0, 4, 0⟩, ⟨0, 5, 0⟩]⟩]
      diagnostics := [] }
    (by decide) (by decide)).2.1 (by decide) (by decide) 7 (by decide) (by decide)

/-! ## The pseudo-source `zero:[...]` -/

theorem parse_extents_loop_strides (w : Nat) (text : List Char) :
    ∀ (entries : List (List Char)) (result shape : Shape),
      parse_extents_loop w text entries result = .ok shape →
      (∀ d ∈ result, d.stride = 0) → ∀ d ∈ shape, d.stride = 0 := by
  intro entries
  induction entries with
  | nil =>
    intro result shape h hr
    simp only [parse_extents_loop, Except.ok.injEq] at h
    rw [← h]
    exact hr
  | cons s rest ih =>
    intro result shape h hr
    simp only [parse_extents_loop] at h
    split_ifs at h
    apply ih _ shape h
    intro d hd
    rcases List.mem_append.1 hd with hd | hd
    · exact hr d hd
    · rw [List.mem_singleton] at hd
      rw [hd]

/-- Every shape that `parse_extents` returns has the stride 0 on every axis. -/
theorem parse_extents_strides (w : Nat) (extent_list : List Char) (shape : Shape)
    (h : parse_extents w extent_list = some (.ok shape)) : ∀ d ∈ shape, d.stride = 0 := by
  unfold parse_extents at h
  split_ifs at h
  · simp at h
  · cases hs : split_string (substr extent_list 1 (extent_list.length - 2)) ",".toList with
    | none => rw [hs] at h; simp at h
    | some extents =>
      rw [hs] at h
      simp only [Option.some.injEq] at h
      exact parse_extents_loop_strides w extent_list extents [] shape h (by simp)

/-- The buffer that `load_input` returns for a pseudo-source `zero:` followed by an extent
list has the stride 0 on every axis: the shape of `parse_extents` goes to `allocate_buffer`
as it is. -/
theorem load_input_zero (env : Environment) (verbose : Bool) (w : Nat)
    (extent_list : List Char) (metadata : halide_filter_argument_t)
    (hc : Char.ofNat 58 ∉ extent_list) (d : List Diagnostic) (b : Buffer)
    (h : load_input env verbose w ("zero:".toList ++ extent_list) metadata = some (.ok (d, b))) :
    ∀ x ∈ b.dim, x.stride = 0 := by
  have hsplit : split_string ("zero:".toList ++ extent_list) ":".toList
      = some ["zero".toList, extent_list] := by
    have := split_string_join (Char.ofNat 58) ["zero".toList, extent_list] (by simp)
      (by
        intro p hp
        rcases List.mem_cons.1 hp with rfl | hp
        · decide
        · rw [List.mem_singleton] at hp
          rw [hp]
          exact hc)
    simpa [List.intercalate] using this
  unfold load_input at h
  rw [hsplit] at h
  have h2 : ¬ ((["zero".toList, extent_list] : List (List Char)).length ≠ 2 ∨
      ((["zero".toList, extent_list] : List (List Char)).getD 0 []).length = 1) := by
    simp
  have h0 : ([("zero".toList : List Char), extent_list] : List (List Char)).getD 0 []
      = "zero".toList := rfl
  have h1 : ([("zero".toList : List Char), extent_list] : List (List Char)).getD 1 []
      = extent_list := rfl
  simp only at h
  rw [if_neg h2, h0, h1, if_pos rfl] at h
  cases hp : parse_extents w extent_list with
  | none => rw [hp] at h; simp at h
  | some r =>
    rw [hp] at h
    cases r with
    | error e => simp at h
    | ok shape =>
      simp only at h
      cases hd : dynamic_type_dispatch (fun _ => true) (allocate_buffer metadata.type shape).type with
      | error e => rw [hd] at h; simp at h
      | ok t =>
        rw [hd] at h
        simp only [Option.some.injEq, Except.ok.injEq, Prod.mk.injEq] at h
        rw [← h.2]
        exact parse_extents_strides w extent_list shape hp

/-- C26 (failing input): for the pseudo-source `zero:[4,5]` of a 2-D input of `uint8`,
`load_input` allocates the buffer with the shape that `parse_extents` returns, whose strides
are 0 on both axes; the extents 4 and 5 are kept. -/
theorem load_input_zero_strides :
    load_input (env_status 0) false 32 "zero:[4,5]".toList
        ⟨"in".toList, .halide_argument_kind_input_buffer, 2, ⟨halide_type_uint, 8, 1⟩⟩
      = some (.ok ([], ⟨⟨halide_type_uint, 8, 1⟩, [⟨0, 4, 0⟩, ⟨0, 5, 0⟩]⟩)) ∧
    parse_extents 32 "[4,5]".toList = some (.ok [⟨0, 4, 0⟩, ⟨0, 5, 0⟩]) ∧
    allocate_buffer ⟨halide_type_uint, 8, 1⟩ [⟨0, 4, 0⟩, ⟨0, 5, 0⟩]
      = ⟨⟨halide_type_uint, 8, 1⟩, [⟨0, 4, 0⟩, ⟨0, 5, 0⟩]⟩ := by
  decide

/-! ## The order of the keys -/

theorem char_toNat_inj (a b : Char) (h : a.toNat = b.toNat) : a = b := by
  have h1 : Char.ofNat a.toNat = Char.ofNat b.toNat := by rw [h]
  rwa [Char.ofNat_toNat, Char.ofNat_toNat] at h1

theorem string_lt_irrefl : ∀ a : List Char, string_lt a a = false := by
  intro a
  induction a with
  | nil => rfl
  | cons x xs ih => simp [string_lt, ih]

theorem string_lt_trans : ∀ a b c : List Char, string_lt a b = true → string_lt b c = true →
    string_lt a c = true := by
  intro a
  induction a with
  | nil =>
    intro b c hab hbc
    cases b with
    | nil => simp [string_lt] at hab
    | cons y ys =>
      cases c with
      | nil => simp [string_lt] at hbc
      | cons z zs => rfl
  | cons x xs ih =>
    intro b c hab hbc
    cases b with
    | nil => simp [string_lt] at hab
    | cons y ys =>
      cases c with
      | nil => simp [string_lt] at hbc
      | cons z zs =>
        simp only [string_lt, Bool.or_eq_true, decide_eq_true_eq, Bool.and_eq_true] at hab hbc ⊢
        rcases hab with hab | ⟨hxy, hab⟩
        · rcases hbc with hbc | ⟨hyz, hbc⟩
          · left; omega
          · left; omega
        · rcases hbc with hbc | ⟨hyz, hbc⟩
          · left; omega
          · right
            exact ⟨by omega, ih ys zs hab hbc⟩

theorem string_lt_tri : ∀ a b : List Char, string_lt a b = false → string_lt b a = false →
    a = b := by
  intro a
  induction a with
  | nil =>
    intro b hab hba
    cases b with
    | nil => rfl
    | cons y ys => simp [string_lt] at hab
  | cons x xs ih =>
    intro b hab hba
    cases b with
    | nil => simp [string_lt] at hba
    | cons y ys =>
      simp only [string_lt, Bool.or_eq_false_iff, decide_eq_false_iff_not,
        Bool.and_eq_false_iff] at hab hba
      have hxy : x.toNat = y.toNat := by omega
      have hxs : string_lt xs ys = false := by
        rcases hab.2 with h | h
        · exact absurd hxy h
        · exact h
      have hys : string_lt ys xs = false := by
        rcases hba.2 with h | h
        · exact absurd hxy.symm h
        · exact h
      rw [char_toNat_inj x y hxy, ih ys hxs hys]

theorem string_lt_asymm (a b : List Char) (h : string_lt a b = true) : string_lt b a = false := by
  cases hb : string_lt b a with
  | false => rfl
  | true =>
    have := string_lt_trans a b a h hb
    rw [string_lt_irrefl] at this
    exact absurd this (by simp)

theorem string_lt_ne (a b : List Char) (h : string_lt a b = true) : a ≠ b := by
  intro e
  rw [e, string_lt_irrefl] at h
  exact absurd h (by simp)

theorem map_sorted_cons {ν : Type} (k : List Char) (v : ν) (m : List (List Char × ν)) :
    map_sorted ((k, v) :: m) ↔ (∀ p ∈ m, string_lt k p.1 = true) ∧ map_sorted m := by
  unfold map_sorted
  rw [List.map_cons, List.pairwise_cons]
  constructor
  · rintro ⟨h1, h2⟩
    exact ⟨fun p hp => h1 p.1 (List.mem_map_of_mem Prod.fst hp), h2⟩
  · rintro ⟨h1, h2⟩
    refine ⟨?_, h2⟩
    intro a ha
    obtain ⟨p, hp, rfl⟩ := List.mem_map.1 ha
    exact h1 p hp

/-- The entries of a map after `m[k] = v`: the new entry and the old entries of other
keys. -/
theorem mem_map_assign {ν : Type} (k : List Char) (v : ν) :
    ∀ m : List (List Char × ν), map_sorted m →
      ∀ p, p ∈ map_assign string_lt k v m ↔ p = (k, v) ∨ (p ∈ m ∧ p.1 ≠ k) := by
  intro m
  induction m with
  | nil => intro _ p; simp [map_assign]
  | cons e rest ih =>
    obtain ⟨k', v'⟩ := e
    intro hs p
    obtain ⟨hhead, hrest⟩ := (map_sorted_cons k' v' rest).1 hs
    unfold map_assign
    by_cases h1 : string_lt k k' = true
    · rw [if_pos h1]
      have hne : ∀ q ∈ (k', v') :: rest, q.1 ≠ k := by
        intro q hq
        rcases List.mem_cons.1 hq with rfl | hq
        · exact (string_lt_ne k k' h1).symm
        · exact (string_lt_ne k q.1 (string_lt_trans k k' q.1 h1 (hhead q hq))).symm
      rw [List.mem_cons]
      constructor
      · rintro (h | h)
        · exact Or.inl h
        · exact Or.inr ⟨h, hne p h⟩
      · rintro (h | h)
        · exact Or.inl h
        · exact Or.inr h.1
    · rw [if_neg h1]
      by_cases h2 : string_lt k' k = true
      · rw [if_pos h2, List.mem_cons, ih hrest p, List.mem_cons]
        have hk : k' ≠ k := string_lt_ne k' k h2
        constructor
        · rintro (h | h | h)
          · exact Or.inr ⟨Or.inl h, by rw [h]; exact hk⟩
          · exact Or.inl h
          · exact Or.inr ⟨Or.inr h.1, h.2⟩
        · rintro (h | ⟨h | h, hn⟩)
          · exact Or.inr (Or.inl h)
          · exact Or.inl h
          · exact Or.inr (Or.inr ⟨h, hn⟩)
      · rw [if_neg h2]
        have hk : k = k' := string_lt_tri k k' (by simpa using h1) (by simpa using h2)
        subst hk
        rw [List.mem_cons, List.mem_cons]
        constructor
        · rintro (h | h)
          · exact Or.inl h
          · exact Or.inr ⟨Or.inr h, (string_lt_ne k p.1 (hhead p h)).symm⟩
        · rintro (h | ⟨h | h, hn⟩)
          · exact Or.inl h
          · rw [h] at hn
            exact absurd rfl hn
          · exact Or.inr h

theorem map_assign_sorted {ν : Type} (k : List Char) (v : ν) :
    ∀ m : List (List Char × ν), map_sorted m → map_sorted (map_assign string_lt k v m) := by
  intro m
  induction m with
  | nil =>
    intro _
    unfold map_assign map_sorted
    simp
  | cons e rest ih =>
    obtain ⟨k', v'⟩ := e
    intro hs
    obtain ⟨hhead, hrest⟩ := (map_sorted_cons k' v' rest).1 hs
    unfold map_assign
    by_cases h1 : string_lt k k' = true
    · rw [if_pos h1, map_sorted_cons]
      refine ⟨?_, hs⟩
      intro q hq
      rcases List.mem_cons.1 hq with rfl | hq
      · exact h1
      · exact string_lt_trans k k' q.1 h1 (hhead q hq)
    · rw [if_neg h1]
      by_cases h2 : string_lt k' k = true
      · rw [if_pos h2, map_sorted_cons]
        refine ⟨?_, ih hrest⟩
        intro q hq
        rcases (mem_map_assign k v rest hrest q).1 hq with rfl | ⟨hq, _⟩
        · exact h2
        · exact hhead q hq
      · rw [if_neg h2]
        have hk : k = k' := string_lt_tri k k' (by simpa using h1) (by simpa using h2)
        subst hk
        rw [map_sorted_cons]
        exact ⟨hhead, hrest⟩

/-- In a map, the entry of a key is the one that `find` gives. -/
theorem map_find_iff_mem {ν : Type} (k : List Char) (v : ν) :
    ∀ m : List (List Char × ν), map_sorted m → (map_find k m = some v ↔ (k, v) ∈ m) := by
  intro m
  induction m with
  | nil => intro _; simp [map_find]
  | cons e rest ih =>
    obtain ⟨k', v'⟩ := e
    intro hs
    obtain ⟨hhead, hrest⟩ := (map_sorted_cons k' v' rest).1 hs
    unfold map_find
    by_cases hk : k' = k
    · subst hk
      rw [if_pos rfl, List.mem_cons]
      constructor
      · intro h
        rw [Option.some.injEq] at h
        rw [h]
        exact Or.inl rfl
      · rintro (h | h)
        · rw [Prod.mk.injEq] at h
          rw [h.2]
        · exact absurd rfl (string_lt_ne k' k' (hhead (k', v) h))
    · rw [if_neg hk, ih hrest, List.mem_cons]
      constructor
      · exact Or.inr
      · rintro (h | h)
        · rw [Prod.mk.injEq] at h
          exact absurd h.1.symm hk
        · exact h

theorem map_find_none_of_not_mem {ν : Type} (k : List Char) :
    ∀ m : List (List Char × ν), (∀ p ∈ m, p.1 ≠ k) → map_find k m = none := by
  intro m
  induction m with
  | nil => intro _; rfl
  | cons e rest ih =>
    obtain ⟨k', v'⟩ := e
    intro h
    unfold map_find
    rw [if_neg (h (k', v') (List.mem_cons_self _ _))]
    exact ih (fun p hp => h p (List.mem_cons_of_mem _ hp))

theorem map_sorted_nodup {ν : Type} (m : List (List Char × ν)) (h : map_sorted m) :
    (m.map Prod.fst).Nodup := by
  unfold map_sorted at h
  exact h.imp (fun hab => string_lt_ne _ _ hab)

theorem mem_set_insert (k : List Char) : ∀ s : List (List Char),
    ∀ q, q ∈ set_insert string_lt k s ↔ q = k ∨ q ∈ s := by
  intro s
  induction s with
  | nil => intro q; simp [set_insert]
  | cons k' rest ih =>
    intro q
    unfold set_insert
    by_cases h1 : string_lt k k' = true
    · rw [if_pos h1, List.mem_cons]
    · rw [if_neg h1]
      by_cases h2 : string_lt k' k = true
      · rw [if_pos h2, List.mem_cons, ih q, List.mem_cons]
        constructor
        · rintro (h | h | h)
          · exact Or.inr (Or.inl h)
          · exact Or.inl h
          · exact Or.inr (Or.inr h)
        · rintro (h | h | h)
          · exact Or.inr (Or.inl h)
          · exact Or.inl h
          · exact Or.inr (Or.inr h)
      · rw [if_neg h2]
        have hk : k = k' := string_lt_tri k k' (by simpa using h1) (by simpa using h2)
        subst hk
        rw [List.mem_cons]
        constructor
        · intro h
          exact Or.inr h
        · rintro (h | h)
          · exact Or.inl h
          · exact h

theorem set_insert_sorted (k : List Char) : ∀ s : List (List Char), set_sorted s →
    set_sorted (set_insert string_lt k s) := by
  intro s
  induction s with
  | nil =>
    intro _
    unfold set_insert set_sorted
    simp
  | cons k' rest ih =>
    intro hs
    unfold set_sorted at hs ih ⊢
    rw [List.pairwise_cons] at hs
    unfold set_insert
    by_cases h1 : string_lt k k' = true
    · rw [if_pos h1, List.pairwise_cons]
      refine ⟨?_, List.pairwise_cons.2 hs⟩
      intro q hq
      rcases List.mem_cons.1 hq with rfl | hq
      · exact h1
      · exact string_lt_trans k k' q h1 (hs.1 q hq)
    · rw [if_neg h1]
      by_cases h2 : string_lt k' k = true
      · rw [if_pos h2, List.pairwise_cons]
        refine ⟨?_, ih hs.2⟩
        intro q hq
        rcases (mem_set_insert k rest q).1 hq with rfl | hq
        · exact h2
        · exact hs.1 q hq
      · rw [if_neg h2]
        exact List.pairwise_cons.2 hs

/-! ## The argument table and the metadata -/

theorem names_distinct_index (md : halide_filter_metadata_t) (h : names_distinct md)
    (i j : Nat) (x y : halide_filter_argument_t) (hi : md.arguments[i]? = some x)
    (hj : md.arguments[j]? = some y) (hxy : x.name = y.name) : i = j := by
  unfold names_distinct at h
  have hi' : (md.arguments.map (fun a => a.name))[i]? = some x.name := by
    rw [List.getElem?_map, hi]; rfl
  have hj' : (md.arguments.map (fun a => a.name))[j]? = some y.name := by
    rw [List.getElem?_map, hj]; rfl
  have hil : i < (md.arguments.map (fun a => a.name)).length := by
    by_contra hc
    rw [List.getElem?_eq_none (by omega)] at hi'
    exact absurd hi' (by simp)
  have hjl : j < (md.arguments.map (fun a => a.name)).length := by
    by_contra hc
    rw [List.getElem?_eq_none (by omega)] at hj'
    exact absurd hj' (by simp)
  rw [List.getElem?_eq_getElem hil, Option.some.injEq] at hi'
  rw [List.getElem?_eq_getElem hjl, Option.some.injEq] at hj'
  exact (List.Nodup.getElem_inj_iff h).1 (by rw [hi', hj', hxy])

theorem process_flag_args (w : Nat) (st st' : MainState) (arg : List Char)
    (h : process_flag w st arg = some (.ok st')) :
    st'.args = st.args ∧ st'.found = st.found ∧ st'.unknown_args = st.unknown_args := by
  unfold process_flag at h
  simp only at h
  cases hs : split_string (if (List.drop 1 arg).head? = some (Char.ofNat 45)
      then List.drop 1 (List.drop 1 arg) else List.drop 1 arg) "=".toList with
  | none => rw [hs] at h; simp at h
  | some v =>
    rw [hs] at h
    simp only at h
    have hb : ∀ (r : Except (List Char) Bool) (f : Bool → MainState),
        (∀ b, (f b).args = st.args ∧ (f b).found = st.found ∧
          (f b).unknown_args = st.unknown_args) →
        some (r.map f) = some (Except.ok st') →
        st'.args = st.args ∧ st'.found = st.found ∧ st'.unknown_args = st.unknown_args := by
      intro r f hf hr
      cases r with
      | error e => simp [Except.map] at hr
      | ok b =>
        simp only [Except.map, Option.some.injEq, Except.ok.injEq] at hr
        rw [← hr]
        exact hf b
    have hn : ∀ (r : Except (List Char) Int) (f : Int → MainState),
        (∀ b, (f b).args = st.args ∧ (f b).found = st.found ∧
          (f b).unknown_args = st.unknown_args) →
        some (r.map f) = some (Except.ok st') →
        st'.args = st.args ∧ st'.found = st.found ∧ st'.unknown_args = st.unknown_args := by
      intro r f hf hr
      cases r with
      | error e => simp [Except.map] at hr
      | ok b =>
        simp only [Except.map, Option.some.injEq, Except.ok.injEq] at hr
        rw [← hr]
        exact hf b
    by_cases c0 : v.length > 2
    · rw [if_pos c0] at h; simp at h
    rw [if_neg c0] at h
    by_cases c1 : v.getD 0 [] = "verbose".toList
    · rw [if_pos c1] at h
      refine hb _ _ ?_ h
      intro b
      exact ⟨rfl, rfl, rfl⟩
    rw [if_neg c1] at h
    by_cases c2 : v.getD 0 [] = "print".toList
    · rw [if_pos c2] at h
      refine hb _ _ ?_ h
      intro b
      exact ⟨rfl, rfl, rfl⟩
    rw [if_neg c2] at h
    by_cases c3 : v.getD 0 [] = "describe".toList
    · rw [if_pos c3] at h
      refine hb _ _ ?_ h
      intro b
      exact ⟨rfl, rfl, rfl⟩
    rw [if_neg c3] at h
    by_cases c4 : v.getD 0 [] = "benchmark".toList
    · rw [if_pos c4] at h
      refine hb _ _ ?_ h
      intro b
      exact ⟨rfl, rfl, rfl⟩
    rw [if_neg c4] at h
    by_cases c5 : v.getD 0 [] = "track_memory".toList
    · rw [if_pos c5] at h
      refine hb _ _ ?_ h
      intro b
      exact ⟨rfl, rfl, rfl⟩
    rw [if_neg c5] at h
    by_cases c6 : v.getD 0 [] = "benchmark_samples".toList
    · rw [if_pos c6] at h
      refine hn _ _ ?_ h
      intro b
      exact ⟨rfl, rfl, rfl⟩
    rw [if_neg c6] at h
    by_cases c7 : v.getD 0 [] = "benchmark_iterations".toList
    · rw [if_pos c7] at h
      refine hn _ _ ?_ h
      intro b
      exact ⟨rfl, rfl, rfl⟩
    rw [if_neg c7] at h
    by_cases c8 : v.getD 0 [] = "output_extents".toList
    · rw [if_pos c8] at h
      cases hp : parse_extents w (if v.length > 1 then v.getD 1 [] else []) with
      | none => rw [hp] at h; simp at h
      | some r =>
        rw [hp] at h
        cases r with
        | error e => simp [Except.map] at h
        | ok shape =>
          simp only [Option.map_some', Except.map, Option.some.injEq, Except.ok.injEq] at h
          rw [← h]
          exact ⟨rfl, rfl, rfl⟩
    rw [if_neg c8] at h
    simp at h

/-- What a successful step of the loop over `argv` does for an argument of the form
`name=value`: an unknown name is noted and the loop is left, or the value is recorded for
an entry whose raw string was empty. -/
theorem process_named_ok (st st' : MainState) (a : List Char) (b : Bool)
    (h : process_named st a = some (.ok (b, st'))) :
    (b = true ∧ st'.args = st.args ∧ st'.found = st.found ∧
      ∃ x, st'.unknown_args = st.unknown_args ++ [x]) ∨
    (b = false ∧ ∃ name value arg, split_string a "=".toList = some [name, value] ∧
      value ≠ [] ∧ map_find name st.args = some arg ∧ arg.raw_string = [] ∧
      st'.args = map_assign string_lt name { arg with raw_string := value } st.args ∧
      st'.found = set_insert string_lt name st.found ∧
      st'.unknown_args = st.unknown_args) := by
  unfold process_named at h
  cases hs : split_string a "=".toList with
  | none => rw [hs] at h; simp at h
  | some v =>
    rw [hs] at h
    simp only at h
    by_cases c0 : v.length ≠ 2 ∨ (v.getD 0 []).isEmpty = true ∨ (v.getD 1 []).isEmpty = true
    · rw [if_pos c0] at h; simp at h
    rw [if_neg c0] at h
    have hv : v = [v.getD 0 [], v.getD 1 []] := by
      have hl : v.length = 2 := by
        by_contra hc
        exact c0 (Or.inl hc)
      match v, hl with
      | [x, y], _ => rfl
    cases hf : map_find (v.getD 0 []) st.args with
    | none =>
      rw [hf] at h
      simp only [Option.some.injEq, Except.ok.injEq, Prod.mk.injEq] at h
      left
      rw [← h.2]
      exact ⟨h.1.symm, rfl, rfl, _, rfl⟩
    | some arg =>
      rw [hf] at h
      simp only at h
      by_cases c1 : (v.getD 1 []).isEmpty = true
      · rw [if_pos c1] at h; simp at h
      rw [if_neg c1] at h
      by_cases c2 : (!arg.raw_string.isEmpty) = true
      · rw [if_pos c2] at h; simp at h
      rw [if_neg c2] at h
      simp only [Option.some.injEq, Except.ok.injEq, Prod.mk.injEq] at h
      right
      refine ⟨h.1.symm, v.getD 0 [], v.getD 1 [], arg, ?_, ?_, hf, ?_, ?_, ?_, ?_⟩
      · rw [← hv]
      · intro he
        apply c1
        rw [he]
        rfl
      · simpa using c2
      · rw [← h.2]
      · rw [← h.2]
      · rw [← h.2]

theorem getElem?_append_singleton_self {α : Type} (pre : List α) (a : α) (rest : List α) :
    (pre ++ a :: rest)[pre.length]? = some a := by
  rw [List.getElem?_append_right (le_refl _)]
  simp

/-- The first loop of `main` builds a table that agrees with the metadata. -/
theorem init_args_ok (md : halide_filter_metadata_t) (hnd : names_distinct md) :
    ∀ (rest pre : List halide_filter_argument_t) (args : List (List Char × ArgData))
      (found : List (List Char)),
      md.arguments = pre ++ rest →
      map_sorted args →
      (∀ p ∈ args, p.1 = p.2.metadata.name ∧ md.arguments[p.2.index]? = some p.2.metadata ∧
        p.2.index < pre.length) →
      (∀ i a, i < pre.length → md.arguments[i]? = some a →
        ∃ arg, (a.name, arg) ∈ args ∧ arg.index = i ∧ arg.metadata = a) →
      found_ok args found →
      args_ok md (init_args pre.length rest (args, found)).1 ∧
      found_ok (init_args pre.length rest (args, found)).1
        (init_args pre.length rest (args, found)).2 := by
  intro rest
  induction rest with
  | nil =>
    intro pre args found hmd hs h2 h3 hf
    rw [List.append_nil] at hmd
    unfold init_args
    refine ⟨⟨hs, fun p hp => ⟨(h2 p hp).1, (h2 p hp).2.1⟩, ?_⟩, hf⟩
    intro i a hia
    have hi : i < pre.length := by
      rw [← hmd]
      by_contra hc
      rw [List.getElem?_eq_none (by omega)] at hia
      exact absurd hia (by simp)
    exact h3 i a hi hia
  | cons a rest ih =>
    intro pre args found hmd hs h2 h3 hf
    have hmd' : md.arguments = (pre ++ [a]) ++ rest := by
      rw [hmd]; simp
    have hlen : (pre ++ [a]).length = pre.length + 1 := by simp
    have hat : md.arguments[pre.length]? = some a := by
      rw [hmd]
      exact getElem?_append_singleton_self pre a rest
    -- no entry of the table has the name of `a`
    have hfresh : ∀ p ∈ args, p.1 ≠ a.name := by
      intro p hp hpa
      obtain ⟨hname, hmeta, hidx⟩ := h2 p hp
      have := names_distinct_index md hnd p.2.index pre.length p.2.metadata a hmeta hat
        (by rw [← hname, hpa])
      omega
    obtain ⟨hfs, hfm, hfh⟩ := hf
    -- the step for an entry `e` of the name of `a`
    have step : ∀ (e : ArgData), e.index = pre.length → e.metadata = a →
        map_sorted (map_assign string_lt a.name e args) ∧
        (∀ p ∈ map_assign string_lt a.name e args,
          p.1 = p.2.metadata.name ∧ md.arguments[p.2.index]? = some p.2.metadata ∧
          p.2.index < (pre ++ [a]).length) ∧
        (∀ i x, i < (pre ++ [a]).length → md.arguments[i]? = some x →
          ∃ arg, (x.name, arg) ∈ map_assign string_lt a.name e args ∧ arg.index = i ∧
            arg.metadata = x) := by
      intro e hei hem
      refine ⟨map_assign_sorted _ _ _ hs, ?_, ?_⟩
      · intro p hp
        rcases (mem_map_assign a.name e args hs p).1 hp with rfl | ⟨hp, _⟩
        · simp only [hem, hei, hat, hlen]
          exact ⟨trivial, trivial, by omega⟩
        · obtain ⟨h1, h2', h3'⟩ := h2 p hp
          exact ⟨h1, h2', by rw [hlen]; omega⟩
      · intro i x hi hix
        rw [hlen] at hi
        by_cases hip : i < pre.length
        · obtain ⟨arg, harg, hidx, hmeta⟩ := h3 i x hip hix
          refine ⟨arg, ?_, hidx, hmeta⟩
          exact (mem_map_assign a.name e args hs _).2 (Or.inr ⟨harg, hfresh _ harg⟩)
        · have hie : i = pre.length := by omega
          subst hie
          rw [hat, Option.some.injEq] at hix
          subst hix
          exact ⟨e, (mem_map_assign a.name e args hs _).2 (Or.inl rfl), hei, hem⟩
    unfold init_args
    simp only
    by_cases hh : a.type.code = halide_type_handle
    · rw [if_pos hh]
      obtain ⟨s1, s2, s3⟩ := step ⟨pre.length, a, "nullptr".toList⟩ rfl rfl
      rw [← hlen]
      apply ih (pre ++ [a]) _ _ hmd' s1 s2 s3
      refine ⟨set_insert_sorted _ _ hfs, ?_, ?_⟩
      · intro k
        rw [mem_set_insert]
        constructor
        · rintro (hk | hk)
          · subst hk
            exact ⟨_, (mem_map_assign _ _ args hs _).2 (Or.inl rfl), by simp⟩
          · obtain ⟨arg, harg, hraw⟩ := (hfm k).1 hk
            exact ⟨arg, (mem_map_assign _ _ args hs _).2 (Or.inr ⟨harg, hfresh _ harg⟩), hraw⟩
        · rintro ⟨arg, harg, hraw⟩
          rcases (mem_map_assign _ _ args hs _).1 harg with he | ⟨hin, _⟩
          · rw [Prod.mk.injEq] at he
            exact Or.inl he.1
          · exact Or.inr ((hfm k).2 ⟨arg, hin, hraw⟩)
      · intro p hp _
        rcases (mem_map_assign _ _ args hs _).1 hp with rfl | ⟨hin, _⟩
        · simp
        · exact hfh p hin (by
            obtain ⟨_, _, _⟩ := h2 p hin
            assumption)
    · rw [if_neg hh]
      obtain ⟨s1, s2, s3⟩ := step ⟨pre.length, a, []⟩ rfl rfl
      rw [← hlen]
      apply ih (pre ++ [a]) _ _ hmd' s1 s2 s3
      refine ⟨hfs, ?_, ?_⟩
      · intro k
        rw [hfm k]
        constructor
        · rintro ⟨arg, harg, hraw⟩
          exact ⟨arg, (mem_map_assign _ _ args hs _).2 (Or.inr ⟨harg, hfresh _ harg⟩), hraw⟩
        · rintro ⟨arg, harg, hraw⟩
          rcases (mem_map_assign _ _ args hs _).1 harg with he | ⟨hin, _⟩
          · rw [Prod.mk.injEq] at he
            rw [he.2] at hraw
            exact absurd rfl hraw
          · exact ⟨arg, hin, hraw⟩
      · intro p hp hph
        rcases (mem_map_assign _ _ args hs _).1 hp with rfl | ⟨hin, _⟩
        · exact absurd hph hh
        · exact hfh p hin hph

/-- Recording a value for an entry of the table keeps the table in agreement with the
metadata. -/
theorem assign_value_ok (md : halide_filter_metadata_t) (args : List (List Char × ArgData))
    (found : List (List Char)) (name value : List Char) (arg : ArgData)
    (ha : args_ok md args) (hf : found_ok args found)
    (hfind : map_find name args = some arg) (hv : value ≠ []) :
    args_ok md (map_assign string_lt name { arg with raw_string := value } args) ∧
    found_ok (map_assign string_lt name { arg with raw_string := value } args)
      (set_insert string_lt name found) := by
  obtain ⟨hs, h2, h3⟩ := ha
  obtain ⟨hfs, hfm, hfh⟩ := hf
  have hmem : (name, arg) ∈ args := (map_find_iff_mem name arg args hs).1 hfind
  have huniq : ∀ arg', (name, arg') ∈ args → arg' = arg := by
    intro arg' h'
    have := (map_find_iff_mem name arg' args hs).2 h'
    rw [hfind, Option.some.injEq] at this
    exact this.symm
  refine ⟨⟨map_assign_sorted _ _ _ hs, ?_, ?_⟩, set_insert_sorted _ _ hfs, ?_, ?_⟩
  · intro p hp
    rcases (mem_map_assign _ _ args hs p).1 hp with rfl | ⟨hp, _⟩
    · exact h2 (name, arg) hmem
    · exact h2 p hp
  · intro i a hia
    obtain ⟨arg0, harg0, hidx, hmeta⟩ := h3 i a hia
    by_cases hn : a.name = name
    · rw [hn] at harg0
      have := huniq arg0 harg0
      subst this
      refine ⟨{ arg0 with raw_string := value }, ?_, hidx, hmeta⟩
      rw [hn]
      exact (mem_map_assign _ _ args hs _).2 (Or.inl rfl)
    · exact ⟨arg0, (mem_map_assign _ _ args hs _).2 (Or.inr ⟨harg0, hn⟩), hidx, hmeta⟩
  · intro k
    rw [mem_set_insert]
    constructor
    · rintro (hk | hk)
      · subst hk
        exact ⟨_, (mem_map_assign _ _ args hs _).2 (Or.inl rfl), hv⟩
      · obtain ⟨arg0, harg0, hraw⟩ := (hfm k).1 hk
        by_cases hn : k = name
        · subst hn
          exact ⟨_, (mem_map_assign _ _ args hs _).2 (Or.inl rfl), hv⟩
        · exact ⟨arg0, (mem_map_assign _ _ args hs _).2 (Or.inr ⟨harg0, hn⟩), hraw⟩
    · rintro ⟨arg0, harg0, hraw⟩
      rcases (mem_map_assign _ _ args hs _).1 harg0 with he | ⟨hin, _⟩
      · rw [Prod.mk.injEq] at he
        exact Or.inl he.1
      · exact Or.inr ((hfm k).2 ⟨arg0, hin, hraw⟩)
  · intro p hp hph
    rcases (mem_map_assign _ _ args hs p).1 hp with rfl | ⟨hin, _⟩
    · exact hv
    · exact hfh p hin hph

theorem init_state_ok (md : halide_filter_metadata_t) (hnd : names_distinct md) :
    args_ok md (MainState.init md).args ∧
    found_ok (MainState.init md).args (MainState.init md).found := by
  have h := init_args_ok md hnd md.arguments [] [] [] rfl
    (by unfold map_sorted; simp) (by simp) (by simp)
    ⟨by unfold set_sorted; simp, by simp, by simp⟩
  exact h

/-- The loop over `argv` keeps the table in agreement with the metadata. -/
theorem process_argv_ok (md : halide_filter_metadata_t) (w : Nat) :
    ∀ (argv : List (List Char)) (st st' : MainState),
      args_ok md st.args → found_ok st.args st.found →
      process_argv w argv st = some (.ok st') →
      args_ok md st'.args ∧ found_ok st'.args st'.found := by
  intro argv
  induction argv with
  | nil =>
    intro st st' ha hf h
    simp only [process_argv, Option.some.injEq, Except.ok.injEq] at h
    rw [← h]
    exact ⟨ha, hf⟩
  | cons a rest ih =>
    intro st st' ha hf h
    unfold process_argv at h
    by_cases hd : a.head? = some (Char.ofNat 45)
    · rw [if_pos hd] at h
      cases hp : process_flag w st a with
      | none => rw [hp] at h; simp at h
      | some r =>
        rw [hp] at h
        cases r with
        | error e => simp at h
        | ok st1 =>
          simp only at h
          obtain ⟨h1, h2, _⟩ := process_flag_args w st st1 a hp
          exact ih st1 st' (by rw [h1]; exact ha) (by rw [h1, h2]; exact hf) h
    · rw [if_neg hd] at h
      cases hp : process_named st a with
      | none => rw [hp] at h; simp at h
      | some r =>
        rw [hp] at h
        cases r with
        | error e => simp at h
        | ok q =>
          obtain ⟨b, st1⟩ := q
          have hstep : args_ok md st1.args ∧ found_ok st1.args st1.found := by
            rcases process_named_ok st st1 a b hp with ⟨_, h1, h2, _⟩ |
              ⟨_, name, value, arg, _, hv, hfind, _, h1, h2, _⟩
            · rw [h1, h2]
              exact ⟨ha, hf⟩
            · rw [h1, h2]
              exact assign_value_ok md st.args st.found name value arg ha hf hfind hv
          cases b with
          | true =>
            simp only [Option.some.injEq, Except.ok.injEq] at h
            rw [← h]
            exact hstep
          | false =>
            simp only at h
            exact ih st1 st' hstep.1 hstep.2 h

/-- What it takes for `main` to get past the check of the arguments. -/
theorem main_resolve_resolved (w : Nat) (md : halide_filter_metadata_t)
    (argv : List (List Char)) (st : MainState) (diagnostics : List Diagnostic)
    (h : main_resolve w md argv = some (.ok (.resolved st diagnostics))) :
    process_argv w (argv.drop 1) (MainState.init md) = some (.ok st) ∧
    st.describe = false ∧
    check_arguments st (st.benchmark || st.track_memory) = .ok () := by
  unfold main_resolve at h
  by_cases h1 : argv.length ≤ 1
  · rw [if_pos h1] at h; simp at h
  rw [if_neg h1] at h
  cases hp : process_argv w (argv.drop 1) (MainState.init md) with
  | none => rw [hp] at h; simp at h
  | some r =>
    rw [hp] at h
    cases r with
    | error e => simp at h
    | ok st1 =>
      simp only at h
      by_cases hd : st1.describe = true
      · rw [if_pos hd] at h; simp at h
      rw [if_neg hd] at h
      cases hc : check_arguments st1 (st1.benchmark || st1.track_memory) with
      | error e => rw [hc] at h; simp at h
      | ok u =>
        rw [hc] at h
        simp only [Option.some.injEq, Except.ok.injEq, Resolution.resolved.injEq] at h
        rw [← h.1]
        exact ⟨rfl, by simpa using hd, hc⟩

/-- The table of a command line that `main` has resolved agrees with the metadata. -/
theorem main_resolve_ok (w : Nat) (md : halide_filter_metadata_t) (hnd : names_distinct md)
    (argv : List (List Char)) (st : MainState) (diagnostics : List Diagnostic)
    (h : main_resolve w md argv = some (.ok (.resolved st diagnostics))) :
    args_ok md st.args ∧ found_ok st.args st.found := by
  obtain ⟨hp, _, _⟩ := main_resolve_resolved w md argv st diagnostics h
  obtain ⟨ha, hf⟩ := init_state_ok md hnd
  exact process_argv_ok md w _ _ _ ha hf hp

/-! ## The call vector at the bounds query -/

theorem slot_set (fa : List Slot) (i j : Nat) (v : Slot) :
    (fa.set i v).getD j .null = if i = j ∧ i < fa.length then v else fa.getD j .null := by
  simp only [List.getD_eq_getElem?_getD, List.getElem?_set]
  by_cases hij : i = j
  · subst hij
    by_cases hl : i < fa.length
    · simp [hl]
    · simp [hl]
      rw [List.getElem?_eq_none (by omega)]
      rfl
  · simp [hij]

/-- One step of the loop over the inputs: the length of the call vector stays, only the
element of index `arg.index` can change, and for an input it gets the resolved value. -/
theorem resolve_input_slots (env : Environment) (verbose : Bool) (w : Nat) (D : Shape)
    (arg_name : List Char) (arg : ArgData) (rs rs' : RunState)
    (h : resolve_input env verbose w arg_name arg rs = some (.ok rs')) :
    rs'.filter_argv.length = rs.filter_argv.length ∧
    (∀ i, (arg.index = i →
        arg.metadata.kind = halide_argument_kind_t.halide_argument_kind_output_buffer) →
      rs'.filter_argv.getD i .null = rs.filter_argv.getD i .null) ∧
    (arg.metadata.kind ≠ halide_argument_kind_t.halide_argument_kind_output_buffer →
      arg.index < rs.filter_argv.length →
      holds_resolved env verbose w D arg (rs'.filter_argv.getD arg.index .null)) := by
  unfold resolve_input at h
  unfold holds_resolved
  cases hk : arg.metadata.kind with
  | halide_argument_kind_input_scalar =>
    rw [hk] at h
    simp only at h
    cases hp : parse_scalar env.fextract arg.metadata.type arg.raw_string env.indeterminate with
    | error e => rw [hp] at h; simp at h
    | ok r =>
      obtain ⟨b, v⟩ := r
      rw [hp] at h
      cases b with
      | false => simp at h
      | true =>
        simp only [Option.some.injEq, Except.ok.injEq] at h
        rw [← h]
        simp only [List.length_set, slot_set]
        refine ⟨trivial, ?_, ?_⟩
        · intro i hi
          have hne : ¬ (arg.index = i ∧ arg.index < rs.filter_argv.length) := by
            intro hc
            exact absurd (hi hc.1) (by simp)
          rw [if_neg hne]
        · intro _ hlt
          exact ⟨v, rfl, by simp [hlt]⟩
  | halide_argument_kind_input_buffer =>
    rw [hk] at h
    simp only at h
    cases hp : load_input env verbose w arg.raw_string arg.metadata with
    | none => rw [hp] at h; simp at h
    | some r =>
      rw [hp] at h
      cases r with
      | error e => simp at h
      | ok q =>
        obtain ⟨d, b⟩ := q
        simp only [Option.some.injEq, Except.ok.injEq] at h
        rw [← h]
        simp only [List.length_set, slot_set]
        refine ⟨trivial, ?_, ?_⟩
        · intro i hi
          have hne : ¬ (arg.index = i ∧ arg.index < rs.filter_argv.length) := by
            intro hc
            exact absurd (hi hc.1) (by simp)
          rw [if_neg hne]
        · intro _ hlt
          exact ⟨d, b, rfl, by simp [hlt]⟩
  | halide_argument_kind_output_buffer =>
    rw [hk] at h
    simp only [Option.some.injEq, Except.ok.injEq] at h
    rw [← h]
    exact ⟨rfl, fun _ _ => rfl, fun hc => absurd rfl hc⟩

/-- The loop over the inputs: every input of the list has its resolved value in the element
of its index, and the elements of other indices are as before. -/
theorem resolve_inputs_slots (env : Environment) (verbose : Bool) (w : Nat) (D : Shape) :
    ∀ (l : List (List Char × ArgData)) (rs rs' : RunState),
      resolve_inputs env verbose w l rs = some (.ok rs') →
      rs'.filter_argv.length = rs.filter_argv.length ∧
      (∀ i, (∀ p ∈ l, p.2.index = i →
          p.2.metadata.kind = halide_argument_kind_t.halide_argument_kind_output_buffer) →
        rs'.filter_argv.getD i .null = rs.filter_argv.getD i .null) ∧
      ((l.map (fun p => p.2.index)).Nodup → ∀ p ∈ l,
        p.2.metadata.kind ≠ halide_argument_kind_t.halide_argument_kind_output_buffer →
        p.2.index < rs.filter_argv.length →
        holds_resolved env verbose w D p.2 (rs'.filter_argv.getD p.2.index .null)) := by
  intro l
  induction l with
  | nil =>
    intro rs rs' h
    simp only [resolve_inputs, Option.some.injEq, Except.ok.injEq] at h
    rw [← h]
    exact ⟨rfl, fun _ _ => rfl, fun _ p hp => absurd hp (List.not_mem_nil p)⟩
  | cons q rest ih =>
    intro rs rs' h
    unfold resolve_inputs at h
    cases hq : resolve_input env verbose w q.1 q.2 rs with
    | none => rw [hq] at h; simp at h
    | some r =>
      rw [hq] at h
      cases r with
      | error e => simp at h
      | ok rs1 =>
        simp only at h
        obtain ⟨l1, u1, v1⟩ := resolve_input_slots env verbose w D q.1 q.2 rs rs1 hq
        obtain ⟨l2, u2, v2⟩ := ih rs1 rs' h
        refine ⟨l2.trans l1, ?_, ?_⟩
        · intro i hi
          rw [u2 i (fun p hp => hi p (List.mem_cons_of_mem _ hp))]
          exact u1 i (hi q (List.mem_cons_self _ _))
        · intro hnd p hp hk hlt
          rw [List.map_cons, List.nodup_cons] at hnd
          rcases List.mem_cons.1 hp with rfl | hp
          · have hun : rs'.filter_argv.getD p.2.index .null
                = rs1.filter_argv.getD p.2.index .null := by
              apply u2
              intro r hr hri
              exfalso
              apply hnd.1
              rw [← hri]
              exact List.mem_map_of_mem (fun p => p.2.index) hr
            rw [hun]
            exact v1 hk hlt
          · exact v2 hnd.2 p hp hk (by rw [l1]; exact hlt)

/-- The first loop of the bounds query: every output of the list has its buffer without
storage in the element of its index, and the elements of other indices are as before. -/
theorem place_outputs_slots (D : Shape) :
    ∀ (l : List (List Char × ArgData)) (fa : List Slot),
      (l.foldl (fun fa p => place_output D fa p.2) fa).length = fa.length ∧
      (∀ i, (∀ p ∈ l, p.2.index = i →
          p.2.metadata.kind ≠ halide_argument_kind_t.halide_argument_kind_output_buffer) →
        (l.foldl (fun fa p => place_output D fa p.2) fa).getD i .null = fa.getD i .null) ∧
      ((l.map (fun p => p.2.index)).Nodup → ∀ p ∈ l,
        p.2.metadata.kind = halide_argument_kind_t.halide_argument_kind_output_buffer →
        p.2.index < fa.length →
        (l.foldl (fun fa p => place_output D fa p.2) fa).getD p.2.index .null
          = .buffer (Buffer.of_shape p.2.metadata.type
              (choose_output_extents p.2.metadata.dimensions D))) := by
  intro l
  induction l with
  | nil =>
    intro fa
    exact ⟨rfl, fun _ _ => rfl, fun _ p hp => absurd hp (List.not_mem_nil p)⟩
  | cons q rest ih =>
    intro fa
    rw [List.foldl_cons]
    obtain ⟨l2, u2, v2⟩ := ih (place_output D fa q.2)
    have l1 : (place_output D fa q.2).length = fa.length := by
      unfold place_output
      cases q.2.metadata.kind <;> simp
    have u1 : ∀ i, (q.2.index = i →
        q.2.metadata.kind ≠ halide_argument_kind_t.halide_argument_kind_output_buffer) →
        (place_output D fa q.2).getD i .null = fa.getD i .null := by
      intro i hi
      unfold place_output
      cases hk : q.2.metadata.kind with
      | halide_argument_kind_output_buffer =>
        simp only [slot_set]
        have hne : ¬ (q.2.index = i ∧ q.2.index < fa.length) := by
          intro hc
          exact hi hc.1 hk
        rw [if_neg hne]
      | halide_argument_kind_input_scalar => rfl
      | halide_argument_kind_input_buffer => rfl
    refine ⟨l2.trans l1, ?_, ?_⟩
    · intro i hi
      rw [u2 i (fun p hp => hi p (List.mem_cons_of_mem _ hp))]
      exact u1 i (hi q (List.mem_cons_self _ _))
    · intro hnd p hp hk hlt
      rw [List.map_cons, List.nodup_cons] at hnd
      rcases List.mem_cons.1 hp with rfl | hp
      · have hun : (rest.foldl (fun fa p => place_output D fa p.2)
            (place_output D fa p.2)).getD p.2.index .null
              = (place_output D fa p.2).getD p.2.index .null := by
          apply u2
          intro r hr hri
          exfalso
          apply hnd.1
          rw [← hri]
          exact List.mem_map_of_mem (fun p => p.2.index) hr
        rw [hun]
        unfold place_output
        rw [hk]
        simp only [slot_set, hlt, and_self, if_true]
      · exact v2 hnd.2 p hp hk (by rw [l1]; exact hlt)

/-- In a table that agrees with the metadata no two entries have the same index. -/
theorem args_ok_index_nodup (md : halide_filter_metadata_t) (args : List (List Char × ArgData))
    (h : args_ok md args) : (args.map (fun p => p.2.index)).Nodup := by
  obtain ⟨hs, h2, _⟩ := h
  have hk := map_sorted_nodup args hs
  have hmap : args.map Prod.fst
      = (args.map (fun p => p.2.index)).map
          (fun i => ((md.arguments[i]?).map (fun a => a.name)).getD []) := by
    rw [List.map_map]
    apply List.map_congr_left
    intro p hp
    obtain ⟨hn, hm⟩ := h2 p hp
    simp only [Function.comp, hm, Option.map_some', Option.getD_some]
    exact hn
  rw [hmap] at hk
  exact List.Nodup.of_map _ hk

theorem holds_resolved_ne_null (env : Environment) (verbose : Bool) (w : Nat) (D : Shape)
    (arg : ArgData) (slot : Slot) (h : holds_resolved env verbose w D arg slot) :
    slot ≠ .null := by
  unfold holds_resolved at h
  cases hk : arg.metadata.kind with
  | halide_argument_kind_input_scalar =>
    rw [hk] at h
    obtain ⟨v, _, hs⟩ := h
    rw [hs]
    simp
  | halide_argument_kind_input_buffer =>
    rw [hk] at h
    obtain ⟨d, b, _, hs⟩ := h
    rw [hs]
    simp
  | halide_argument_kind_output_buffer =>
    rw [hk] at h
    rw [h]
    simp

/-- C22: for every metadata list with pairwise distinct argument names and every command
line, when the bounds query is called the call vector has one element for each declared
argument, none of them null, and the element of index `i` holds the resolved value of the
argument declared at index `i` (the scalar parsed from its raw string, the buffer loaded
for it, or the buffer without storage of an output), whatever the order of the arguments on
the command line. -/
theorem bounds_query_slots (env : Environment) (w : Nat) (md : halide_filter_metadata_t)
    (argv : List (List Char)) (st : MainState) (diagnostics : List Diagnostic) (rs : RunState)
    (hnd : names_distinct md)
    (hres : main_resolve w md argv = some (.ok (.resolved st diagnostics)))
    (hbq : bounds_query_state env w md st diagnostics = some (.ok rs)) :
    rs.filter_argv.length = md.arguments.length ∧
    ∀ i a, md.arguments[i]? = some a →
      ∃ arg, map_find a.name st.args = some arg ∧ arg.index = i ∧ arg.metadata = a ∧
        rs.filter_argv.getD i .null ≠ .null ∧
        holds_resolved env st.verbose w rs.default_output_shape arg
          (rs.filter_argv.getD i .null) := by
  obtain ⟨hok, _⟩ := main_resolve_ok w md hnd argv st diagnostics hres
  have hidx := args_ok_index_nodup md st.args hok
  obtain ⟨hs, h2, h3⟩ := hok
  unfold bounds_query_state at hbq
  simp only at hbq
  cases hr : resolve_inputs env st.verbose w st.args
      { default_output_shape := st.default_output_shape
        filter_argv := List.replicate md.arguments.length Slot.null
        diagnostics := diagnostics } with
  | none => rw [hr] at hbq; simp at hbq
  | some r =>
    rw [hr] at hbq
    cases r with
    | error e => simp at hbq
    | ok rs1 =>
      simp only [Option.some.injEq, Except.ok.injEq] at hbq
      obtain ⟨l1, _, v1⟩ := resolve_inputs_slots env st.verbose w rs1.default_output_shape
        st.args _ rs1 hr
      simp only [List.length_replicate] at l1 v1
      obtain ⟨l2, u2, v2⟩ := place_outputs_slots rs1.default_output_shape st.args
        rs1.filter_argv
      rw [← hbq]
      simp only
      refine ⟨l2.trans l1, ?_⟩
      intro i a hia
      obtain ⟨arg, harg, hi, hm⟩ := h3 i a hia
      have hlt : i < md.arguments.length := by
        by_contra hc
        rw [List.getElem?_eq_none (by omega)] at hia
        exact absurd hia (by simp)
      have hfind : map_find a.name st.args = some arg :=
        (map_find_iff_mem a.name arg st.args hs).2 harg
      have hholds : holds_resolved env st.verbose w rs1.default_output_shape arg
          ((st.args.foldl (fun fa p => place_output rs1.default_output_shape fa p.2)
            rs1.filter_argv).getD i .null) := by
        by_cases hk : arg.metadata.kind
            = halide_argument_kind_t.halide_argument_kind_output_buffer
        · have := v2 hidx (a.name, arg) harg hk (by rw [l1, hi]; exact hlt)
          simp only [hi] at this
          rw [this]
          unfold holds_resolved
          rw [hk]
        · have hun : (st.args.foldl (fun fa p => place_output rs1.default_output_shape fa p.2)
              rs1.filter_argv).getD i .null = rs1.filter_argv.getD i .null := by
            apply u2
            intro p hp hpi
            have hpe : p = (a.name, arg) :=
              List.inj_on_of_nodup_map hidx hp harg (by simp only; rw [hpi, hi])
            rw [hpe]
            exact hk
          rw [hun]
          have := v1 hidx (a.name, arg) harg hk (by rw [hi]; exact hlt)
          simp only [hi] at this
          exact this
      exact ⟨arg, hfind, hi, hm,
        holds_resolved_ne_null env st.verbose w _ arg _ hholds, hholds⟩

theorem bounds_query_slots_witness :
    names_distinct metadata_bias_in_out ∧
    main_resolve 32 metadata_bias_in_out
        ["rungen".toList, "out=o.png".toList, "in=zero:[4,5]".toList, "bias=3".toList]
      = some (.ok (.resolved state_bias_in_out [])) ∧
    bounds_query_state (env_status 0) 32 metadata_bias_in_out state_bias_in_out []
      = some (.ok
          { default_output_shape := [⟨0, 4, 0⟩, ⟨0, 5, 0⟩]
            filter_argv := [.scalar (.int 3),
                            .buffer ⟨⟨halide_type_uint, 8, 1⟩, [⟨0, 4, 0⟩, ⟨0, 5, 0⟩]⟩,
                            .buffer ⟨⟨halide_type_uint, 8, 1⟩, [⟨0, 4, 0⟩, ⟨0, 5, 0⟩]⟩]
            diagnostics := [] }) ∧
    ([Slot.scalar (.int 3), .buffer ⟨⟨halide_type_uint, 8, 1⟩, [⟨0, 4, 0⟩, ⟨0, 5, 0⟩]⟩,
      .buffer ⟨⟨halide_type_uint, 8, 1⟩, [⟨0, 4, 0⟩, ⟨0, 5, 0⟩]⟩] : List Slot).length
      = metadata_bias_in_out.arguments.length :=
  ⟨by decide, by decide, by decide,
    (bounds_query_slots (env_status 0) 32 metadata_bias_in_out
      ["rungen".toList, "out=o.png".toList, "in=zero:[4,5]".toList, "bias=3".toList]
      state_bias_in_out []
      { default_output_shape := [⟨0, 4, 0⟩, ⟨0, 5, 0⟩]
        filter_argv := [.scalar (.int 3),
                        .buffer ⟨⟨halide_type_uint, 8, 1⟩, [⟨0, 4, 0⟩, ⟨0, 5, 0⟩]⟩,
                        .buffer ⟨⟨halide_type_uint, 8, 1⟩, [⟨0, 4, 0⟩, ⟨0, 5, 0⟩]⟩]
        diagnostics := [] }
      (by decide) (by decide) (by decide)).1⟩

/-! ## The check of the arguments -/

theorem missing_report_isEmpty (ok : Bool) : ∀ (args : List (List Char × ArgData))
    (o : List Char),
    (missing_report ok args o).isEmpty = true ↔
      o.isEmpty = true ∧ ∀ p ∈ args, p.2.raw_string ≠ [] ∨
        (ok = true ∧
          p.2.metadata.kind = halide_argument_kind_t.halide_argument_kind_output_buffer) := by
  intro args
  induction args with
  | nil => intro o; simp [missing_report]
  | cons q rest ih =>
    intro o
    have hstep : missing_report ok (q :: rest) o
        = missing_report ok rest
            (if q.2.raw_string.isEmpty then
              if ok = true ∧ q.2.metadata.kind
                  = halide_argument_kind_t.halide_argument_kind_output_buffer then o
              else o ++ "Argument value missing for: ".toList ++ q.2.metadata.name
                ++ [Char.ofNat 10]
            else o) := by
      unfold missing_report
      rw [List.foldl_cons]
    rw [hstep, ih]
    by_cases hr : q.2.raw_string.isEmpty = true
    · rw [if_pos hr]
      have hr' : q.2.raw_string = [] := by simpa using hr
      by_cases hc : ok = true ∧ q.2.metadata.kind
          = halide_argument_kind_t.halide_argument_kind_output_buffer
      · rw [if_pos hc]
        constructor
        · rintro ⟨ho, hall⟩
          refine ⟨ho, ?_⟩
          intro p hp
          rcases List.mem_cons.1 hp with rfl | hp
          · exact Or.inr hc
          · exact hall p hp
        · rintro ⟨ho, hall⟩
          exact ⟨ho, fun p hp => hall p (List.mem_cons_of_mem _ hp)⟩
      · rw [if_neg hc]
        constructor
        · rintro ⟨ho, _⟩
          simp at ho
        · rintro ⟨_, hall⟩
          rcases hall q (List.mem_cons_self _ _) with h | h
          · exact absurd hr' h
          · exact absurd h hc
    · rw [if_neg hr]
      have hr' : q.2.raw_string ≠ [] := by simpa using hr
      constructor
      · rintro ⟨ho, hall⟩
        refine ⟨ho, ?_⟩
        intro p hp
        rcases List.mem_cons.1 hp with rfl | hp
        · exact Or.inl hr'
        · exact hall p hp
      · rintro ⟨ho, hall⟩
        exact ⟨ho, fun p hp => hall p (List.mem_cons_of_mem _ hp)⟩

/-- The two sizes that the check compares are equal exactly when no raw string is empty. -/
theorem found_length_eq_iff (args : List (List Char × ArgData)) (found : List (List Char))
    (hs : map_sorted args) (hf : found_ok args found) :
    found.length = args.length ↔ ∀ p ∈ args, p.2.raw_string ≠ [] := by
  obtain ⟨hfs, hfm, _⟩ := hf
  have hnf : found.Nodup := by
    unfold set_sorted at hfs
    exact hfs.imp (fun hab => string_lt_ne _ _ hab)
  have hsub : (args.filter (fun p => decide (p.2.raw_string ≠ []))).Sublist args :=
    List.filter_sublist _
  have hnk : ((args.filter (fun p => decide (p.2.raw_string ≠ []))).map Prod.fst).Nodup :=
    (map_sorted_nodup args hs).sublist (hsub.map Prod.fst)
  have hperm : found.Perm ((args.filter (fun p => decide (p.2.raw_string ≠ []))).map Prod.fst) := by
    rw [List.perm_ext_iff_of_nodup hnf hnk]
    intro k
    rw [hfm k, List.mem_map]
    constructor
    · rintro ⟨arg, harg, hraw⟩
      exact ⟨(k, arg), List.mem_filter.2 ⟨harg, by simpa using hraw⟩, rfl⟩
    · rintro ⟨p, hp, rfl⟩
      obtain ⟨hp1, hp2⟩ := List.mem_filter.1 hp
      exact ⟨p.2, hp1, by simpa using hp2⟩
  have hlen : found.length
      = (args.filter (fun p => decide (p.2.raw_string ≠ []))).length := by
    rw [hperm.length_eq, List.length_map]
  rw [hlen]
  constructor
  · intro h p hp
    have heq := hsub.eq_of_length h
    rw [List.filter_eq_self] at heq
    simpa using heq p hp
  · intro h
    have : args.filter (fun p => decide (p.2.raw_string ≠ [])) = args := by
      rw [List.filter_eq_self]
      intro p hp
      simpa using h p hp
    rw [this]

/-- The check of the arguments, for a table that agrees with the metadata and a command line
without unknown names: it passes exactly when every entry has a raw string or is an output
that may be omitted. -/
theorem check_arguments_iff (st : MainState) (ok : Bool) (hs : map_sorted st.args)
    (hf : found_ok st.args st.found) (hun : st.unknown_args = []) :
    check_arguments st ok = .ok () ↔
      ∀ p ∈ st.args, p.2.raw_string ≠ [] ∨
        (ok = true ∧
          p.2.metadata.kind = halide_argument_kind_t.halide_argument_kind_output_buffer) := by
  unfold check_arguments
  rw [hun]
  have hl := found_length_eq_iff st.args st.found hs hf
  by_cases hg : st.found.length = st.args.length
  · have hgate : ¬ (st.found.length ≠ st.args.length ∨ ¬ ([] : List (List Char)).isEmpty = true) := by
      simp [hg]
    rw [if_neg hgate]
    constructor
    · intro _ p hp
      exact Or.inl (hl.1 hg p hp)
    · intro _
      rfl
  · have hgate : st.found.length ≠ st.args.length ∨ ¬ ([] : List (List Char)).isEmpty = true :=
      Or.inl hg
    rw [if_pos hgate]
    have hm := missing_report_isEmpty ok st.args (unknown_report [])
    have hu : (unknown_report []).isEmpty = true := rfl
    simp only [hu, true_and] at hm
    by_cases he : (missing_report ok st.args (unknown_report [])).isEmpty = true
    · simp only [he, Bool.not_true, Bool.false_eq_true, if_false, true_iff]
      exact hm.1 he
    · simp only [he, Bool.not_false, if_true]
      constructor
      · intro h
        exact absurd h (by simp)
      · intro h
        exact absurd (hm.2 h) he


/-! ## Which entries have a raw string -/

theorem map_find_str_assign_same {ν : Type} (k : List Char) (v : ν) (m : List (List Char × ν))
    (hs : map_sorted m) : map_find k (map_assign string_lt k v m) = some v :=
  (map_find_iff_mem k v _ (map_assign_sorted k v m hs)).2
    ((mem_map_assign k v m hs _).2 (Or.inl rfl))

theorem map_find_str_assign_other {ν : Type} (k q : List Char) (v : ν)
    (m : List (List Char × ν)) (hs : map_sorted m) (hq : q ≠ k) :
    map_find q (map_assign string_lt k v m) = map_find q m := by
  have hs' := map_assign_sorted k v m hs
  cases hm : map_find q m with
  | some x =>
    have hx := (map_find_iff_mem q x m hs).1 hm
    exact (map_find_iff_mem q x _ hs').2 ((mem_map_assign k v m hs _).2 (Or.inr ⟨hx, hq⟩))
  | none =>
    cases hm' : map_find q (map_assign string_lt k v m) with
    | none => rfl
    | some y =>
      have hy := (map_find_iff_mem q y _ hs').1 hm'
      rcases (mem_map_assign k v m hs _).1 hy with he | ⟨hin, _⟩
      · rw [Prod.mk.injEq] at he
        exact absurd he.1 hq
      · have := (map_find_iff_mem q y m hs).2 hin
        rw [hm] at this
        exact absurd this (by simp)

theorem mem_map_assign_sub {ν : Type} (k : List Char) (v : ν) :
    ∀ (m : List (List Char × ν)) (p : List Char × ν),
      p ∈ map_assign string_lt k v m → p = (k, v) ∨ p ∈ m := by
  intro m
  induction m with
  | nil => intro p hp; simp [map_assign] at hp; exact Or.inl hp
  | cons e rest ih =>
    obtain ⟨k', v'⟩ := e
    intro p hp
    unfold map_assign at hp
    split_ifs at hp
    · rcases List.mem_cons.1 hp with h | h
      · exact Or.inl h
      · exact Or.inr h
    · rcases List.mem_cons.1 hp with h | h
      · exact Or.inr (by rw [h]; exact List.mem_cons_self _ _)
      · rcases ih p h with h | h
        · exact Or.inl h
        · exact Or.inr (List.mem_cons_of_mem _ h)
    · rcases List.mem_cons.1 hp with h | h
      · exact Or.inl h
      · exact Or.inr (List.mem_cons_of_mem _ h)

/-- Before the command line is read, the raw string of an entry is `nullptr` for a
handle-typed argument and empty for any other. -/
theorem init_args_raw : ∀ (rest : List halide_filter_argument_t) (i : Nat)
    (args : List (List Char × ArgData)) (found : List (List Char)),
    (∀ p ∈ args, p.2.raw_string
      = if p.2.metadata.type.code = halide_type_handle then "nullptr".toList else []) →
    ∀ p ∈ (init_args i rest (args, found)).1, p.2.raw_string
      = if p.2.metadata.type.code = halide_type_handle then "nullptr".toList else [] := by
  intro rest
  induction rest with
  | nil => intro i args found h; exact h
  | cons a rest ih =>
    intro i args found h
    unfold init_args
    simp only
    by_cases hh : a.type.code = halide_type_handle
    · rw [if_pos hh]
      apply ih
      intro p hp
      rcases mem_map_assign_sub _ _ _ p hp with rfl | hp
      · simp [hh]
      · exact h p hp
    · rw [if_neg hh]
      apply ih
      intro p hp
      rcases mem_map_assign_sub _ _ _ p hp with rfl | hp
      · simp [hh]
      · exact h p hp

theorem given_on_cons_flag (a : List Char) (rest : List (List Char)) (name : List Char)
    (ha : a.head? = some (Char.ofNat 45)) : given_on (a :: rest) name ↔ given_on rest name := by
  unfold given_on
  constructor
  · rintro ⟨x, hx, hd, hv⟩
    rcases List.mem_cons.1 hx with rfl | hx
    · exact absurd ha hd
    · exact ⟨x, hx, hd, hv⟩
  · rintro ⟨x, hx, hd, hv⟩
    exact ⟨x, List.mem_cons_of_mem _ hx, hd, hv⟩

theorem given_on_cons_other (a : List Char) (rest : List (List Char)) (name k value : List Char)
    (ha : split_string a "=".toList = some [name, value]) (hk : k ≠ name) :
    given_on (a :: rest) k ↔ given_on rest k := by
  unfold given_on
  constructor
  · rintro ⟨x, hx, hd, v, hv⟩
    rcases List.mem_cons.1 hx with rfl | hx
    · rw [ha] at hv
      simp only [Option.some.injEq, List.cons.injEq, and_true] at hv
      exact absurd hv.1.symm hk
    · exact ⟨x, hx, hd, v, hv⟩
  · rintro ⟨x, hx, hd, hv⟩
    exact ⟨x, List.mem_cons_of_mem _ hx, hd, hv⟩

/-- The loop over `argv`, when it ends without an unknown name: the raw string of an entry
is the one it had before if the command line gives no value for its name, and is not empty
if the command line gives one. -/
theorem process_argv_given (w : Nat) : ∀ (argv : List (List Char)) (st st' : MainState),
    map_sorted st.args →
    process_argv w argv st = some (.ok st') → st'.unknown_args = [] →
    ∀ name arg', map_find name st'.args = some arg' →
      ∃ arg, map_find name st.args = some arg ∧
        ((arg'.raw_string = arg.raw_string ∧ ¬ given_on argv name) ∨
         (arg'.raw_string ≠ [] ∧ given_on argv name)) := by
  intro argv
  induction argv with
  | nil =>
    intro st st' _ h _ name arg' hf
    simp only [process_argv, Option.some.injEq, Except.ok.injEq] at h
    rw [← h] at hf
    refine ⟨arg', hf, Or.inl ⟨rfl, ?_⟩⟩
    unfold given_on
    simp
  | cons a rest ih =>
    intro st st' hs h hun name arg' hf
    unfold process_argv at h
    by_cases hd : a.head? = some (Char.ofNat 45)
    · rw [if_pos hd] at h
      cases hp : process_flag w st a with
      | none => rw [hp] at h; simp at h
      | some r =>
        rw [hp] at h
        cases r with
        | error e => simp at h
        | ok st1 =>
          simp only at h
          obtain ⟨h1, _, _⟩ := process_flag_args w st st1 a hp
          obtain ⟨arg, harg, hcase⟩ := ih st1 st' (by rw [h1]; exact hs) h hun name arg' hf
          rw [h1] at harg
          rw [given_on_cons_flag a rest name hd]
          exact ⟨arg, harg, hcase⟩
    · rw [if_neg hd] at h
      cases hp : process_named st a with
      | none => rw [hp] at h; simp at h
      | some r =>
        rw [hp] at h
        cases r with
        | error e => simp at h
        | ok q =>
          obtain ⟨b, st1⟩ := q
          rcases process_named_ok st st1 a b hp with ⟨hb, _, _, x, hx⟩ |
            ⟨hb, nm, value, arg0, hsplit, hv, hfind, _, h1, _, _⟩
          · subst hb
            simp only [Option.some.injEq, Except.ok.injEq] at h
            rw [← h, hx] at hun
            simp at hun
          · subst hb
            simp only at h
            have hs1 : map_sorted st1.args := by
              rw [h1]
              exact map_assign_sorted _ _ _ hs
            obtain ⟨arg1, harg1, hcase⟩ := ih st1 st' hs1 h hun name arg' hf
            rw [h1] at harg1
            by_cases hn : name = nm
            · subst hn
              rw [map_find_str_assign_same name _ st.args hs, Option.some.injEq] at harg1
              have hgiven : given_on (a :: rest) name :=
                ⟨a, List.mem_cons_self _ _, hd, value, hsplit⟩
              refine ⟨arg0, hfind, Or.inr ⟨?_, hgiven⟩⟩
              rcases hcase with ⟨hraw, _⟩ | ⟨hraw, _⟩
              · rw [hraw, ← harg1]
                exact hv
              · exact hraw
            · rw [map_find_str_assign_other nm name _ st.args hs hn] at harg1
              rw [given_on_cons_other a rest nm name value hsplit hn]
              exact ⟨arg1, harg1, hcase⟩

/-- After a command line without unknown names, an entry of the table has a raw string
exactly when its argument has a value: the command line gives one, or the argument is
handle-typed. -/
theorem raw_string_iff_has_value (w : Nat) (md : halide_filter_metadata_t)
    (hnd : names_distinct md) (argv : List (List Char)) (st : MainState)
    (hp : process_argv w argv (MainState.init md) = some (.ok st))
    (hun : st.unknown_args = []) (p : List Char × ArgData) (hmem : p ∈ st.args) :
    p.2.raw_string ≠ [] ↔ has_value argv p.2.metadata := by
  obtain ⟨ha, hf⟩ := init_state_ok md hnd
  obtain ⟨ha', hf'⟩ := process_argv_ok md w argv _ st ha hf hp
  have hfind : map_find p.1 st.args = some p.2 := (map_find_iff_mem p.1 p.2 st.args ha'.1).2 hmem
  obtain ⟨arg, harg, hcase⟩ := process_argv_given w argv _ st ha.1 hp hun p.1 p.2 hfind
  have hmem0 := (map_find_iff_mem p.1 arg _ ha.1).1 harg
  have hraw0 := init_args_raw md.arguments 0 [] [] (by simp) (p.1, arg) hmem0
  have hname : p.1 = p.2.metadata.name := (ha'.2.1 p hmem).1
  have hname0 : p.1 = arg.metadata.name := (ha.2.1 (p.1, arg) hmem0).1
  -- the entry before the loop is that of the same declared argument
  have hmeta : arg.metadata = p.2.metadata := by
    have h1 := (ha.2.1 (p.1, arg) hmem0).2
    have h2 := (ha'.2.1 p hmem).2
    have hi : arg.index = p.2.index :=
      names_distinct_index md hnd _ _ _ _ h1 h2 (hname0.symm.trans hname)
    have h1' : md.arguments[arg.index]? = some arg.metadata := h1
    rw [hi, h2, Option.some.injEq] at h1'
    exact h1'.symm
  have hraw0' : arg.raw_string
      = if arg.metadata.type.code = halide_type_handle then "nullptr".toList else [] := hraw0
  rw [hmeta] at hraw0'
  unfold has_value
  rw [← hname]
  rcases hcase with ⟨hraw, hng⟩ | ⟨hraw, hg⟩
  · rw [hraw, hraw0']
    by_cases hh : p.2.metadata.type.code = halide_type_handle
    · simp [hh]
    · simp [hh, hng]
  · constructor
    · intro _
      exact Or.inl hg
    · intro _
      exact hraw

/-- C21 (counterexample): the module declares the input buffer `in` with elements of handle
type and the output buffer `out`.  The command line `out=o.png` has no unknown name and
gives no value for the input buffer, yet the completeness check passes: the table holds the
raw string `nullptr` for `in`, entered before the command line is read because the type code
of `in` is `halide_type_handle`.  On `--verbose` alone the one missing value that is
reported is that of `out`. -/
theorem handle_buffer_passes_check :
    ¬ given_on ["out=o.png".toList] "in".toList ∧
    main_resolve 32 metadata_handle_buffer ["rungen".toList, "out=o.png".toList]
      = some (.ok (.resolved state_handle_buffer [])) ∧
    map_find "in".toList state_handle_buffer.args
      = some ⟨0, ⟨"in".toList, .halide_argument_kind_input_buffer, 2,
          ⟨halide_type_handle, 64, 1⟩⟩, "nullptr".toList⟩ ∧
    main_resolve 32 metadata_handle_buffer ["rungen".toList, "--verbose".toList]
      = some (.error ("Argument value missing for: out".toList ++ [Char.ofNat 10])) := by
  refine ⟨?_, by decide, by decide, by decide⟩
  rintro ⟨a, ha, _, value, hv⟩
  rw [List.mem_singleton] at ha
  subst ha
  have hs : split_string "out=o.png".toList "=".toList = some ["out".toList, "o.png".toList] := by
    decide
  rw [hs] at hv
  simp only [Option.some.injEq, List.cons.injEq, and_true] at hv
  exact absurd hv.1 (by decide)

/-- C21 (amended): for metadata with pairwise distinct names, after a command line without
unknown names the completeness check passes if and only if every declared argument has a
value or is an output buffer omitted under `--benchmark` or `--track_memory`, where the
value is the one that the command line gives or, for an omitted handle-typed argument of
any kind, scalar or buffer, the string `nullptr`.  An omitted input that is not handle-typed
is fatal in every mode. -/
theorem completeness_check (w : Nat) (md : halide_filter_metadata_t) (hnd : names_distinct md)
    (argv : List (List Char)) (st : MainState)
    (hp : process_argv w argv (MainState.init md) = some (.ok st))
    (hun : st.unknown_args = []) :
    check_arguments st (st.benchmark || st.track_memory) = .ok () ↔
      ∀ a ∈ md.arguments, has_value argv a ∨
        ((st.benchmark = true ∨ st.track_memory = true) ∧
          a.kind = halide_argument_kind_t.halide_argument_kind_output_buffer) := by
  obtain ⟨ha, hf⟩ := init_state_ok md hnd
  obtain ⟨ha', hf'⟩ := process_argv_ok md w argv _ st ha hf hp
  rw [check_arguments_iff st _ ha'.1 hf' hun]
  simp only [Bool.or_eq_true]
  constructor
  · intro h a hmem
    obtain ⟨i, hi⟩ := List.mem_iff_getElem?.1 hmem
    obtain ⟨arg, harg, _, hmeta⟩ := ha'.2.2 i a hi
    have hv := raw_string_iff_has_value w md hnd argv st hp hun (a.name, arg) harg
    rcases h (a.name, arg) harg with hr | hr
    · have := hv.1 hr
      rw [hmeta] at this
      exact Or.inl this
    · rw [hmeta] at hr
      exact Or.inr hr
  · intro h p hmem
    have hget := (ha'.2.1 p hmem).2
    have hin : p.2.metadata ∈ md.arguments := List.mem_iff_getElem?.2 ⟨_, hget⟩
    have hv := raw_string_iff_has_value w md hnd argv st hp hun p hmem
    rcases h p.2.metadata hin with hr | hr
    · exact Or.inl (hv.2 hr)
    · exact Or.inr hr

theorem completeness_check_witness :
    check_arguments state_handle_buffer
        (state_handle_buffer.benchmark || state_handle_buffer.track_memory) = .ok () ↔
      ∀ a ∈ metadata_handle_buffer.arguments, has_value ["out=o.png".toList] a ∨
        ((state_handle_buffer.benchmark = true ∨ state_handle_buffer.track_memory = true) ∧
          a.kind = halide_argument_kind_t.halide_argument_kind_output_buffer) :=
  completeness_check 32 metadata_handle_buffer (by decide) ["out=o.png".toList]
    state_handle_buffer (by decide) (by decide)

end RunGen
